import Mathlib

/-!
# ArbNum: a decimal arbitrary-precision integer engine

A shallow embedding of `src/arbnum.cpp` / `src/arbnum.h`, and of the calculator
built on it, `src/bc_tokenizer.cpp` / `src/bc_calc.cpp`.

* `class Unsigned` wraps `std::vector<int> mDigits`, most significant digit
  first.  It is embedded as `List Int`; every function of the class lives in the
  namespace `Unsigned` under its source name.
* `class ArbNum` is embedded as the structure `ArbNum` with the three source
  fields `mSpecial`, `mSign`, `mUnsigned`.
* A `const char*` argument is embedded as the `List Char` of the characters that
  precede the terminating NUL.
* Loops whose termination depends on the digits being decimal carry an iteration
  budget and return `Option`; `none` is also the result of a run in which the C++
  reads a local variable that was never assigned or indexes past the end of a
  vector, for which the language defines no result.  Where only a part of the
  result that the caller drops depends on such a read (`Unsigned::half`), the
  content of the local is a parameter (`divideByTwoWithRemFrom`) and the part
  that is kept is shown not to depend on it.
* `class Tokenizer` is embedded as the structure `Tokenizer` with the source
  fields `mLine`, `mPos`, `mUnget`; the member functions of `class Calc` take the
  tokenizer and return it together with their value.  Text written to the
  standard error stream, and the text the commands `help`, `license` and `tests`
  write to the standard output, are not part of the embedding.
-/

/-! ## Unsigned -/

/-- The pair `{quotient, remainder}` of `class UnsignedDivide`. -/
structure UnsignedDivide where
  quotient : List Int
  remainder : List Int
deriving DecidableEq, Repr

namespace Unsigned

/-- The number a digit sequence denotes (most significant digit first); the empty
sequence denotes 0. -/
def value (ds : List Int) : Int :=
  ds.foldl (fun acc d => 10 * acc + d) 0

/-- Every entry is a decimal digit. -/
def IsDigits (ds : List Int) : Prop :=
  ∀ d ∈ ds, 0 ≤ d ∧ d ≤ 9

instance (ds : List Int) : Decidable (IsDigits ds) := by
  unfold IsDigits; infer_instance

/-- The data-model invariant of a magnitude: decimal digits, at least one of them,
and no leading zero unless the sequence is the single digit 0. -/
def Canonical (ds : List Int) : Prop :=
  IsDigits ds ∧ ds ≠ [] ∧ (ds.head? = some 0 → ds = [0])

instance (ds : List Int) : Decidable (Canonical ds) := by
  unfold Canonical; infer_instance

/-- The constant `UNASSIGNED`. -/
def UNASSIGNED : Int := -1

/-- `Unsigned::pad`: prepend zeros while the length is below `len`. -/
def pad (ds : List Int) (len : Nat) : List Int :=
  List.replicate (len - ds.length) 0 ++ ds

/-- `Unsigned::appendRight`: append `numberOfDigits` copies of `digit`. -/
def appendRight (ds : List Int) (digit : Int) (numberOfDigits : Nat) : List Int :=
  ds ++ List.replicate numberOfDigits digit

/-- `Unsigned::padShorterNumber` (both overloads): the shorter operand is padded to
the length of the longer one. -/
def padShorterNumber (a b : List Int) : List Int × List Int :=
  if a.length < b.length then (pad a b.length, b) else (a, pad b a.length)

/-- `Unsigned::zero`: overwrite every digit with 0. -/
def zero (ds : List Int) : List Int :=
  ds.map (fun _ => 0)

/-- `Unsigned::isZero`: no digits, or every digit is 0. -/
def isZero (ds : List Int) : Bool :=
  ds.all (fun d => d == 0)

/-- `Unsigned::isOne`. -/
def isOne (ds : List Int) : Bool :=
  ds == [1]

/-- `Unsigned::isTwo`. -/
def isTwo (ds : List Int) : Bool :=
  ds == [2]

/-- The free function `isOdd(int)`: `n % 2 != 0` with C's truncating `%`. -/
def isOddInt (n : Int) : Bool :=
  Int.tmod n 2 != 0

/-- The free function `isEven(int)`. -/
def isEvenInt (n : Int) : Bool :=
  !isOddInt n

/-- `Unsigned::isOdd`: parity of the last digit, `false` without digits. -/
def isOdd (ds : List Int) : Bool :=
  match ds.getLast? with
  | none => false
  | some lastDigit => isOddInt lastDigit

/-- `Unsigned::isEven`: parity of the last digit, `true` without digits. -/
def isEven (ds : List Int) : Bool :=
  match ds.getLast? with
  | none => true
  | some lastDigit => isEvenInt lastDigit

/-- `Unsigned::trim`: erase the leading zeros, but keep the last one when every
digit is zero; a sequence that does not start with 0 (the empty one included) is
left alone. -/
def trim : List Int → List Int
  | [] => []
  | [d] => [d]
  | d :: e :: rest => if d = 0 then trim (e :: rest) else d :: e :: rest

/-- `Unsigned::charToInt`. -/
def charToInt (c : Char) : Int :=
  (c.toNat : Int) - 48

/-- `Unsigned::intToChar`; the cast `(char)(n + '0')` is modelled for the values
that stay inside the character range. -/
def intToChar (n : Int) : Char :=
  if n < 0 then '^' else Char.ofNat (n.toNat + 48)

/-- `Unsigned::clear`. -/
def clear (_ds : List Int) : List Int := []

/-- `Unsigned::mkError`: only empties the digit vector. -/
def mkError (ds : List Int) : List Int := clear ds

/-- The character loop of `Unsigned::saveNumber`; `none` stands for the early
`return` taken after `mkError()`. -/
def saveNumberLoop : List Char → List Int → Option (List Int)
  | [], acc => some acc
  | c :: cs, acc =>
    if c = '.' then none
    else if !c.isDigit then none
    else saveNumberLoop cs (acc ++ [charToInt c])

/-- `Unsigned::saveNumber`, run on a digit vector that holds `init`. -/
def saveNumberFrom (init : List Int) (s : List Char) : List Int :=
  match saveNumberLoop s init with
  | none => mkError init
  | some ds => trim ds

/-- `Unsigned::Unsigned(const char*)`: `saveNumber` on a fresh object. -/
def saveNumber (s : List Char) : List Int :=
  saveNumberFrom [] s

/-- `Unsigned::toString`. -/
def toString (ds : List Int) : List Char :=
  ds.map intToChar

/-- The digit loop of libc `atoi`. -/
def atoiDigits : Int → List Char → Int
  | acc, [] => acc
  | acc, c :: cs => if c.isDigit then atoiDigits (10 * acc + ((c.toNat : Int) - 48)) cs else acc

/-- Libc `atoi` on a string without leading white space: an optional sign, then
the longest run of digits.  Values outside `int` are not modelled. -/
def atoi : List Char → Int
  | '-' :: cs => - atoiDigits 0 cs
  | '+' :: cs => atoiDigits 0 cs
  | cs => atoiDigits 0 cs

/-- `Unsigned::toInt`. -/
def toInt (ds : List Int) : Int :=
  atoi (toString ds)

/-- The constants `gUnsignedZero`, `gUnsignedOne`, `gUnsignedTwo`. -/
def gUnsignedZero : List Int := saveNumber ['0']
def gUnsignedOne : List Int := saveNumber ['1']
def gUnsignedTwo : List Int := saveNumber ['2']

/-- The digit loop of `Unsigned::compare`, on operands of equal length. -/
def compareLoop : List Int → List Int → Int
  | a :: as, b :: bs =>
    if a < b then -1 else if a > b then 1 else compareLoop as bs
  | _, _ => 0

/-- `Unsigned::compare`. -/
def compare (aIn bIn : List Int) : Int :=
  compareLoop (padShorterNumber aIn bIn).1 (padShorterNumber aIn bIn).2

/-- The right-to-left loop of `Unsigned::addMutable` on operands of equal length:
the final carry and the digits written into `workingA`. -/
def addLoop : List Int → List Int → Int × List Int
  | a :: as, b :: bs =>
    let r := addLoop as bs
    let digit := a + b + r.1
    if digit > 9 then (1, (digit - 10) :: r.2) else (0, digit :: r.2)
  | _, _ => (0, [])

/-- `Unsigned::addMutable`: the value left in `workingA`. -/
def addMutable (workingA workingB : List Int) : List Int :=
  let p := padShorterNumber workingA workingB
  let r := addLoop p.1 p.2
  trim (if r.1 > 0 then r.1 :: r.2 else r.2)

/-- `Unsigned::add`. -/
def add (a b : List Int) : List Int :=
  addMutable a b

/-- The right-to-left loop of `Unsigned::subtractMutable` on operands of equal
length: the final borrow and the digits written into `workingA`. -/
def subtractLoop : List Int → List Int → Int × List Int
  | a :: as, b :: bs =>
    let r := subtractLoop as bs
    let a1 := a - r.1
    if b > a1 then (1, (a1 + 10 - b) :: r.2) else (0, (a1 - b) :: r.2)
  | _, _ => (0, [])

/-- `Unsigned::subtractMutable`: the value left in `workingA`. -/
def subtractMutable (workingA workingB : List Int) : List Int :=
  let p := padShorterNumber workingA workingB
  let r := subtractLoop p.1 p.2
  trim (if r.1 > 0 then mkError r.2 else r.2)

/-- `Unsigned::subtract`. -/
def subtract (a b : List Int) : List Int :=
  subtractMutable a b

/-- The inner `for` loop of `Unsigned::multiply` over the digits of `a` from the
right: the carry that is left and the digits `digit % 10` written into
`partProduct`, most significant first. -/
def scaleLoop (bDigit : Int) : List Int → Int × List Int
  | [] => (0, [])
  | aDigit :: as =>
    let r := scaleLoop bDigit as
    let digit := bDigit * aDigit + r.1
    (Int.tdiv digit 10, Int.tmod digit 10 :: r.2)

/-- The loop `for(; carry > 0; j++)` of `Unsigned::multiply`: the digits written
for the remaining carry, most significant first.  A positive carry shrinks at
every division by 10, so `carry` iterations always exhaust it. -/
def carryLoop : Nat → Int → List Int
  | 0, _ => []
  | fuel + 1, carry =>
    if carry > 0 then carryLoop fuel (Int.tdiv carry 10) ++ [Int.tmod carry 10] else []

/-- The content of `partProduct` after round `i` of `Unsigned::multiply`: a vector
of `len` zeros in which the digits of `bDigit * a` have been written leftwards
from index `len - 1 - i`.  For decimal digits at most `a.length + 1` digits are
written, so every index is in range. -/
def partProduct (a : List Int) (bDigit : Int) (len i : Nat) : List Int :=
  let r := scaleLoop bDigit a
  let written := carryLoop r.1.toNat r.1 ++ r.2
  List.replicate (len - i - written.length) 0 ++ written ++ List.replicate i 0

/-- The outer loop of `Unsigned::multiply`; `bRev` holds the digits of `b` that
are still to be used, least significant first, and `i` is the loop counter. -/
def multiplyLoop (a : List Int) (len : Nat) : List Int → Nat → List Int → List Int
  | [], _, sum => sum
  | bDigit :: bRev, i, sum =>
    multiplyLoop a len bRev (i + 1) (addMutable sum (partProduct a bDigit len i))

/-- `Unsigned::multiply`. -/
def multiply (a b : List Int) : List Int :=
  trim (multiplyLoop a (a.length + b.length) b.reverse 0 gUnsignedZero)

/-- `Unsigned::divideByOneWithRem`. -/
def divideByOneWithRem (dividend : List Int) : UnsignedDivide :=
  ⟨dividend, gUnsignedZero⟩

/-- The two `switch` tables of `Unsigned::divideByTwoWithRem`; a `second` outside
0..9 matches no `case` and leaves `save` unassigned. -/
def halfDigit (first second : Int) : Option Int :=
  if isEvenInt first then
    if second = 0 ∨ second = 1 then some 0
    else if second = 2 ∨ second = 3 then some 1
    else if second = 4 ∨ second = 5 then some 2
    else if second = 6 ∨ second = 7 then some 3
    else if second = 8 ∨ second = 9 then some 4
    else none
  else
    if second = 0 ∨ second = 1 then some 5
    else if second = 2 ∨ second = 3 then some 6
    else if second = 4 ∨ second = 5 then some 7
    else if second = 6 ∨ second = 7 then some 8
    else if second = 8 ∨ second = 9 then some 9
    else none

/-- The loop of `Unsigned::divideByTwoWithRem` over the adjacent pairs
`working[i], working[i + 1]`: the digits appended to the quotient. -/
def halfLoop : List Int → Option (List Int)
  | first :: second :: rest =>
    match halfDigit first second, halfLoop (second :: rest) with
    | some save, some more => some (save :: more)
    | _, _ => none
  | _ => some []

/-- `Unsigned::divideByTwoWithRem`.  The quotient starts as the `0` of
`UnsignedDivide()` and the loop appends to it.  After the loop the parity of the
local `second` is read; with an empty dividend the loop body never ran and
`second` was never assigned, so there is no defined result. -/
def divideByTwoWithRem (dividend : List Int) : Option UnsignedDivide :=
  let working := 0 :: dividend
  match halfLoop working, dividend.getLast? with
  | some saves, some second =>
    some ⟨trim (gUnsignedZero ++ saves), trim (if isOddInt second then gUnsignedOne else gUnsignedZero)⟩
  | _, _ => none

/-- `Unsigned::divideByTwoWithRem` with the content of the local `second` before
the loop as the parameter `second0`.  It is the value whose parity is read after
the loop when the loop body never ran, that is on the empty dividend, where
`divideByTwoWithRem` has no defined result.  The quotient is complete before that
read and does not depend on `second0`. -/
def divideByTwoWithRemFrom (second0 : Int) (dividend : List Int) : Option UnsignedDivide :=
  let working := 0 :: dividend
  match halfLoop working with
  | some saves =>
    some ⟨trim (gUnsignedZero ++ saves),
      trim (if isOddInt (dividend.getLast?.getD second0) then gUnsignedOne else gUnsignedZero)⟩
  | none => none

/-- The loop `while (result.remainder >= divisor)` of
`Unsigned::divideWithRemSlow`, followed by `result.trim()`; `none` when the
iteration budget runs out. -/
def divideWithRemSlowLoop (divisor : List Int) : Nat → List Int → List Int → Option UnsignedDivide
  | 0, _, _ => none
  | fuel + 1, quotient, remainder =>
    if compare remainder divisor ≥ 0 then
      divideWithRemSlowLoop divisor fuel (addMutable quotient gUnsignedOne)
        (subtractMutable remainder divisor)
    else some ⟨trim quotient, trim remainder⟩

/-- `Unsigned::divideWithRemSlow`: division by repeated subtraction.  The loop
runs once per unit of the quotient, hence at most `value dividend` times. -/
def divideWithRemSlow (dividend divisor : List Int) : Option UnsignedDivide :=
  if compare divisor gUnsignedTwo ≤ 0 ∧ toInt divisor = 0 then
    some ⟨mkError gUnsignedZero, dividend⟩
  else if compare divisor gUnsignedTwo ≤ 0 ∧ toInt divisor = 1 then
    some (divideByOneWithRem dividend)
  else if compare divisor gUnsignedTwo ≤ 0 ∧ toInt divisor = 2 then
    divideByTwoWithRem dividend
  else
    divideWithRemSlowLoop divisor ((value dividend).toNat + 1) gUnsignedZero dividend

/-- The loop of `Unsigned::findDivisibleSizedChunk` from position `pos` on, over
the entries of `runningDividend` and `dividend` that are still ahead: the chunk,
`iDividendPos` and `fits`.  `none` when `runningDividend` is indexed past its
end. -/
def findDivisibleSizedChunkLoop (divisor : List Int) :
    List Int → List Int → List Int → Nat → Option (List Int × Nat × Bool)
  | _, [], chunk, pos => some (chunk, pos, false)
  | [], _ :: _, _, _ => none
  | r :: rs, d :: ds, chunk, pos =>
    let digit := if r ≥ 0 then r else d
    if compare (chunk ++ [digit]) divisor ≥ 0 then some (chunk ++ [digit], pos, true)
    else findDivisibleSizedChunkLoop divisor rs ds (chunk ++ [digit]) (pos + 1)

/-- `Unsigned::findDivisibleSizedChunk`. -/
def findDivisibleSizedChunk (runningDividend dividend divisor : List Int) :
    Option (List Int × Nat × Bool) :=
  findDivisibleSizedChunkLoop divisor runningDividend dividend [] 0

/-- The loop `for (;;)` of `Unsigned::divideWithRemFast`, followed by
`result.trim()`; `none` when the iteration budget runs out or a callee has no
result. -/
def divideWithRemFastLoop (dividend divisor : List Int) :
    Nat → List Int → List Int → Option UnsignedDivide
  | 0, _, _ => none
  | fuel + 1, runningDividend, quotient =>
    match findDivisibleSizedChunk runningDividend dividend divisor with
    | none => none
    | some (chunk, iDividendPos, fits) =>
      if !fits then some ⟨trim quotient, trim chunk⟩
      else
        match divideWithRemSlow chunk divisor with
        | none => none
        | some partDivide =>
          let partProd := subtract chunk partDivide.remainder
          match partDivide.quotient.head? with
          | none => none
          | some q0 =>
            divideWithRemFastLoop dividend divisor fuel
              (pad (appendRight (subtract chunk partProd) UNASSIGNED
                (dividend.length - iDividendPos - 1)) dividend.length)
              (quotient.set iDividendPos q0)

/-- `Unsigned::divideWithRemFast`: long division.  Every round of the loop moves
`iDividendPos` to the right, so `dividend.length + 1` rounds are enough. -/
def divideWithRemFast (dividend divisor : List Int) : Option UnsignedDivide :=
  if compare divisor gUnsignedTwo ≤ 0 ∧ toInt divisor = 0 then
    some ⟨mkError (pad gUnsignedZero dividend.length), gUnsignedZero⟩
  else if compare divisor gUnsignedTwo ≤ 0 ∧ toInt divisor = 1 then
    some (divideByOneWithRem dividend)
  else if compare divisor gUnsignedTwo ≤ 0 ∧ toInt divisor = 2 then
    divideByTwoWithRem dividend
  else
    divideWithRemFastLoop dividend divisor (dividend.length + 1)
      (appendRight [] UNASSIGNED dividend.length) (pad gUnsignedZero dividend.length)

/-- `Unsigned::divide`. -/
def divide (a b : List Int) : Option (List Int) :=
  (divideWithRemFast a b).map (fun r => r.quotient)

/-- `Unsigned::half`: the quotient of `divideByTwoWithRem`.  The local read
unassigned on the empty dividend goes into the remainder only, which `half` drops;
the quotient is taken from `divideByTwoWithRemFrom`, where it is the same for
every content of that local. -/
def half (a : List Int) : Option (List Int) :=
  (divideByTwoWithRemFrom 0 a).map (fun r => r.quotient)

/-- `Unsigned::mod`. -/
def mod (a b : List Int) : Option (List Int) :=
  (divideWithRemFast a b).map (fun r => r.remainder)

/-- The recursion of `Unsigned::pow` on the halved exponent; `none` when the
recursion budget runs out or the halving has no result. -/
def powLoop (a : List Int) : Nat → List Int → Option (List Int)
  | 0, _ => none
  | fuel + 1, n =>
    if isZero n then some gUnsignedOne
    else
      match half n with
      | none => none
      | some h =>
        match powLoop a fuel h with
        | none => none
        | some x => if isEven n then some (multiply x x) else some (multiply (multiply a x) x)

/-- `Unsigned::pow`: exponentiation by squaring.  Every level halves the exponent,
so `value n + 1` levels are more than enough. -/
def pow (a n : List Int) : Option (List Int) :=
  powLoop a ((value n).toNat + 1) n

/-- The constructor `Unsigned(const bool)`: `set((int)b)`, the digits of 0 or 1. -/
def ofBool (b : Bool) : List Int :=
  if b then saveNumber ['1'] else saveNumber ['0']

/-- The recursion of `Unsigned::gcd`; `none` when the recursion budget runs out or
`mod` has no result. -/
def gcdLoop : Nat → List Int → List Int → Option (List Int)
  | 0, _, _ => none
  | fuel + 1, a, b =>
    if isZero a then some b
    else
      match mod b a with
      | none => none
      | some r => gcdLoop fuel r a

/-- `Unsigned::gcd`.  The first argument shrinks at every level, so `value a + 1`
levels are enough. -/
def gcd (a b : List Int) : Option (List Int) :=
  gcdLoop ((value a).toNat + 1) a b

/-- The loop `while (x1 < x0)` of `Unsigned::sqrt` with the `return x0` after it;
`none` when the iteration budget runs out or a callee has no result. -/
def sqrtLoop (s : List Int) : Nat → List Int → List Int → Option (List Int)
  | 0, _, _ => none
  | fuel + 1, x0, x1 =>
    if compare x1 x0 < 0 then
      match divide s x1 with
      | none => none
      | some q =>
        match half (add x1 q) with
        | none => none
        | some x2 => sqrtLoop s fuel x1 x2
    else some x0

/-- `Unsigned::sqrt`: Newton's method from `half(s)`.  The iterates decrease, so
`value s + 1` rounds are enough. -/
def sqrt (s : List Int) : Option (List Int) :=
  match half s with
  | none => none
  | some x0 =>
    if isZero x0 then some s
    else
      match divide s x0 with
      | none => none
      | some q =>
        match half (add x0 q) with
        | none => none
        | some x1 => sqrtLoop s ((value s).toNat + 1) x0 x1

/-- The loop `for (Unsigned i = 6; i <= boundary; i += 6)` of `Unsigned::isPrime`
with the `return true` after it; `none` when the iteration budget runs out or
`mod` has no result. -/
def isPrimeLoop (a boundary : List Int) : Nat → List Int → Option (List Int)
  | 0, _ => none
  | fuel + 1, i =>
    if compare i boundary ≤ 0 then
      match mod a (add i (saveNumber ['1'])) with
      | none => none
      | some r1 =>
        if compare r1 (saveNumber ['0']) = 0 then some (ofBool false)
        else
          match mod a (add i (saveNumber ['5'])) with
          | none => none
          | some r5 =>
            if compare r5 (saveNumber ['0']) = 0 then some (ofBool false)
            else isPrimeLoop a boundary fuel (addMutable i (saveNumber ['6']))
    else some (ofBool true)

/-- `Unsigned::isPrime`: 0 or 1 as a digit sequence.  The loop counter grows by 6
at every round, so `value boundary + 1` rounds are enough. -/
def isPrime (a : List Int) : Option (List Int) :=
  if compare a (saveNumber ['1']) ≤ 0 then some (ofBool false)
  else if compare a (saveNumber ['2']) = 0 ∨ compare a (saveNumber ['3']) = 0 ∨
      compare a (saveNumber ['5']) = 0 then some (ofBool true)
  else if isEven a then some (ofBool false)
  else
    match mod a (saveNumber ['3']) with
    | none => none
    | some r3 =>
      if compare r3 (saveNumber ['0']) = 0 then some (ofBool false)
      else
        match mod a (saveNumber ['5']) with
        | none => none
        | some r5 =>
          if compare r5 (saveNumber ['0']) = 0 then some (ofBool false)
          else
            match sqrt a with
            | none => none
            | some boundary =>
              isPrimeLoop a boundary ((value boundary).toNat + 1) (saveNumber ['6'])

/-- The chunks that the loop of `Unsigned::divideWithRemFast` hands to
`divideWithRemSlow`, in the order of the rounds: the loop of
`divideWithRemFastLoop` with the argument of each call recorded. -/
def divideWithRemFastChunks (dividend divisor : List Int) :
    Nat → List Int → List Int → List (List Int)
  | 0, _, _ => []
  | fuel + 1, runningDividend, quotient =>
    match findDivisibleSizedChunk runningDividend dividend divisor with
    | none => []
    | some (chunk, iDividendPos, fits) =>
      if !fits then []
      else
        chunk ::
          match divideWithRemSlow chunk divisor with
          | none => []
          | some partDivide =>
            let partProd := subtract chunk partDivide.remainder
            match partDivide.quotient.head? with
            | none => []
            | some q0 =>
              divideWithRemFastChunks dividend divisor fuel
                (pad (appendRight (subtract chunk partProd) UNASSIGNED
                  (dividend.length - iDividendPos - 1)) dividend.length)
                (quotient.set iDividendPos q0)

/-- The arguments of all calls `divideWithRemSlow(chunk, divisor)` that
`Unsigned::divideWithRemFast(dividend, divisor)` makes; none when the divisor is
0, 1 or 2. -/
def divideWithRemFastCalls (dividend divisor : List Int) : List (List Int) :=
  if compare divisor gUnsignedTwo ≤ 0 ∧ toInt divisor = 0 then []
  else if compare divisor gUnsignedTwo ≤ 0 ∧ toInt divisor = 1 then []
  else if compare divisor gUnsignedTwo ≤ 0 ∧ toInt divisor = 2 then []
  else
    divideWithRemFastChunks dividend divisor (dividend.length + 1)
      (appendRight [] UNASSIGNED dividend.length) (pad gUnsignedZero dividend.length)

end Unsigned

/-! ## ArbNum -/

/-- The enumeration `SpecialType`. -/
inductive SpecialType where
  | SPEC_NORMAL
  | SPEC_ERROR
  | SPEC_IGNORE
deriving DecidableEq, Repr

/-- The three data members of `class ArbNum`. -/
structure ArbNum where
  mSpecial : SpecialType
  mSign : Int
  mUnsigned : List Int
deriving DecidableEq, Repr

/-- The pair `{quotient, remainder}` of `class ArbNumDivide`. -/
structure ArbNumDivide where
  quotient : ArbNum
  remainder : ArbNum
deriving DecidableEq, Repr

/-- The digit loop behind `snprintf("%ld")` for a non-negative argument: the
decimal digits of `n`, most significant first, in front of `acc`. -/
def snprintfDigits : Nat → Nat → List Char → List Char
  | 0, _, acc => acc
  | fuel + 1, n, acc =>
    if n < 10 then Nat.digitChar n :: acc
    else snprintfDigits fuel (n / 10) (Nat.digitChar (n % 10) :: acc)

/-- The text `snprintf(buf, sizeof(buf), "%ld", n)` leaves in `buf`. -/
def snprintf (n : Int) : List Char :=
  if n < 0 then '-' :: snprintfDigits (n.natAbs + 1) n.natAbs []
  else snprintfDigits (n.natAbs + 1) n.natAbs []

namespace ArbNum

/-- `ArbNum::clear`. -/
def clear (_a : ArbNum) : ArbNum :=
  ⟨SpecialType.SPEC_NORMAL, 1, []⟩

/-- `ArbNum::isZero`. -/
def isZero (a : ArbNum) : Bool :=
  Unsigned.isZero a.mUnsigned

/-- `ArbNum::isPositiveOrZero`. -/
def isPositiveOrZero (a : ArbNum) : Bool :=
  decide (a.mSign ≥ 0)

/-- `ArbNum::isNegativeOrZero`. -/
def isNegativeOrZero (a : ArbNum) : Bool :=
  decide (a.mSign ≤ 0)

/-- `ArbNum::isPostive`. -/
def isPostive (a : ArbNum) : Bool :=
  decide (a.mSign > 0) && !a.isZero

/-- `ArbNum::isNegative`. -/
def isNegative (a : ArbNum) : Bool :=
  decide (a.mSign < 0) && !a.isZero

/-- `ArbNum::mkNegative`. -/
def mkNegative (a : ArbNum) : ArbNum :=
  { a with mSign := -1 }

/-- `ArbNum::mkPositive`. -/
def mkPositive (a : ArbNum) : ArbNum :=
  { a with mSign := 1 }

/-- `ArbNum::flipSign`. -/
def flipSign (a : ArbNum) : ArbNum :=
  { a with mSign := a.mSign * -1 }

/-- `ArbNum::mkError`. -/
def mkError (a : ArbNum) : ArbNum :=
  { a.clear with mSpecial := SpecialType.SPEC_ERROR }

/-- `ArbNum::isError`. -/
def isError (a : ArbNum) : Bool :=
  a.mSpecial == SpecialType.SPEC_ERROR

/-- `ArbNum::mkIgnore`. -/
def mkIgnore (a : ArbNum) : ArbNum :=
  { a.clear with mSpecial := SpecialType.SPEC_IGNORE }

/-- `ArbNum::isIgnore`. -/
def isIgnore (a : ArbNum) : Bool :=
  a.mSpecial == SpecialType.SPEC_IGNORE

/-- `ArbNum::isNormal`. -/
def isNormal (a : ArbNum) : Bool :=
  a.mSpecial == SpecialType.SPEC_NORMAL

/-- The default constructor `ArbNum()`. -/
def new : ArbNum :=
  ⟨SpecialType.SPEC_NORMAL, 1, []⟩

/-- The constructor `ArbNum(const Unsigned&)`. -/
def ofUnsigned (u : List Int) : ArbNum :=
  { new.clear with mUnsigned := u }

/-- `ArbNum::saveNumber`, which is also the constructor `ArbNum(const char*)`. -/
def saveNumber (s : List Char) : ArbNum :=
  match s with
  | '-' :: rest => { new.clear.mkNegative with mUnsigned := Unsigned.saveNumber rest }
  | _ => { new.clear with mUnsigned := Unsigned.saveNumber s }

/-- The constructors `ArbNum(const int)`, `ArbNum(const long)` and
`ArbNum(const long long)`. -/
def ofInt (n : Int) : ArbNum :=
  saveNumber (snprintf n)

/-- The constants `gArbNumZero` and `gArbNumOne`. -/
def gArbNumZero : ArbNum := ofInt 0
def gArbNumOne : ArbNum := ofInt 1

/-- The number a signed value denotes. -/
def toZ (a : ArbNum) : Int :=
  a.mSign * Unsigned.value a.mUnsigned

/-- `ArbNum::abs`. -/
def abs (a : ArbNum) : ArbNum :=
  ofUnsigned a.mUnsigned

/-- `ArbNum::sign`. -/
def sign (a : ArbNum) : ArbNum :=
  ofInt a.mSign

/-- `ArbNum::subtract`. -/
def subtract (a b : ArbNum) : ArbNum :=
  if a.isPositiveOrZero && b.isPositiveOrZero then
    if Unsigned.compare a.mUnsigned b.mUnsigned < 0 then
      { new.mkNegative with mUnsigned := Unsigned.subtract b.mUnsigned a.mUnsigned }
    else
      { new with mUnsigned := Unsigned.subtract a.mUnsigned b.mUnsigned }
  else if a.isPositiveOrZero && b.isNegativeOrZero then
    { new with mUnsigned := Unsigned.add a.mUnsigned b.mUnsigned }
  else if a.isNegativeOrZero && b.isPositiveOrZero then
    { new.mkNegative with mUnsigned := Unsigned.add a.mUnsigned b.mUnsigned }
  else if a.isNegativeOrZero && b.isNegativeOrZero then
    subtract b.mkPositive a.mkPositive
  else
    new.mkError
termination_by (if a.isPositiveOrZero && b.isPositiveOrZero then 0 else 1 : Nat)
decreasing_by
  rename_i h _ _ _
  rw [if_neg h]
  exact Nat.zero_lt_one

/-- `ArbNum::add`. -/
def add (a b : ArbNum) : ArbNum :=
  if a.isPositiveOrZero && b.isPositiveOrZero then
    { new with mUnsigned := Unsigned.add a.mUnsigned b.mUnsigned }
  else if a.isPositiveOrZero && b.isNegativeOrZero then
    subtract a b.mkPositive
  else if a.isNegativeOrZero && b.isPositiveOrZero then
    subtract b a.mkPositive
  else if a.isNegativeOrZero && b.isNegativeOrZero then
    { new.mkNegative with mUnsigned := Unsigned.add a.mUnsigned b.mUnsigned }
  else
    new.mkError

/-- `ArbNum::multiply`. -/
def multiply (a b : ArbNum) : ArbNum :=
  { new with mUnsigned := Unsigned.multiply a.mUnsigned b.mUnsigned, mSign := a.mSign * b.mSign }

/-- The default constructor `ArbNumDivide()`. -/
def newDivide : ArbNumDivide :=
  ⟨ofInt 0, ofInt 0⟩

/-- `ArbNum::divideWithRem`; `none` when `Unsigned::divideWithRemFast` has no
result. -/
def divideWithRem (dividend divisor : ArbNum) : Option ArbNumDivide :=
  if divisor.isZero then
    some { newDivide with quotient := newDivide.quotient.mkError }
  else if divisor.isNegative then
    match divideWithRem dividend divisor.mkPositive with
    | none => none
    | some result => some { result with quotient := result.quotient.flipSign }
  else if dividend.isNegative then
    match divideWithRem dividend.mkPositive divisor with
    | none => none
    | some result =>
      if result.remainder.isZero then
        some { result with quotient := result.quotient.flipSign }
      else
        some { quotient := result.quotient.flipSign, remainder := result.remainder.flipSign }
  else
    match Unsigned.divideWithRemFast dividend.mUnsigned divisor.mUnsigned with
    | none => none
    | some udivide =>
      some { quotient := { newDivide.quotient with mUnsigned := udivide.quotient },
             remainder := { newDivide.remainder with mUnsigned := udivide.remainder } }
termination_by ((if divisor.isNegative then 2 else 0) + (if dividend.isNegative then 1 else 0) : Nat)
decreasing_by
  · rename_i _ h2
    rw [if_pos h2, if_neg (by simp [isNegative, mkPositive])]
    split <;> simp
  · rename_i _ h2 h3
    rw [if_neg h2, if_pos h3, if_neg (by simp [isNegative, mkPositive])]
    simp

/-- `ArbNum::divide`. -/
def divide (dividend divisor : ArbNum) : Option ArbNum :=
  (divideWithRem dividend divisor).map (fun r => r.quotient)

/-- `ArbNum::mod`. -/
def mod (dividend divisor : ArbNum) : Option ArbNum :=
  (divideWithRem dividend divisor).map (fun r => r.remainder)

/-- `ArbNum::toString`. -/
def toString (a : ArbNum) : List Char :=
  if a.isIgnore then "ignore".toList
  else if a.isError then "error".toList
  else (if a.mSign < 0 then ['-'] else []) ++ Unsigned.toString a.mUnsigned

/-- `ArbNum::compare`. -/
def compare (a b : ArbNum) : Int :=
  if a.mSign < b.mSign then -1
  else if a.mSign > b.mSign then 1
  else if a.isNegative then Unsigned.compare b.mUnsigned a.mUnsigned
  else Unsigned.compare a.mUnsigned b.mUnsigned

/-- A signed value as the arithmetic produces it: `Normal`, sign 1 or -1, and a
canonical magnitude.  The sign of a zero is not constrained. -/
def WellFormed (a : ArbNum) : Prop :=
  a.mSpecial = SpecialType.SPEC_NORMAL ∧ (a.mSign = 1 ∨ a.mSign = -1) ∧
    Unsigned.Canonical a.mUnsigned

instance (a : ArbNum) : Decidable (WellFormed a) := by
  unfold WellFormed; infer_instance

/-- The canonical form of a signed value: well formed, with zero non-negative. -/
def Canonical (a : ArbNum) : Prop :=
  WellFormed a ∧ (Unsigned.value a.mUnsigned = 0 → a.mSign = 1)

instance (a : ArbNum) : Decidable (Canonical a) := by
  unfold Canonical; infer_instance

/-- `ArbNum::toInt`.  The limits `INT_MIN` and `INT_MAX` of `<limits.h>`, from which
`gArbNumIntMin` and `gArbNumIntMax` are built, are parameters. -/
def toInt (intMin intMax : Int) (a : ArbNum) : Int :=
  if a.isZero then 0
  else if compare a (ofInt intMin) < 0 then -1
  else if compare a (ofInt intMax) > 0 then -1
  else Unsigned.atoi a.toString

/-- The characters of a numeral that follow its optional leading `-`: the part
`ArbNum::saveNumber` hands to `Unsigned::saveNumber`. -/
def digitsPart : List Char → List Char
  | '-' :: rest => rest
  | s => s

/-- `ArbNum::pow`; `none` when `Unsigned::pow` has no result. -/
def pow (a n : ArbNum) : Option ArbNum :=
  match Unsigned.pow a.mUnsigned n.mUnsigned with
  | none => none
  | some u =>
    if a.isNegative then
      some { ofUnsigned u with mSign := if Unsigned.isEven n.mUnsigned then 1 else -1 }
    else some (ofUnsigned u)

/-- `ArbNum::gcd`; `none` when `Unsigned::gcd` has no result. -/
def gcd (a b : ArbNum) : Option ArbNum :=
  (Unsigned.gcd a.mUnsigned b.mUnsigned).map ofUnsigned

/-- `ArbNum::sqrt`; `none` when `Unsigned::sqrt` has no result. -/
def sqrt (a : ArbNum) : Option ArbNum :=
  if a.isNegative then some new.mkError
  else (Unsigned.sqrt a.mUnsigned).map ofUnsigned

/-- `ArbNum::isPrime`; the `return false` goes through `ArbNum(const bool)`, that
is `ArbNum(0)`.  `none` when `Unsigned::isPrime` has no result. -/
def isPrime (a : ArbNum) : Option ArbNum :=
  if a.isNegative then some (ofInt 0)
  else (Unsigned.isPrime a.mUnsigned).map ofUnsigned

/-- The recursion of `ArbNum::factorial`; `none` when the recursion budget runs
out. -/
def factorialLoop : Nat → ArbNum → Option ArbNum
  | 0, _ => none
  | fuel + 1, count =>
    if compare count gArbNumOne ≤ 0 then some gArbNumOne
    else
      match factorialLoop fuel (subtract count gArbNumOne) with
      | none => none
      | some f => some (multiply f count)

/-- `ArbNum::factorial`.  The argument drops by one at every level, so as many
levels as the number it denotes, plus one, are enough. -/
def factorial (count : ArbNum) : Option ArbNum :=
  factorialLoop ((toZ count).toNat + 1) count

/-- `ArbNum::min`. -/
def min (a b : ArbNum) : ArbNum :=
  if compare a b < 0 then a else b

/-- `ArbNum::max`. -/
def max (a b : ArbNum) : ArbNum :=
  if compare a b > 0 then a else b

/-- `ArbNum::doNot`. -/
def doNot (a : ArbNum) : ArbNum :=
  if a.isZero then gArbNumOne else gArbNumZero

/-- The calls `Unsigned::subtract(minuend, subtrahend)` that `ArbNum::subtract(a, b)`
makes, as pairs `(minuend, subtrahend)`: the branches of `ArbNum::subtract` with
the arguments of each call recorded. -/
def subtractCalls (a b : ArbNum) : List (List Int × List Int) :=
  if a.isPositiveOrZero && b.isPositiveOrZero then
    if Unsigned.compare a.mUnsigned b.mUnsigned < 0 then [(b.mUnsigned, a.mUnsigned)]
    else [(a.mUnsigned, b.mUnsigned)]
  else if a.isPositiveOrZero && b.isNegativeOrZero then []
  else if a.isNegativeOrZero && b.isPositiveOrZero then []
  else if a.isNegativeOrZero && b.isNegativeOrZero then
    subtractCalls b.mkPositive a.mkPositive
  else []
termination_by (if a.isPositiveOrZero && b.isPositiveOrZero then 0 else 1 : Nat)
decreasing_by
  rename_i h _ _ _
  rw [if_neg h]
  exact Nat.zero_lt_one

/-- The calls to `Unsigned::subtract` that `ArbNum::add(a, b)` makes, through
`ArbNum::subtract`. -/
def addCalls (a b : ArbNum) : List (List Int × List Int) :=
  if a.isPositiveOrZero && b.isPositiveOrZero then []
  else if a.isPositiveOrZero && b.isNegativeOrZero then subtractCalls a b.mkPositive
  else if a.isNegativeOrZero && b.isPositiveOrZero then subtractCalls b a.mkPositive
  else if a.isNegativeOrZero && b.isNegativeOrZero then []
  else []

end ArbNum

/-! ## Decimal strings -/

/-- A non-empty run of decimal digits with no superfluous leading zero. -/
def IsCanonicalDigitString (cs : List Char) : Prop :=
  cs ≠ [] ∧ (∀ c ∈ cs, c.isDigit = true) ∧ (cs.head? = some '0' → cs = ['0'])

instance (cs : List Char) : Decidable (IsCanonicalDigitString cs) := by
  unfold IsCanonicalDigitString; infer_instance

/-- A canonical digit string, optionally preceded by a single `-`. -/
def IsCanonicalDecimal (s : List Char) : Prop :=
  IsCanonicalDigitString s ∨ (s.head? = some '-' ∧ IsCanonicalDigitString s.tail)

instance (s : List Char) : Decidable (IsCanonicalDecimal s) := by
  unfold IsCanonicalDecimal; infer_instance

/-! ## The calculator: tokens -/

/-- The enumeration `Token::TokType`. -/
inductive Token.TokType where
  | T_EOL
  | T_SPACE
  | T_MINUS
  | T_NUMBER
  | T_WORD
  | T_PUNCT
  | T_OTHER
deriving DecidableEq, Repr

/-- The record `struct Token`. -/
structure Token where
  type : Token.TokType
  string : List Char
deriving DecidableEq, Repr

namespace Token

/-- The constructor `Token()`. -/
def new : Token :=
  ⟨TokType.T_OTHER, []⟩

/-- `Token::isOpenBracket`. -/
def isOpenBracket (t : Token) : Bool :=
  t.type == TokType.T_PUNCT && t.string == ['(']

/-- `Token::isCloseBracket`. -/
def isCloseBracket (t : Token) : Bool :=
  t.type == TokType.T_PUNCT && t.string == [')']

/-- `Token::isBang`. -/
def isBang (t : Token) : Bool :=
  t.type == TokType.T_PUNCT && t.string == ['!']

end Token

/-- The enumeration `Tokenizer::Expect`. -/
inductive Tokenizer.Expect where
  | EXPECT_ANY
  | EXPECT_OPERATOR
deriving DecidableEq, Repr

/-- The state of `class Tokenizer`. -/
structure Tokenizer where
  mLine : List Char
  mPos : Nat
  mUnget : Token
deriving DecidableEq, Repr

namespace Tokenizer

/-- The constructor `Tokenizer(const char* line)`. -/
def new (line : List Char) : Tokenizer :=
  ⟨line, 0, Token.new⟩

/-- `Tokenizer::isEol`. -/
def isEol (t : Tokenizer) : Bool :=
  decide (t.mPos ≥ t.mLine.length)

/-- The classification `isspace` of `<ctype.h>` in the C locale. -/
def isspace (c : Char) : Bool :=
  c = ' ' || (9 ≤ c.toNat && c.toNat ≤ 13)

/-- The classification `ispunct` of `<ctype.h>` in the C locale: the printing
characters that are neither alphanumeric nor the space. -/
def ispunct (c : Char) : Bool :=
  (33 ≤ c.toNat && c.toNat ≤ 47) || (58 ≤ c.toNat && c.toNat ≤ 64) ||
    (91 ≤ c.toNat && c.toNat ≤ 96) || (123 ≤ c.toNat && c.toNat ≤ 126)

/-- The classification `isalpha` of `<ctype.h>` in the C locale. -/
def isalpha (c : Char) : Bool :=
  (65 ≤ c.toNat && c.toNat ≤ 90) || (97 ≤ c.toNat && c.toNat ≤ 122)

/-- The classification `isdigit` of `<ctype.h>`. -/
def isdigit (c : Char) : Bool :=
  48 ≤ c.toNat && c.toNat ≤ 57

/-- `Tokenizer::type`; the argument `EOF` is `none`. -/
def type : Option Char → Token.TokType
  | none => Token.TokType.T_EOL
  | some c =>
    if isspace c then Token.TokType.T_SPACE
    else if c = '-' then Token.TokType.T_MINUS
    else if isdigit c || c = '.' then Token.TokType.T_NUMBER
    else if isalpha c then Token.TokType.T_WORD
    else if ispunct c then Token.TokType.T_PUNCT
    else Token.TokType.T_OTHER

/-- The loop `for (;;)` of `Tokenizer::getToken` over the characters of `mLine`
from `mPos` on (first argument), with the token built so far: the token returned
and the final `mPos`.  `getChar` moves `mPos` one to the right, `ungetChar` one
back. -/
def getTokenLoop (expect : Expect) : List Char → Nat → Token → Token × Nat
  | [], pos, tok =>
    if tok.string.length = 0 then (⟨Token.TokType.T_EOL, "EOL".toList⟩, pos) else (tok, pos)
  | c :: rest, pos, tok =>
    let tt := type (some c)
    if tok.string.length = 0 then
      if tt = Token.TokType.T_SPACE then getTokenLoop expect rest (pos + 1) tok
      else if tt = Token.TokType.T_PUNCT then (⟨tt, [c]⟩, pos + 1)
      else if tt = Token.TokType.T_MINUS ∧ expect = Expect.EXPECT_OPERATOR then
        (⟨Token.TokType.T_PUNCT, [c]⟩, pos + 1)
      else getTokenLoop expect rest (pos + 1) ⟨tt, [c]⟩
    else
      let ty :=
        if tok.type = Token.TokType.T_MINUS then
          if tt = Token.TokType.T_NUMBER then Token.TokType.T_NUMBER else Token.TokType.T_PUNCT
        else tok.type
      if tt ≠ ty then (⟨ty, tok.string⟩, pos)
      else getTokenLoop expect rest (pos + 1) ⟨tt, tok.string ++ [c]⟩

/-- `Tokenizer::getToken`: the token and the tokenizer afterwards. -/
def getToken (t : Tokenizer) (expect : Expect) : Token × Tokenizer :=
  if t.mUnget.type ≠ Token.TokType.T_OTHER then
    (t.mUnget, { t with mUnget := { t.mUnget with type := Token.TokType.T_OTHER } })
  else if t.isEol then (⟨Token.TokType.T_EOL, "EOL".toList⟩, t)
  else
    let r := getTokenLoop expect (t.mLine.drop t.mPos) t.mPos Token.new
    (r.1, { t with mPos := r.2 })

/-- `Tokenizer::getOperatorToken`. -/
def getOperatorToken (t : Tokenizer) : Token × Tokenizer :=
  t.getToken Expect.EXPECT_OPERATOR

/-- `Tokenizer::ungetToken`. -/
def ungetToken (t : Tokenizer) (tok : Token) : Tokenizer :=
  { t with mUnget := tok }

end Tokenizer

/-! ## The calculator: evaluation -/

namespace Calc

/-- The two signatures `func1_t` and `func2_t` an entry of `gFuncs` is cast to. -/
inductive Func where
  | func1 (f : ArbNum → Option ArbNum)
  | func2 (f : ArbNum → ArbNum → Option ArbNum)

/-- The record `Function` of the function table. -/
structure Function where
  name : List Char
  params : Nat
  func : Func

/-- The table `gFuncs`.  `ArbNum::random` draws its digits from `rand()`; the
table entry is kept, with no result. -/
def gFuncs : List Function :=
  [⟨"abs".toList, 1, Func.func1 (fun a => some (ArbNum.abs a))⟩,
   ⟨"factorial".toList, 1, Func.func1 ArbNum.factorial⟩,
   ⟨"gcd".toList, 2, Func.func2 ArbNum.gcd⟩,
   ⟨"isprime".toList, 1, Func.func1 ArbNum.isPrime⟩,
   ⟨"max".toList, 2, Func.func2 (fun a b => some (ArbNum.max a b))⟩,
   ⟨"min".toList, 2, Func.func2 (fun a b => some (ArbNum.min a b))⟩,
   ⟨"random".toList, 1, Func.func1 (fun _ => none)⟩,
   ⟨"sign".toList, 1, Func.func1 (fun a => some (ArbNum.sign a))⟩,
   ⟨"sqrt".toList, 1, Func.func1 ArbNum.sqrt⟩]

/-- `findFunc`. -/
def findFunc (name : List Char) : Option Function :=
  gFuncs.find? (fun pEntry => pEntry.name == name)

/-- The end of `Calc::functionCall`: the closing bracket after the arguments. -/
def closeBracket (result : ArbNum) (tokenizer : Tokenizer) : ArbNum × Tokenizer :=
  let r := tokenizer.getToken Tokenizer.Expect.EXPECT_ANY
  if !r.1.isCloseBracket then (result.mkError, r.2) else (result, r.2)

/-- The assignment `a.add(b)`, ..., `a.pow(b)` that `Calc::expr` picks by the
first character of the operator token; `none` marks an unknown operator. -/
def applyOperator (op : Char) (a b : ArbNum) : Option (Option ArbNum) :=
  if op = '+' then some (some (ArbNum.add a b))
  else if op = '-' then some (some (ArbNum.subtract a b))
  else if op = '*' then some (some (ArbNum.multiply a b))
  else if op = '/' then some (ArbNum.divide a b)
  else if op = '%' then some (ArbNum.mod a b)
  else if op = '^' then some (ArbNum.pow a b)
  else none

mutual

/-- `Calc::functionCall`, after the opening bracket.  The result is the value
returned and the tokenizer afterwards; `none` when the recursion budget runs out,
a callee has no result, or the process exits. -/
def functionCall : Nat → Token → Tokenizer → Option (ArbNum × Tokenizer)
  | 0, _, _ => none
  | fuel + 1, funcName, tokenizer =>
    match findFunc funcName.string with
    | none => some (ArbNum.new.mkError, tokenizer)
    | some pEntry =>
      if pEntry.params = 1 then
        match expr fuel tokenizer with
        | none => none
        | some (expr1, t1) =>
          if !expr1.isNormal then some (expr1, t1)
          else
            match pEntry.func with
            | Func.func2 _ => none
            | Func.func1 pFunc1 =>
              match pFunc1 expr1 with
              | none => none
              | some result => some (closeBracket result t1)
      else if pEntry.params = 2 then
        match expr fuel tokenizer with
        | none => none
        | some (expr1, t1) =>
          if !expr1.isNormal then some (expr1, t1)
          else
            let comma := t1.getToken Tokenizer.Expect.EXPECT_ANY
            match expr fuel comma.2 with
            | none => none
            | some (expr2, t2) =>
              if !expr2.isNormal then some (expr1, t2)
              else
                match pEntry.func with
                | Func.func1 _ => none
                | Func.func2 pFunc2 =>
                  match pFunc2 expr1 expr2 with
                  | none => none
                  | some result => some (closeBracket result t2)
      else some (ArbNum.new.mkError, tokenizer)

/-- `Calc::simpleExpr`.  The commands `help`, `license` and `tests` return the
Ignore value, and what they print is left out; `exit` ends the process, so there
is no result. -/
def simpleExpr : Nat → Tokenizer → Option (ArbNum × Tokenizer)
  | 0, _ => none
  | fuel + 1, tokenizer =>
    let r1 := tokenizer.getToken Tokenizer.Expect.EXPECT_ANY
    let tok1 := r1.1
    if tok1.type = Token.TokType.T_EOL then some (ArbNum.new, r1.2)
    else if tok1.type = Token.TokType.T_NUMBER then some (ArbNum.saveNumber tok1.string, r1.2)
    else if tok1.type = Token.TokType.T_WORD then
      if tok1.string = "exit".toList then none
      else if tok1.string = "help".toList then some (ArbNum.new.mkIgnore, r1.2)
      else if tok1.string = "license".toList then some (ArbNum.new.mkIgnore, r1.2)
      else if tok1.string = "tests".toList then some (ArbNum.new.mkIgnore, r1.2)
      else
        let r2 := r1.2.getToken Tokenizer.Expect.EXPECT_ANY
        if !r2.1.isOpenBracket then some (ArbNum.new.mkError, r2.2)
        else functionCall fuel tok1 r2.2
    else if tok1.isOpenBracket then
      match expr fuel r1.2 with
      | none => none
      | some (a, t1) =>
        let r2 := t1.getToken Tokenizer.Expect.EXPECT_ANY
        if !r2.1.isCloseBracket then some (ArbNum.new.mkError, r2.2) else some (a, r2.2)
    else if tok1.isBang then
      match expr fuel r1.2 with
      | none => none
      | some (b, t1) =>
        if !b.isNormal then some (ArbNum.new.mkError, t1) else some (ArbNum.doNot b, t1)
    else some (ArbNum.new.mkError, r1.2)

/-- The loop `for (;;)` of `Calc::expr`, with the value `a` accumulated so far. -/
def exprLoop : Nat → ArbNum → Tokenizer → Option (ArbNum × Tokenizer)
  | 0, _, _ => none
  | fuel + 1, a, tokenizer =>
    let r1 := tokenizer.getOperatorToken
    let tok1 := r1.1
    if tok1.type = Token.TokType.T_EOL then some (a, r1.2)
    else if tok1.type ≠ Token.TokType.T_PUNCT then some (a.mkError, r1.2)
    else
      match tok1.string.head? with
      | none => none
      | some op =>
        if op = ',' ∨ op = ')' then some (a, r1.2.ungetToken tok1)
        else
          match simpleExpr fuel r1.2 with
          | none => none
          | some (b, t2) =>
            if !b.isNormal then some (a, t2)
            else
              match applyOperator op a b with
              | none => some (a.mkError, t2)
              | some none => none
              | some (some a1) => exprLoop fuel a1 t2

/-- `Calc::expr`. -/
def expr : Nat → Tokenizer → Option (ArbNum × Tokenizer)
  | 0, _ => none
  | fuel + 1, tokenizer =>
    match simpleExpr fuel tokenizer with
    | none => none
    | some (a, t1) => if !a.isNormal then some (a, t1) else exprLoop fuel a t1

end

/-- `Calc::run`: the text that `Calc::run` itself writes with its `printf`, the
line of the result when the value is Normal and nothing otherwise, for a line
that is evaluated with a recursion budget of three levels per character.  What
`help`, `license` and `tests` print while the line is evaluated is not included. -/
def run (line : List Char) : Option (List Char) :=
  match expr (3 * line.length + 3) (Tokenizer.new line) with
  | none => none
  | some (num, _) => if num.isNormal then some (num.toString ++ ['\n']) else some []

end Calc

/-! ## Lemmas on digit sequences -/

namespace Unsigned

theorem value_nil : value [] = 0 := rfl

theorem value_append_singleton (ds : List Int) (d : Int) :
    value (ds ++ [d]) = 10 * value ds + d := by
  simp [value, List.foldl_append]

theorem foldl_value (ds : List Int) (acc : Int) :
    ds.foldl (fun acc d => 10 * acc + d) acc = acc * 10 ^ ds.length + value ds := by
  induction ds generalizing acc with
  | nil => simp [value]
  | cons d ds ih =>
    simp only [List.foldl_cons, List.length_cons, value]
    rw [ih (10 * acc + d), ih (10 * 0 + d)]
    ring

theorem value_cons (d : Int) (ds : List Int) :
    value (d :: ds) = d * 10 ^ ds.length + value ds := by
  show (d :: ds).foldl (fun acc d => 10 * acc + d) 0 = _
  rw [List.foldl_cons, foldl_value]
  ring

theorem value_append (a b : List Int) :
    value (a ++ b) = value a * 10 ^ b.length + value b := by
  show (a ++ b).foldl (fun acc d => 10 * acc + d) 0 = _
  rw [List.foldl_append, foldl_value]
  rfl

theorem value_singleton (d : Int) : value [d] = d := by
  simp [value]

theorem isDigits_nil : IsDigits [] := by
  intro d hd; simp at hd

theorem isDigits_cons {d : Int} {ds : List Int} :
    IsDigits (d :: ds) ↔ (0 ≤ d ∧ d ≤ 9) ∧ IsDigits ds := by
  simp [IsDigits]

theorem isDigits_append {a b : List Int} :
    IsDigits (a ++ b) ↔ IsDigits a ∧ IsDigits b := by
  simp only [IsDigits, List.mem_append]
  constructor
  · intro h
    exact ⟨fun d hd => h d (Or.inl hd), fun d hd => h d (Or.inr hd)⟩
  · rintro ⟨h1, h2⟩ d (hd | hd)
    · exact h1 d hd
    · exact h2 d hd

theorem isDigits_replicate_zero (n : Nat) : IsDigits (List.replicate n 0) := by
  intro d hd
  rw [List.mem_replicate] at hd
  omega

theorem isDigits_singleton {d : Int} : IsDigits [d] ↔ 0 ≤ d ∧ d ≤ 9 := by
  simp [IsDigits]

theorem value_replicate_zero (n : Nat) : value (List.replicate n 0) = 0 := by
  induction n with
  | zero => rfl
  | succ n ih => rw [List.replicate_succ, value_cons, ih]; simp

theorem value_replicate_zero_append (n : Nat) (ds : List Int) :
    value (List.replicate n 0 ++ ds) = value ds := by
  rw [value_append, value_replicate_zero]; simp

theorem value_pad (ds : List Int) (len : Nat) : value (pad ds len) = value ds :=
  value_replicate_zero_append _ _

theorem isDigits_pad {ds : List Int} (h : IsDigits ds) (len : Nat) : IsDigits (pad ds len) :=
  isDigits_append.mpr ⟨isDigits_replicate_zero _, h⟩

theorem length_pad (ds : List Int) (len : Nat) : (pad ds len).length = max ds.length len := by
  simp only [pad, List.length_append, List.length_replicate]
  omega

theorem value_nonneg {ds : List Int} (h : IsDigits ds) : 0 ≤ value ds := by
  induction ds using List.reverseRecOn with
  | nil => simp [value]
  | append_singleton ds d ih =>
    rw [value_append_singleton]
    have h' := isDigits_append.mp h
    have := ih h'.1
    have := isDigits_singleton.mp h'.2
    omega

theorem value_lt_pow {ds : List Int} (h : IsDigits ds) : value ds < 10 ^ ds.length := by
  induction ds using List.reverseRecOn with
  | nil => simp [value]
  | append_singleton ds d ih =>
    rw [value_append_singleton, List.length_append, List.length_singleton, pow_succ]
    have h' := isDigits_append.mp h
    have := ih h'.1
    have := isDigits_singleton.mp h'.2
    omega

/-- A prefix of a digit sequence denotes at most what the whole sequence does. -/
theorem value_le_value_append {a b : List Int} (ha : IsDigits a) (hb : IsDigits b) :
    value a ≤ value (a ++ b) := by
  rw [value_append]
  have h1 := value_nonneg ha
  have h2 := value_nonneg hb
  have h3 : (1 : Int) ≤ 10 ^ b.length := one_le_pow₀ (by norm_num)
  nlinarith

theorem trim_value (ds : List Int) : value (trim ds) = value ds := by
  induction ds with
  | nil => rfl
  | cons d ds ih =>
    cases ds with
    | nil => rfl
    | cons e rest =>
      simp only [trim]
      split
      · rename_i h
        rw [ih, value_cons d, h]; simp
      · rfl

theorem trim_isDigits {ds : List Int} (h : IsDigits ds) : IsDigits (trim ds) := by
  induction ds with
  | nil => exact h
  | cons d ds ih =>
    cases ds with
    | nil => exact h
    | cons e rest =>
      simp only [trim]
      split
      · exact ih (isDigits_cons.mp h).2
      · exact h

theorem trim_length_le (ds : List Int) : (trim ds).length ≤ ds.length := by
  induction ds with
  | nil => simp [trim]
  | cons d ds ih =>
    cases ds with
    | nil => simp [trim]
    | cons e rest =>
      simp only [trim]
      split
      · simp only [List.length_cons] at ih ⊢; omega
      · simp

theorem trim_ne_nil {ds : List Int} (h : ds ≠ []) : trim ds ≠ [] := by
  induction ds with
  | nil => exact absurd rfl h
  | cons d ds ih =>
    cases ds with
    | nil => simp [trim]
    | cons e rest =>
      simp only [trim]
      split
      · exact ih (by simp)
      · simp

theorem trim_head {ds : List Int} : (trim ds).head? = some 0 → trim ds = [0] := by
  induction ds with
  | nil => simp [trim]
  | cons d ds ih =>
    cases ds with
    | nil => simp [trim]
    | cons e rest =>
      simp only [trim]
      split
      · exact ih
      · rename_i h
        intro h0
        simp at h0
        exact absurd h0 h

theorem trim_canonical {ds : List Int} (h : IsDigits ds) (hne : ds ≠ []) :
    Canonical (trim ds) :=
  ⟨trim_isDigits h, trim_ne_nil hne, trim_head⟩

theorem trim_eq_self_of_canonical {ds : List Int} (h : Canonical ds) : trim ds = ds := by
  obtain ⟨_, hne, hhead⟩ := h
  cases ds with
  | nil => rfl
  | cons d ds =>
    cases ds with
    | nil => rfl
    | cons e rest =>
      simp only [trim]
      split
      · rename_i h0
        have := hhead (by simp [h0])
        simp at this
      · rfl

theorem trim_trim (ds : List Int) : trim (trim ds) = trim ds := by
  induction ds with
  | nil => rfl
  | cons d ds ih =>
    cases ds with
    | nil => rfl
    | cons e rest =>
      simp only [trim]
      split
      · exact ih
      · rename_i h
        simp [trim, h]

/-- A canonical sequence other than `0` starts with a nonzero digit, which bounds
its value from below. -/
theorem canonical_pow_le {ds : List Int} (h : Canonical ds) (hv : value ds ≠ 0) :
    10 ^ (ds.length - 1) ≤ value ds := by
  obtain ⟨hd, hne, hhead⟩ := h
  cases ds with
  | nil => exact absurd rfl hne
  | cons d rest =>
    have hd' := isDigits_cons.mp hd
    have hd0 : d ≠ 0 := by
      intro h0
      have := hhead (by simp [h0])
      simp at this
      rw [h0, this.2] at hv
      exact hv rfl
    rw [value_cons]
    simp only [List.length_cons, Nat.add_sub_cancel]
    have h1 := value_nonneg hd'.2
    have h3 : (0 : Int) < 10 ^ rest.length := by positivity
    have : (1 : Int) ≤ d := by omega
    nlinarith

theorem canonical_length_le {ds : List Int} (h : Canonical ds) {m : Nat} (hm : 0 < m)
    (hv : value ds < 10 ^ m) : ds.length ≤ m := by
  by_cases h0 : value ds = 0
  · obtain ⟨hd, hne, hhead⟩ := h
    cases ds with
    | nil => simp
    | cons d rest =>
      have hd' := isDigits_cons.mp hd
      rw [value_cons] at h0
      have h1 := value_nonneg hd'.2
      have h3 : (0 : Int) < 10 ^ rest.length := by positivity
      have hd0 : d = 0 := by
        by_contra hne0
        have : (1 : Int) ≤ d := by omega
        nlinarith
      have := hhead (by simp [hd0])
      simp at this
      simp [this.2]; omega
  · have h1 := canonical_pow_le h h0
    have h2 : (10 : Int) ^ (ds.length - 1) < 10 ^ m := lt_of_le_of_lt h1 hv
    have h3 : ds.length - 1 < m := by
      by_contra hcon
      push_neg at hcon
      have : (10 : Int) ^ m ≤ 10 ^ (ds.length - 1) := pow_le_pow_right₀ (by norm_num) hcon
      omega
    omega

/-- Digit sequences of equal length with equal values are equal. -/
theorem eq_of_value_eq_of_length_eq {a b : List Int} (ha : IsDigits a) (hb : IsDigits b)
    (hlen : a.length = b.length) (hv : value a = value b) : a = b := by
  induction a generalizing b with
  | nil =>
    cases b with
    | nil => rfl
    | cons _ _ => simp at hlen
  | cons x xs ih =>
    cases b with
    | nil => simp at hlen
    | cons y ys =>
      simp only [List.length_cons, Nat.add_right_cancel_iff] at hlen
      have hx := isDigits_cons.mp ha
      have hy := isDigits_cons.mp hb
      rw [value_cons, value_cons, hlen] at hv
      have h1 := value_nonneg hx.2
      have h2 := value_nonneg hy.2
      have h3 := value_lt_pow hx.2
      have h4 := value_lt_pow hy.2
      rw [hlen] at h3
      have hxy : x = y := by
        by_contra hne
        rcases lt_or_gt_of_ne hne with hlt | hgt
        · have : x + 1 ≤ y := by omega
          nlinarith
        · have : y + 1 ≤ x := by omega
          nlinarith
      subst hxy
      have : value xs = value ys := by linarith
      rw [ih hx.2 hy.2 hlen this]

/-- The canonical representation of a number is unique. -/
theorem canonical_unique {a b : List Int} (ha : Canonical a) (hb : Canonical b)
    (hv : value a = value b) : a = b := by
  apply eq_of_value_eq_of_length_eq ha.1 hb.1 _ hv
  have hane : 0 < a.length := List.length_pos.mpr ha.2.1
  have hbne : 0 < b.length := List.length_pos.mpr hb.2.1
  have h1 := canonical_length_le ha hbne (hv ▸ value_lt_pow hb.1)
  have h2 := canonical_length_le hb hane (hv ▸ value_lt_pow ha.1)
  omega

end Unsigned

/-! ## Comparison, addition and subtraction of magnitudes -/

namespace Unsigned

theorem padShorterNumber_length (a b : List Int) :
    (padShorterNumber a b).1.length = (padShorterNumber a b).2.length := by
  unfold padShorterNumber
  split <;> (simp only [length_pad]; omega)

theorem padShorterNumber_length_fst (a b : List Int) :
    (padShorterNumber a b).1.length = max a.length b.length := by
  unfold padShorterNumber
  split
  · simp only [length_pad]
  · simp only []; omega

theorem padShorterNumber_value (a b : List Int) :
    value (padShorterNumber a b).1 = value a ∧ value (padShorterNumber a b).2 = value b := by
  unfold padShorterNumber
  split <;> simp [value_pad]

theorem padShorterNumber_isDigits {a b : List Int} (ha : IsDigits a) (hb : IsDigits b) :
    IsDigits (padShorterNumber a b).1 ∧ IsDigits (padShorterNumber a b).2 := by
  unfold padShorterNumber
  split
  · exact ⟨isDigits_pad ha _, hb⟩
  · exact ⟨ha, isDigits_pad hb _⟩

theorem compareLoop_spec {a b : List Int} (ha : IsDigits a) (hb : IsDigits b)
    (hlen : a.length = b.length) :
    compareLoop a b =
      if value a < value b then -1 else if value a > value b then 1 else 0 := by
  induction a generalizing b with
  | nil =>
    cases b with
    | nil => simp [compareLoop, value]
    | cons _ _ => simp at hlen
  | cons x xs ih =>
    cases b with
    | nil => simp at hlen
    | cons y ys =>
      simp only [List.length_cons, Nat.add_right_cancel_iff] at hlen
      have hx := isDigits_cons.mp ha
      have hy := isDigits_cons.mp hb
      have h1 := value_nonneg hx.2
      have h2 := value_nonneg hy.2
      have h3 := value_lt_pow hx.2
      have h4 := value_lt_pow hy.2
      rw [hlen] at h3
      simp only [compareLoop, value_cons, hlen]
      by_cases hlt : x < y
      · have : x + 1 ≤ y := by omega
        have hh : x * 10 ^ ys.length + value xs < y * 10 ^ ys.length + value ys := by nlinarith
        simp [hlt, hh]
      · by_cases hgt : x > y
        · have : y + 1 ≤ x := by omega
          have hh : y * 10 ^ ys.length + value ys < x * 10 ^ ys.length + value xs := by nlinarith
          have hh' : ¬ (x * 10 ^ ys.length + value xs < y * 10 ^ ys.length + value ys) := by omega
          simp only [hlt, hgt, if_false, if_true, hh']
          simp [hh]
        · have hxy : x = y := by omega
          subst hxy
          simp only [lt_self_iff_false, if_false, gt_iff_lt]
          rw [ih hx.2 hy.2 hlen]
          simp only [add_lt_add_iff_left, gt_iff_lt]

/-- `Unsigned::compare` orders digit sequences by the numbers they denote. -/
theorem compare_spec {a b : List Int} (ha : IsDigits a) (hb : IsDigits b) :
    compare a b = if value a < value b then -1 else if value a > value b then 1 else 0 := by
  unfold compare
  have hd := padShorterNumber_isDigits ha hb
  rw [compareLoop_spec hd.1 hd.2 (padShorterNumber_length a b)]
  rw [(padShorterNumber_value a b).1, (padShorterNumber_value a b).2]

theorem compare_ge_iff {a b : List Int} (ha : IsDigits a) (hb : IsDigits b) :
    compare a b ≥ 0 ↔ value b ≤ value a := by
  rw [compare_spec ha hb]
  split_ifs <;> omega

theorem compare_le_iff {a b : List Int} (ha : IsDigits a) (hb : IsDigits b) :
    compare a b ≤ 0 ↔ value a ≤ value b := by
  rw [compare_spec ha hb]
  split_ifs <;> omega

theorem compare_lt_iff {a b : List Int} (ha : IsDigits a) (hb : IsDigits b) :
    compare a b < 0 ↔ value a < value b := by
  rw [compare_spec ha hb]
  split_ifs <;> omega

theorem compare_eq_zero_iff {a b : List Int} (ha : IsDigits a) (hb : IsDigits b) :
    compare a b = 0 ↔ value a = value b := by
  rw [compare_spec ha hb]
  split_ifs with h1 h2
  · constructor
    · intro h; exact absurd h (by decide)
    · intro h; omega
  · constructor
    · intro h; exact absurd h (by decide)
    · intro h; omega
  · constructor
    · intro _; omega
    · intro _; rfl

theorem addLoop_spec {a b : List Int} (ha : IsDigits a) (hb : IsDigits b)
    (hlen : a.length = b.length) :
    ((addLoop a b).1 = 0 ∨ (addLoop a b).1 = 1) ∧ IsDigits (addLoop a b).2 ∧
      (addLoop a b).2.length = a.length ∧
      (addLoop a b).1 * 10 ^ a.length + value (addLoop a b).2 = value a + value b := by
  induction a generalizing b with
  | nil =>
    cases b with
    | nil => simp [addLoop, value, isDigits_nil]
    | cons _ _ => simp at hlen
  | cons x xs ih =>
    cases b with
    | nil => simp at hlen
    | cons y ys =>
      simp only [List.length_cons, Nat.add_right_cancel_iff] at hlen
      have hx := isDigits_cons.mp ha
      have hy := isDigits_cons.mp hb
      obtain ⟨hc, hds, hl, hv⟩ := ih hx.2 hy.2 hlen
      simp only [addLoop]
      split
      · rename_i hgt
        refine ⟨Or.inr rfl, ?_, by simp [hl], ?_⟩
        · apply isDigits_cons.mpr
          refine ⟨?_, hds⟩
          rcases hc with hc | hc <;> rw [hc] at hgt ⊢ <;> omega
        · simp only [value_cons, hl, List.length_cons, pow_succ, ← hlen]
          linear_combination hv
      · rename_i hgt
        refine ⟨Or.inl rfl, ?_, by simp [hl], ?_⟩
        · apply isDigits_cons.mpr
          refine ⟨?_, hds⟩
          rcases hc with hc | hc <;> rw [hc] at hgt ⊢ <;> omega
        · simp only [value_cons, hl, List.length_cons, pow_succ, ← hlen]
          linear_combination hv

/-- `Unsigned::addMutable` leaves the digits of the sum of the two numbers. -/
theorem addMutable_spec {a b : List Int} (ha : IsDigits a) (hb : IsDigits b) :
    IsDigits (addMutable a b) ∧ value (addMutable a b) = value a + value b ∧
      (a ≠ [] ∨ b ≠ [] → Canonical (addMutable a b)) := by
  have hd := padShorterNumber_isDigits ha hb
  have hlen := padShorterNumber_length a b
  have hlf := padShorterNumber_length_fst a b
  have hval := padShorterNumber_value a b
  obtain ⟨hc, hds, hl, hv⟩ := addLoop_spec hd.1 hd.2 hlen
  rw [hval.1, hval.2] at hv
  simp only [addMutable]
  split
  · rename_i hpos
    have hc1 : (addLoop (padShorterNumber a b).1 (padShorterNumber a b).2).1 = 1 := by omega
    have hdig : IsDigits ((addLoop (padShorterNumber a b).1 (padShorterNumber a b).2).1 ::
        (addLoop (padShorterNumber a b).1 (padShorterNumber a b).2).2) := by
      apply isDigits_cons.mpr
      exact ⟨by omega, hds⟩
    refine ⟨trim_isDigits hdig, ?_, fun _ => trim_canonical hdig (by simp)⟩
    rw [trim_value, value_cons, hl, hv]
  · rename_i hpos
    have hc0 : (addLoop (padShorterNumber a b).1 (padShorterNumber a b).2).1 = 0 := by omega
    refine ⟨trim_isDigits hds, ?_, fun hne => trim_canonical hds ?_⟩
    · rw [trim_value]
      rw [hc0] at hv
      simpa using hv
    · intro hnil
      rw [hnil] at hl
      simp only [List.length_nil] at hl
      rw [hlf] at hl
      rcases hne with h | h
      · exact h (List.length_eq_zero.mp (by omega))
      · exact h (List.length_eq_zero.mp (by omega))

theorem subtractLoop_spec {a b : List Int} (ha : IsDigits a) (hb : IsDigits b)
    (hlen : a.length = b.length) :
    ((subtractLoop a b).1 = 0 ∨ (subtractLoop a b).1 = 1) ∧ IsDigits (subtractLoop a b).2 ∧
      (subtractLoop a b).2.length = a.length ∧
      value (subtractLoop a b).2 - (subtractLoop a b).1 * 10 ^ a.length = value a - value b := by
  induction a generalizing b with
  | nil =>
    cases b with
    | nil => simp [subtractLoop, value, isDigits_nil]
    | cons _ _ => simp at hlen
  | cons x xs ih =>
    cases b with
    | nil => simp at hlen
    | cons y ys =>
      simp only [List.length_cons, Nat.add_right_cancel_iff] at hlen
      have hx := isDigits_cons.mp ha
      have hy := isDigits_cons.mp hb
      obtain ⟨hc, hds, hl, hv⟩ := ih hx.2 hy.2 hlen
      simp only [subtractLoop]
      split
      · rename_i hgt
        refine ⟨Or.inr rfl, ?_, by simp [hl], ?_⟩
        · apply isDigits_cons.mpr
          refine ⟨?_, hds⟩
          rcases hc with hc | hc <;> rw [hc] at hgt ⊢ <;> omega
        · simp only [value_cons, hl, List.length_cons, pow_succ, ← hlen]
          linear_combination hv
      · rename_i hgt
        refine ⟨Or.inl rfl, ?_, by simp [hl], ?_⟩
        · apply isDigits_cons.mpr
          refine ⟨?_, hds⟩
          rcases hc with hc | hc <;> rw [hc] at hgt ⊢ <;> omega
        · simp only [value_cons, hl, List.length_cons, pow_succ, ← hlen]
          linear_combination hv

/-- The loop of `Unsigned::subtractMutable` ends with a borrow exactly when the
minuend is the smaller number. -/
theorem subtractLoop_borrow {a b : List Int} (ha : IsDigits a) (hb : IsDigits b)
    (hlen : a.length = b.length) :
    (subtractLoop a b).1 > 0 ↔ value a < value b := by
  obtain ⟨hc, hds, hl, hv⟩ := subtractLoop_spec ha hb hlen
  have h1 := value_nonneg hds
  have h2 := value_lt_pow hds
  rw [hl] at h2
  rcases hc with hc | hc <;> rw [hc] at hv ⊢ <;> constructor <;> intro h <;> omega

/-- `Unsigned::subtractMutable` leaves the digits of the difference when the
minuend is not the smaller number. -/
theorem subtractMutable_spec {a b : List Int} (ha : IsDigits a) (hb : IsDigits b)
    (hle : value b ≤ value a) :
    IsDigits (subtractMutable a b) ∧ value (subtractMutable a b) = value a - value b ∧
      (a ≠ [] ∨ b ≠ [] → Canonical (subtractMutable a b)) := by
  have hd := padShorterNumber_isDigits ha hb
  have hlen := padShorterNumber_length a b
  have hlf := padShorterNumber_length_fst a b
  have hval := padShorterNumber_value a b
  obtain ⟨hc, hds, hl, hv⟩ := subtractLoop_spec hd.1 hd.2 hlen
  have hbor := subtractLoop_borrow hd.1 hd.2 hlen
  rw [hval.1, hval.2] at hv hbor
  have hc0 : ¬ (subtractLoop (padShorterNumber a b).1 (padShorterNumber a b).2).1 > 0 := by
    rw [hbor]; omega
  simp only [subtractMutable, if_neg hc0]
  have hz : (subtractLoop (padShorterNumber a b).1 (padShorterNumber a b).2).1 = 0 := by omega
  refine ⟨trim_isDigits hds, ?_, fun hne => trim_canonical hds ?_⟩
  · rw [trim_value]
    rw [hz] at hv
    simpa using hv
  · intro hnil
    rw [hnil] at hl
    simp only [List.length_nil] at hl
    rw [hlf] at hl
    rcases hne with h | h
    · exact h (List.length_eq_zero.mp (by omega))
    · exact h (List.length_eq_zero.mp (by omega))

/-- `Unsigned::subtractMutable` trips its borrow check and leaves the empty
sentinel when the minuend is the smaller number. -/
theorem subtractMutable_error {a b : List Int} (ha : IsDigits a) (hb : IsDigits b)
    (hlt : value a < value b) : subtractMutable a b = [] := by
  have hd := padShorterNumber_isDigits ha hb
  have hlen := padShorterNumber_length a b
  have hval := padShorterNumber_value a b
  have hbor := subtractLoop_borrow hd.1 hd.2 hlen
  rw [hval.1, hval.2] at hbor
  simp only [subtractMutable, if_pos (hbor.mpr hlt)]
  rfl

end Unsigned

/-! ## Division of magnitudes -/

namespace Unsigned

theorem gUnsignedZero_eq : gUnsignedZero = [0] := by decide

theorem gUnsignedOne_eq : gUnsignedOne = [1] := by decide

theorem gUnsignedTwo_eq : gUnsignedTwo = [2] := by decide

theorem intToChar_digit {d : Int} (h0 : 0 ≤ d) (h9 : d ≤ 9) :
    (intToChar d).isDigit = true ∧ ((intToChar d).toNat : Int) - 48 = d ∧
      intToChar d ≠ '-' ∧ intToChar d ≠ '+' := by
  interval_cases d <;> decide

theorem atoiDigits_toString {ds : List Int} (h : IsDigits ds) (acc : Int) :
    atoiDigits acc (toString ds) = acc * 10 ^ ds.length + value ds := by
  induction ds generalizing acc with
  | nil => simp [toString, atoiDigits, value]
  | cons d ds ih =>
    have hd := isDigits_cons.mp h
    have hc := intToChar_digit hd.1.1 hd.1.2
    simp only [toString, List.map_cons, atoiDigits, hc.1, if_true, hc.2.1]
    have := ih hd.2 (10 * acc + d)
    simp only [toString] at this
    rw [this, value_cons, List.length_cons, pow_succ]
    ring

/-- `Unsigned::toInt` reads back the number a digit sequence denotes. -/
theorem toInt_eq_value {ds : List Int} (h : IsDigits ds) : toInt ds = value ds := by
  cases ds with
  | nil => rfl
  | cons d rest =>
    have hd := isDigits_cons.mp h
    have hc := intToChar_digit hd.1.1 hd.1.2
    have key := atoiDigits_toString h 0
    simp only [zero_mul, zero_add] at key
    rw [← key]
    simp only [toInt, toString, List.map_cons]
    unfold atoi
    split
    · rename_i heq
      simp only [List.cons.injEq] at heq
      exact absurd heq.1 hc.2.2.1
    · rename_i heq
      simp only [List.cons.injEq] at heq
      exact absurd heq.1 hc.2.2.2
    · rfl

/-- The guard `divisor <= gUnsignedTwo` together with a `case` label of the
`switch` on `divisor.toInt()` selects exactly the divisors of that value. -/
theorem switch_case_iff {divisor : List Int} (h : IsDigits divisor) (k : Int) (hk : k ≤ 2) :
    (compare divisor gUnsignedTwo ≤ 0 ∧ toInt divisor = k) ↔ value divisor = k := by
  have h2 : IsDigits gUnsignedTwo := by decide
  rw [compare_le_iff h h2, toInt_eq_value h]
  have : value gUnsignedTwo = 2 := by decide
  rw [this]
  constructor
  · intro hh; exact hh.2
  · intro hh; exact ⟨by omega, hh⟩

theorem halfDigit_spec {first second : Int} (hf : 0 ≤ first ∧ first ≤ 9)
    (hs : 0 ≤ second ∧ second ≤ 9) :
    halfDigit first second = some (5 * (first % 2) + second / 2) := by
  obtain ⟨hf0, hf9⟩ := hf
  obtain ⟨hs0, hs9⟩ := hs
  interval_cases first <;> interval_cases second <;> decide

theorem halfLoop_spec (rest : List Int) :
    ∀ first : Int, IsDigits (first :: rest) →
      ∃ saves l, halfLoop (first :: rest) = some saves ∧ (first :: rest).getLast? = some l ∧
        IsDigits saves ∧ saves.length = rest.length ∧
        2 * value saves + l % 2 = (first % 2) * 10 ^ rest.length + value rest := by
  induction rest with
  | nil =>
    intro first _
    exact ⟨[], first, rfl, rfl, isDigits_nil, rfl, by simp [value]⟩
  | cons second rest ih =>
    intro first h
    have hf := isDigits_cons.mp h
    have hs := isDigits_cons.mp hf.2
    obtain ⟨more, l, hmore, hlast, hdm, hlen, hval⟩ := ih second hf.2
    refine ⟨(5 * (first % 2) + second / 2) :: more, l, ?_, ?_, ?_, ?_, ?_⟩
    · simp only [halfLoop, halfDigit_spec hf.1 hs.1, hmore]
    · rw [List.getLast?_cons_cons]; exact hlast
    · apply isDigits_cons.mpr
      refine ⟨?_, hdm⟩
      omega
    · simp [hlen]
    · rw [value_cons, value_cons, hlen, List.length_cons, pow_succ]
      have e : second = 2 * (second / 2) + second % 2 := by omega
      have hv' : 2 * value more = second % 2 * 10 ^ rest.length + value rest - l % 2 := by
        linarith
      have : (2 : Int) * ((5 * (first % 2) + second / 2) * 10 ^ rest.length + value more) + l % 2
          = first % 2 * (10 ^ rest.length * 10) +
            ((2 * (second / 2) + second % 2) * 10 ^ rest.length + value rest) := by
        linear_combination hv'
      rw [this, ← e]

theorem isOddInt_digit {l : Int} (h0 : 0 ≤ l) (h9 : l ≤ 9) :
    value (trim (if isOddInt l then gUnsignedOne else gUnsignedZero)) = l % 2 ∧
      Canonical (trim (if isOddInt l then gUnsignedOne else gUnsignedZero)) := by
  interval_cases l <;> decide

/-- `Unsigned::divideByTwoWithRem` halves every non-empty digit sequence. -/
theorem divideByTwoWithRem_spec {dividend : List Int} (h : IsDigits dividend)
    (hne : dividend ≠ []) :
    ∃ q r, divideByTwoWithRem dividend = some ⟨q, r⟩ ∧ Canonical q ∧ Canonical r ∧
      value dividend = 2 * value q + value r ∧ 0 ≤ value r ∧ value r < 2 := by
  have h0 : IsDigits (0 :: dividend) := isDigits_cons.mpr ⟨by omega, h⟩
  obtain ⟨saves, l, hsaves, hlast, hds, hlen, hval⟩ := halfLoop_spec dividend 0 h0
  have hlast' : dividend.getLast? = some l := by
    cases dividend with
    | nil => exact absurd rfl hne
    | cons d ds => rw [List.getLast?_cons_cons] at hlast; exact hlast
  have hl : 0 ≤ l ∧ l ≤ 9 := h l (List.mem_of_getLast?_eq_some hlast')
  obtain ⟨hrv, hrc⟩ := isOddInt_digit hl.1 hl.2
  refine ⟨trim (gUnsignedZero ++ saves),
    trim (if isOddInt l then gUnsignedOne else gUnsignedZero), ?_, ?_, hrc, ?_, ?_, ?_⟩
  · simp only [divideByTwoWithRem, hsaves, hlast']
  · apply trim_canonical
    · rw [gUnsignedZero_eq]
      exact isDigits_append.mpr ⟨by decide, hds⟩
    · rw [gUnsignedZero_eq]; simp
  · rw [hrv, trim_value, gUnsignedZero_eq, value_append]
    simp only [value_singleton, zero_mul, zero_add]
    simp only [Int.zero_emod, zero_mul, zero_add] at hval
    omega
  · rw [hrv]; omega
  · rw [hrv]; omega

theorem divideByTwoWithRem_nil : divideByTwoWithRem [] = none := rfl

end Unsigned

namespace Unsigned

/-- One round of the slow loop's contract: the loop divides the running remainder
by the divisor, adding the count of subtractions to the running quotient. -/
theorem divideWithRemSlowLoop_spec {divisor : List Int} (hd : IsDigits divisor)
    (hpos : 0 < value divisor) :
    ∀ (fuel : Nat) (q r : List Int), IsDigits q → q ≠ [] → IsDigits r →
      value r < fuel * value divisor →
      ∃ q1 r1, divideWithRemSlowLoop divisor fuel q r = some ⟨q1, r1⟩ ∧
        Canonical q1 ∧ IsDigits r1 ∧ (r ≠ [] → Canonical r1) ∧ (r = [] → r1 = []) ∧
        value q ≤ value q1 ∧
        value r = value divisor * (value q1 - value q) + value r1 ∧
        0 ≤ value r1 ∧ value r1 < value divisor := by
  intro fuel
  induction fuel with
  | zero =>
    intro q r _ _ hr hlt
    have := value_nonneg hr
    simp at hlt
    omega
  | succ fuel ih =>
    intro q r hq hqne hr hlt
    simp only [divideWithRemSlowLoop]
    by_cases hge : compare r divisor ≥ 0
    · rw [if_pos hge]
      have hle : value divisor ≤ value r := (compare_ge_iff hr hd).mp hge
      have hrne : r ≠ [] := by
        intro h; rw [h, value_nil] at hle; omega
      have h1 : IsDigits gUnsignedOne := by decide
      obtain ⟨haq, hvq, hcq⟩ := addMutable_spec hq h1
      obtain ⟨hsr, hvr, hcr⟩ := subtractMutable_spec hr hd hle
      have hcr' := hcr (Or.inl hrne)
      have hfuel : value (subtractMutable r divisor) < fuel * value divisor := by
        rw [hvr]
        push_cast at hlt
        linarith
      obtain ⟨q1, r1, heq, hc1, hd1, hcan, _, hle1, hval, h0, hlt1⟩ :=
        ih (addMutable q gUnsignedOne) (subtractMutable r divisor) haq
          (hcq (Or.inl hqne)).2.1 hsr hfuel
      refine ⟨q1, r1, heq, hc1, hd1, fun _ => hcan hcr'.2.1, fun h => absurd h hrne, ?_, ?_,
        h0, hlt1⟩
      · rw [hvq] at hle1
        have : value gUnsignedOne = 1 := by decide
        omega
      · rw [hvq, hvr] at hval
        have : value gUnsignedOne = 1 := by decide
        rw [this] at hval
        linear_combination hval
    · rw [if_neg hge]
      have hlt' : value r < value divisor := by
        have := (compare_ge_iff hr hd).not.mp hge
        omega
      refine ⟨trim q, trim r, rfl, trim_canonical hq hqne, trim_isDigits hr,
        fun h => trim_canonical hr h, fun h => by rw [h]; rfl, ?_, ?_, ?_, ?_⟩
      · rw [trim_value]
      · rw [trim_value, trim_value]; ring
      · rw [trim_value]; exact value_nonneg hr
      · rw [trim_value]; exact hlt'

/-- `Unsigned::divideWithRemSlow` returns the quotient and remainder of the numbers
denoted, for every nonzero divisor and every dividend for which the halving pass
is defined. -/
theorem divideWithRemSlow_spec {dividend divisor : List Int} (ha : IsDigits dividend)
    (hb : IsDigits divisor) (hpos : 0 < value divisor)
    (hne : dividend ≠ [] ∨ value divisor ≠ 2) :
    ∃ q r, divideWithRemSlow dividend divisor = some ⟨q, r⟩ ∧ IsDigits q ∧ IsDigits r ∧
      value dividend = value divisor * value q + value r ∧
      0 ≤ value r ∧ value r < value divisor := by
  have hn0 : ¬ (compare divisor gUnsignedTwo ≤ 0 ∧ toInt divisor = 0) := by
    rw [switch_case_iff hb 0 (by norm_num)]; omega
  by_cases h1 : value divisor = 1
  · have hc1 : compare divisor gUnsignedTwo ≤ 0 ∧ toInt divisor = 1 :=
      (switch_case_iff hb 1 (by norm_num)).mpr h1
    refine ⟨dividend, gUnsignedZero, ?_, ha, by decide, ?_, by decide, ?_⟩
    · simp only [divideWithRemSlow, if_neg hn0, if_pos hc1, divideByOneWithRem]
    · rw [h1, gUnsignedZero_eq]; simp [value]
    · rw [h1, gUnsignedZero_eq]; decide
  · have hn1 : ¬ (compare divisor gUnsignedTwo ≤ 0 ∧ toInt divisor = 1) := by
      rw [switch_case_iff hb 1 (by norm_num)]; exact h1
    by_cases h2 : value divisor = 2
    · have hc2 : compare divisor gUnsignedTwo ≤ 0 ∧ toInt divisor = 2 :=
        (switch_case_iff hb 2 (by norm_num)).mpr h2
      have hdne : dividend ≠ [] := by
        rcases hne with h | h
        · exact h
        · exact absurd h2 h
      obtain ⟨q, r, heq, hq, hr, hv, h0, hlt⟩ := divideByTwoWithRem_spec ha hdne
      refine ⟨q, r, ?_, hq.1, hr.1, ?_, h0, ?_⟩
      · simp only [divideWithRemSlow, if_neg hn0, if_neg hn1, if_pos hc2, heq]
      · rw [h2]; exact hv
      · rw [h2]; exact hlt
    · have hn2 : ¬ (compare divisor gUnsignedTwo ≤ 0 ∧ toInt divisor = 2) := by
        rw [switch_case_iff hb 2 (by norm_num)]; exact h2
      have hfuel : value dividend <
          (((value dividend).toNat + 1 : Nat) : Int) * value divisor := by
        have := value_nonneg ha
        push_cast
        rw [Int.toNat_of_nonneg this]
        nlinarith
      obtain ⟨q, r, heq, hq, hr, _, _, _, hv, h0, hlt⟩ :=
        divideWithRemSlowLoop_spec hb hpos ((value dividend).toNat + 1) gUnsignedZero dividend
          (by decide) (by decide) ha hfuel
      refine ⟨q, r, ?_, hq.1, hr, ?_, h0, hlt⟩
      · simp only [divideWithRemSlow, if_neg hn0, if_neg hn1, if_neg hn2, heq]
      · have : value gUnsignedZero = 0 := by decide
        rw [this] at hv
        linear_combination hv

/-- With a divisor above 2 the slow division also returns canonical results. -/
theorem divideWithRemSlow_canonical {dividend divisor : List Int} (ha : IsDigits dividend)
    (hb : IsDigits divisor) (hgt : 2 < value divisor) :
    ∃ q r, divideWithRemSlow dividend divisor = some ⟨q, r⟩ ∧ Canonical q ∧ IsDigits r ∧
      (dividend ≠ [] → Canonical r) ∧ (dividend = [] → r = []) ∧
      value dividend = value divisor * value q + value r ∧
      0 ≤ value r ∧ value r < value divisor := by
  have hn0 : ¬ (compare divisor gUnsignedTwo ≤ 0 ∧ toInt divisor = 0) := by
    rw [switch_case_iff hb 0 (by norm_num)]; omega
  have hn1 : ¬ (compare divisor gUnsignedTwo ≤ 0 ∧ toInt divisor = 1) := by
    rw [switch_case_iff hb 1 (by norm_num)]; omega
  have hn2 : ¬ (compare divisor gUnsignedTwo ≤ 0 ∧ toInt divisor = 2) := by
    rw [switch_case_iff hb 2 (by norm_num)]; omega
  have hfuel : value dividend <
      (((value dividend).toNat + 1 : Nat) : Int) * value divisor := by
    have := value_nonneg ha
    push_cast
    rw [Int.toNat_of_nonneg this]
    nlinarith
  obtain ⟨q, r, heq, hq, hr, hcr, hnil, _, hv, h0, hlt⟩ :=
    divideWithRemSlowLoop_spec hb (by omega) ((value dividend).toNat + 1) gUnsignedZero dividend
      (by decide) (by decide) ha hfuel
  refine ⟨q, r, ?_, hq, hr, hcr, hnil, ?_, h0, hlt⟩
  · simp only [divideWithRemSlow, if_neg hn0, if_neg hn1, if_neg hn2, heq]
  · have : value gUnsignedZero = 0 := by decide
    rw [this] at hv
    linear_combination hv

end Unsigned

namespace Unsigned

theorem set_length_append (l1 l2 : List Int) (x y : Int) :
    (l1 ++ x :: l2).set l1.length y = l1 ++ y :: l2 := by
  induction l1 with
  | nil => rfl
  | cons a l1 ih => simp [List.set, ih]

theorem isDigits_nonneg_head {r : Int} {rs : List Int} (h : IsDigits (r :: rs)) : r ≥ 0 :=
  (isDigits_cons.mp h).1.1

/-- While the scan of `findDivisibleSizedChunk` walks over the positions already
held by the running dividend, whose value is below the divisor, no chunk fits. -/
theorem findChunk_skip {divisor : List Int} (hd : IsDigits divisor) (rest dsuf : List Int) :
    ∀ (pre dpre chunk : List Int) (pos : Nat),
      pre.length = dpre.length → IsDigits pre → IsDigits chunk →
      value (chunk ++ pre) < value divisor →
      findDivisibleSizedChunkLoop divisor (pre ++ rest) (dpre ++ dsuf) chunk pos =
        findDivisibleSizedChunkLoop divisor rest dsuf (chunk ++ pre) (pos + pre.length) := by
  intro pre
  induction pre with
  | nil =>
    intro dpre chunk pos hlen _ _ _
    have : dpre = [] := List.length_eq_zero.mp hlen.symm
    subst this
    simp
  | cons r pre ih =>
    intro dpre chunk pos hlen hpre hchunk hlt
    cases dpre with
    | nil => simp at hlen
    | cons d dpre =>
      simp only [List.length_cons, Nat.add_right_cancel_iff] at hlen
      have hr := isDigits_cons.mp hpre
      have hc' : IsDigits (chunk ++ [r]) := isDigits_append.mpr ⟨hchunk, isDigits_singleton.mpr hr.1⟩
      have happ : chunk ++ r :: pre = (chunk ++ [r]) ++ pre := by simp
      have hnofit : ¬ compare (chunk ++ [r]) divisor ≥ 0 := by
        rw [compare_ge_iff hc' hd]
        have := value_le_value_append hc' hr.2
        rw [happ] at hlt
        omega
      rw [List.cons_append, List.cons_append]
      simp only [findDivisibleSizedChunkLoop, if_pos hr.1.1, if_neg hnofit]
      rw [ih dpre (chunk ++ [r]) (pos + 1) hlen hr.2 hc' (happ ▸ hlt)]
      rw [happ, List.length_cons]
      congr 1
      omega

/-- Over the positions still marked `UNASSIGNED` the scan appends dividend digits
until the chunk first reaches the divisor. -/
theorem findChunk_scan {divisor : List Int} (hd : IsDigits divisor) :
    ∀ (dsuf chunk : List Int) (pos : Nat), IsDigits dsuf → IsDigits chunk →
      value chunk < value divisor →
      (findDivisibleSizedChunkLoop divisor (List.replicate dsuf.length UNASSIGNED) dsuf chunk pos
          = some (chunk ++ dsuf, pos + dsuf.length, false) ∧
        value (chunk ++ dsuf) < value divisor) ∨
      ∃ s1 d s2, dsuf = s1 ++ d :: s2 ∧
        findDivisibleSizedChunkLoop divisor (List.replicate dsuf.length UNASSIGNED) dsuf chunk pos
          = some (chunk ++ s1 ++ [d], pos + s1.length, true) ∧
        value (chunk ++ s1) < value divisor ∧ value divisor ≤ value (chunk ++ s1 ++ [d]) := by
  intro dsuf
  induction dsuf with
  | nil =>
    intro chunk pos _ _ hlt
    left
    simp [findDivisibleSizedChunkLoop, hlt]
  | cons d ds ih =>
    intro chunk pos hds hchunk hlt
    have hdd := isDigits_cons.mp hds
    have hc' : IsDigits (chunk ++ [d]) := isDigits_append.mpr ⟨hchunk, isDigits_singleton.mpr hdd.1⟩
    have hun : ¬ (UNASSIGNED ≥ 0) := by decide
    simp only [List.length_cons, List.replicate_succ, findDivisibleSizedChunkLoop, if_neg hun]
    by_cases hfit : compare (chunk ++ [d]) divisor ≥ 0
    · right
      refine ⟨[], d, ds, rfl, ?_, ?_, ?_⟩
      · simp [hfit]
      · simpa using hlt
      · simpa using (compare_ge_iff hc' hd).mp hfit
    · rw [if_neg hfit]
      have hlt' : value (chunk ++ [d]) < value divisor := by
        have := (compare_ge_iff hc' hd).not.mp hfit
        omega
      rcases ih (chunk ++ [d]) (pos + 1) hdd.2 hc' hlt' with ⟨heq, hv⟩ | ⟨s1, e, s2, hsplit, heq, hv1, hv2⟩
      · left
        refine ⟨?_, ?_⟩
        · rw [heq]; simp; omega
        · simpa using hv
      · right
        refine ⟨d :: s1, e, s2, by simp [hsplit], ?_, ?_, ?_⟩
        · rw [heq]; simp; omega
        · simpa using hv1
        · simpa using hv2

end Unsigned

namespace Unsigned

theorem canonical_digit {v : Int} (h1 : 1 ≤ v) (h9 : v ≤ 9) : Canonical [v] := by
  refine ⟨isDigits_singleton.mpr ⟨by omega, h9⟩, by simp, ?_⟩
  intro h
  simp at h
  omega

/-- The invariant of the long-division loop.  After the digits `dpre` of the
dividend have been consumed, the running dividend holds their remainder `pre`
followed by `UNASSIGNED` marks and the quotient holds their quotient `qpre`
followed by zeros; from such a state the loop ends with the quotient and
remainder of the whole dividend. -/
theorem divideWithRemFastLoop_spec {dividend divisor : List Int} (ha : IsDigits dividend)
    (hne : dividend ≠ []) (hb : IsDigits divisor) (hgt : 2 < value divisor) :
    ∀ (fuel : Nat) (dpre dsuf pre qpre : List Int), dividend = dpre ++ dsuf →
      pre.length = dpre.length → qpre.length = dpre.length → IsDigits pre → IsDigits qpre →
      value dpre = value divisor * value qpre + value pre → value pre < value divisor →
      dsuf.length < fuel →
      ∃ q r, divideWithRemFastLoop dividend divisor fuel
          (pre ++ List.replicate dsuf.length UNASSIGNED)
          (qpre ++ List.replicate dsuf.length 0) = some ⟨q, r⟩ ∧
        Canonical q ∧ Canonical r ∧
        value dividend = value divisor * value q + value r ∧
        0 ≤ value r ∧ value r < value divisor := by
  intro fuel
  induction fuel with
  | zero => intro _ dsuf _ _ _ _ _ _ _ _ _ hf; omega
  | succ fuel ih =>
    intro dpre dsuf pre qpre hsplit hlpre hlq hpre hqpre hinv hlt hfuel
    have hdd : IsDigits dpre ∧ IsDigits dsuf := isDigits_append.mp (hsplit ▸ ha)
    have hfind : findDivisibleSizedChunk (pre ++ List.replicate dsuf.length UNASSIGNED)
        dividend divisor =
        findDivisibleSizedChunkLoop divisor (List.replicate dsuf.length UNASSIGNED) dsuf pre
          pre.length := by
      unfold findDivisibleSizedChunk
      rw [hsplit, findChunk_skip hb _ _ pre dpre [] 0 hlpre hpre isDigits_nil (by simpa using hlt)]
      simp
    have hlen : dividend.length = pre.length + dsuf.length := by
      rw [hsplit, List.length_append, hlpre]
    have hposlen : 0 < pre.length + dsuf.length := by
      rw [← hlen]; exact List.length_pos.mpr hne
    rcases findChunk_scan hb dsuf pre pre.length hdd.2 hpre hlt with
      ⟨heq, hv⟩ | ⟨s1, d, s2, hs, heq, hv1, hv2⟩
    · -- no chunk fits: the loop ends
      refine ⟨trim (qpre ++ List.replicate dsuf.length 0), trim (pre ++ dsuf), ?_, ?_, ?_, ?_, ?_, ?_⟩
      · simp only [divideWithRemFastLoop, hfind, heq]
        rfl
      · apply trim_canonical (isDigits_append.mpr ⟨hqpre, isDigits_replicate_zero _⟩)
        intro h
        have := congrArg List.length h
        simp only [List.length_append, List.length_replicate, List.length_nil] at this
        omega
      · apply trim_canonical (isDigits_append.mpr ⟨hpre, hdd.2⟩)
        intro h
        have := congrArg List.length h
        simp only [List.length_append, List.length_nil] at this
        omega
      · rw [trim_value, trim_value, hsplit, value_append, value_append, value_append,
          value_replicate_zero, List.length_replicate, hinv]
        ring
      · rw [trim_value]
        exact value_nonneg (isDigits_append.mpr ⟨hpre, hdd.2⟩)
      · rw [trim_value]; exact hv
    · -- the chunk `pre ++ s1 ++ [d]` fits
      have hs12 : IsDigits s1 ∧ IsDigits (d :: s2) := isDigits_append.mp (hs ▸ hdd.2)
      have hd2 := isDigits_cons.mp hs12.2
      have hps : IsDigits (pre ++ s1) := isDigits_append.mpr ⟨hpre, hs12.1⟩
      have hchunk : IsDigits (pre ++ s1 ++ [d]) :=
        isDigits_append.mpr ⟨hps, isDigits_singleton.mpr hd2.1⟩
      have hcne : pre ++ s1 ++ [d] ≠ [] := by simp
      have hcval : value (pre ++ s1 ++ [d]) = 10 * value (pre ++ s1) + d :=
        value_append_singleton _ _
      obtain ⟨q1, r1, hslow, hq1, hr1d, hr1c, _, hval1, hr0, hrlt⟩ :=
        divideWithRemSlow_canonical hchunk hb hgt
      have hr1can := hr1c hcne
      -- the partial quotient is a single digit
      have hq1nn := value_nonneg hq1.1
      have hq1lo : 1 ≤ value q1 := by
        by_contra hcon
        have : value q1 = 0 := by omega
        rw [this] at hval1
        simp only [mul_zero, zero_add] at hval1
        omega
      have hq1hi : value q1 ≤ 9 := by
        by_contra hcon
        have h10 : 10 ≤ value q1 := by omega
        have : value divisor * 10 ≤ value divisor * value q1 :=
          mul_le_mul_of_nonneg_left h10 (by omega)
        omega
      have hq1eq : q1 = [value q1] :=
        canonical_unique hq1 (canonical_digit hq1lo hq1hi) (value_singleton _).symm
      have hhead : q1.head? = some (value q1) := by rw [hq1eq]; simp [value_singleton]
      -- the two subtractions recover the remainder
      have hle1 : value r1 ≤ value (pre ++ s1 ++ [d]) := by omega
      obtain ⟨hppd, hppv, _⟩ := subtractMutable_spec hchunk hr1d hle1
      have hle2 : value (subtract (pre ++ s1 ++ [d]) r1) ≤ value (pre ++ s1 ++ [d]) := by
        show value (subtractMutable _ _) ≤ _
        rw [hppv]; omega
      obtain ⟨hremd, hremv, hremc⟩ := subtractMutable_spec hchunk hppd hle2
      have hremcan := hremc (Or.inl hcne)
      obtain ⟨rem, hremeq⟩ : ∃ rem, rem = subtractMutable (pre ++ s1 ++ [d])
          (subtractMutable (pre ++ s1 ++ [d]) r1) := ⟨_, rfl⟩
      rw [← hremeq] at hremd hremv hremcan
      have hremval : value rem = value r1 := by
        rw [hremv, hppv]; ring
      have hremlen : rem.length ≤ pre.length + s1.length + 1 := by
        apply canonical_length_le hremcan (by omega)
        rw [hremval]
        have := value_lt_pow hchunk
        simp only [List.length_append, List.length_singleton] at this
        omega
      have hdsl : dsuf.length = s1.length + 1 + s2.length := by
        rw [hs]; simp; omega
      -- the state handed to the next round
      have hk : dividend.length - (pre.length + s1.length) - 1 = s2.length := by omega
      have hn : dividend.length - (rem.length + s2.length) =
          pre.length + s1.length + 1 - rem.length := by omega
      have hrun : pad (appendRight (subtract (pre ++ s1 ++ [d])
            (subtract (pre ++ s1 ++ [d]) r1)) UNASSIGNED
            (dividend.length - (pre.length + s1.length) - 1)) dividend.length =
          (List.replicate (pre.length + s1.length + 1 - rem.length) 0 ++ rem) ++
          List.replicate s2.length UNASSIGNED := by
        simp only [subtract, ← hremeq]
        simp only [pad, appendRight, List.length_append, List.length_replicate, hk, hn,
          List.append_assoc]
      have hquo : (qpre ++ List.replicate dsuf.length 0).set (pre.length + s1.length) (value q1) =
          (qpre ++ List.replicate s1.length 0 ++ [value q1]) ++ List.replicate s2.length 0 := by
        have e1 : qpre ++ List.replicate dsuf.length 0 =
            (qpre ++ List.replicate s1.length 0) ++ 0 :: List.replicate s2.length 0 := by
          rw [hdsl, List.append_assoc]
          congr 1
          rw [show s1.length + 1 + s2.length = s1.length + (s2.length + 1) by omega,
            List.replicate_add, List.replicate_succ]
        have e2 : pre.length + s1.length = (qpre ++ List.replicate s1.length 0).length := by
          simp [hlq, hlpre]
        rw [e1, e2, set_length_append]
        simp
      have hfuel' : s2.length < fuel := by omega
      have hsplit' : dividend = (dpre ++ s1 ++ [d]) ++ s2 := by
        rw [hsplit, hs]; simp
      obtain ⟨q, r, hloop, hqc, hrc, hv, h0, hltr⟩ := ih (dpre ++ s1 ++ [d]) s2
        (List.replicate (pre.length + s1.length + 1 - rem.length) 0 ++ rem)
        (qpre ++ List.replicate s1.length 0 ++ [value q1]) hsplit'
        (by simp only [List.length_append, List.length_replicate, List.length_singleton]; omega)
        (by simp only [List.length_append, List.length_replicate, List.length_singleton]; omega)
        (isDigits_append.mpr ⟨isDigits_replicate_zero _, hremd⟩)
        (isDigits_append.mpr ⟨isDigits_append.mpr ⟨hqpre, isDigits_replicate_zero _⟩,
          isDigits_singleton.mpr ⟨by omega, hq1hi⟩⟩)
        (by
          rw [value_replicate_zero_append, hremval, value_append_singleton,
            value_append_singleton, value_append, value_append, value_replicate_zero,
            List.length_replicate, hinv]
          rw [hcval, value_append] at hval1
          linear_combination hval1)
        (by rw [value_replicate_zero_append, hremval]; exact hrlt)
        hfuel'
      refine ⟨q, r, ?_, hqc, hrc, hv, h0, hltr⟩
      simp only [divideWithRemFastLoop, hfind, heq, hslow, hhead]
      simp only [Bool.not_true, Bool.false_eq_true, if_false]
      rw [hrun, hquo]
      exact hloop

end Unsigned

namespace Unsigned

theorem pad_zero_length {n : Nat} (hn : 0 < n) : pad gUnsignedZero n = List.replicate n 0 := by
  rw [gUnsignedZero_eq]
  simp only [pad, List.length_singleton]
  obtain ⟨m, rfl⟩ : ∃ m, n = m + 1 := ⟨n - 1, by omega⟩
  rw [Nat.add_sub_cancel, List.replicate_succ']

theorem switch_none_of_gt {divisor : List Int} (hb : IsDigits divisor)
    (hgt : 2 < value divisor) :
    ¬ (compare divisor gUnsignedTwo ≤ 0 ∧ toInt divisor = 0) ∧
    ¬ (compare divisor gUnsignedTwo ≤ 0 ∧ toInt divisor = 1) ∧
    ¬ (compare divisor gUnsignedTwo ≤ 0 ∧ toInt divisor = 2) := by
  rw [switch_case_iff hb 0 (by norm_num), switch_case_iff hb 1 (by norm_num),
    switch_case_iff hb 2 (by norm_num)]
  omega

/-- Long division of a non-empty dividend by a divisor above 2: canonical quotient
and remainder of the numbers denoted. -/
theorem divideWithRemFast_canonical {dividend divisor : List Int} (ha : IsDigits dividend)
    (hne : dividend ≠ []) (hb : IsDigits divisor) (hgt : 2 < value divisor) :
    ∃ q r, divideWithRemFast dividend divisor = some ⟨q, r⟩ ∧ Canonical q ∧ Canonical r ∧
      value dividend = value divisor * value q + value r ∧
      0 ≤ value r ∧ value r < value divisor := by
  obtain ⟨hn0, hn1, hn2⟩ := switch_none_of_gt hb hgt
  have hlen : 0 < dividend.length := List.length_pos.mpr hne
  obtain ⟨q, r, hloop, hrest⟩ := divideWithRemFastLoop_spec ha hne hb hgt
    (dividend.length + 1) [] dividend [] [] rfl rfl rfl isDigits_nil isDigits_nil
    (by rw [value_nil]; ring) (by rw [value_nil]; omega) (by omega)
  refine ⟨q, r, ?_, hrest⟩
  simp only [divideWithRemFast, if_neg hn0, if_neg hn1, if_neg hn2, appendRight,
    pad_zero_length hlen]
  exact hloop

/-- Long division of the empty dividend by a divisor above 2. -/
theorem divideWithRemFast_nil {divisor : List Int} (hb : IsDigits divisor)
    (hgt : 2 < value divisor) :
    divideWithRemFast [] divisor = some ⟨[0], []⟩ := by
  obtain ⟨hn0, hn1, hn2⟩ := switch_none_of_gt hb hgt
  simp only [divideWithRemFast, if_neg hn0, if_neg hn1, if_neg hn2]
  rfl

/-- Slow division of the empty dividend by a divisor above 2. -/
theorem divideWithRemSlow_nil {divisor : List Int} (hb : IsDigits divisor)
    (hgt : 2 < value divisor) :
    divideWithRemSlow [] divisor = some ⟨[0], []⟩ := by
  obtain ⟨hn0, hn1, hn2⟩ := switch_none_of_gt hb hgt
  have hc : ¬ compare [] divisor ≥ 0 := by
    rw [compare_ge_iff isDigits_nil hb, value_nil]; omega
  simp only [divideWithRemSlow, if_neg hn0, if_neg hn1, if_neg hn2, value_nil]
  simp only [Int.toNat_zero, Nat.zero_add, divideWithRemSlowLoop, if_neg hc]
  rfl

/-- `Unsigned::divideWithRemFast` returns the quotient and remainder of the numbers
denoted, for every nonzero divisor and every dividend for which the halving pass
is defined. -/
theorem divideWithRemFast_spec {dividend divisor : List Int} (ha : IsDigits dividend)
    (hb : IsDigits divisor) (hpos : 0 < value divisor)
    (hne : dividend ≠ [] ∨ value divisor ≠ 2) :
    ∃ q r, divideWithRemFast dividend divisor = some ⟨q, r⟩ ∧ IsDigits q ∧ IsDigits r ∧
      value dividend = value divisor * value q + value r ∧
      0 ≤ value r ∧ value r < value divisor := by
  have hn0 : ¬ (compare divisor gUnsignedTwo ≤ 0 ∧ toInt divisor = 0) := by
    rw [switch_case_iff hb 0 (by norm_num)]; omega
  by_cases h1 : value divisor = 1
  · have hc1 : compare divisor gUnsignedTwo ≤ 0 ∧ toInt divisor = 1 :=
      (switch_case_iff hb 1 (by norm_num)).mpr h1
    refine ⟨dividend, gUnsignedZero, ?_, ha, by decide, ?_, by decide, ?_⟩
    · simp only [divideWithRemFast, if_neg hn0, if_pos hc1, divideByOneWithRem]
    · rw [h1, gUnsignedZero_eq]; simp [value]
    · rw [h1, gUnsignedZero_eq]; decide
  · have hn1 : ¬ (compare divisor gUnsignedTwo ≤ 0 ∧ toInt divisor = 1) := by
      rw [switch_case_iff hb 1 (by norm_num)]; exact h1
    by_cases h2 : value divisor = 2
    · have hc2 : compare divisor gUnsignedTwo ≤ 0 ∧ toInt divisor = 2 :=
        (switch_case_iff hb 2 (by norm_num)).mpr h2
      have hdne : dividend ≠ [] := by
        rcases hne with h | h
        · exact h
        · exact absurd h2 h
      obtain ⟨q, r, heq, hq, hr, hv, h0, hlt⟩ := divideByTwoWithRem_spec ha hdne
      refine ⟨q, r, ?_, hq.1, hr.1, ?_, h0, ?_⟩
      · simp only [divideWithRemFast, if_neg hn0, if_neg hn1, if_pos hc2, heq]
      · rw [h2]; exact hv
      · rw [h2]; exact hlt
    · have hgt : 2 < value divisor := by omega
      by_cases hnil : dividend = []
      · subst hnil
        refine ⟨[0], [], divideWithRemFast_nil hb hgt, by decide, isDigits_nil, ?_, ?_, ?_⟩
        · simp [value]
        · simp [value]
        · simpa [value] using hpos
      · obtain ⟨q, r, heq, hq, hr, hrest⟩ := divideWithRemFast_canonical ha hnil hb hgt
        exact ⟨q, r, heq, hq.1, hr.1, hrest⟩

/-- Quotient and remainder are determined by the division identity. -/
theorem divMod_unique {n D q r q1 r1 : Int} (h : n = D * q + r) (h0 : 0 ≤ r) (hlt : r < D)
    (h1 : n = D * q1 + r1) (h10 : 0 ≤ r1) (h1lt : r1 < D) : q = q1 ∧ r = r1 := by
  have hD : 0 < D := by omega
  have hq : q = q1 := by
    by_contra hne
    rcases lt_or_gt_of_ne hne with hl | hg
    · have : q + 1 ≤ q1 := by omega
      nlinarith
    · have : q1 + 1 ≤ q := by omega
      nlinarith
  subst hq
  exact ⟨rfl, by linarith⟩

/-- The two division algorithms return the same pair of digit sequences. -/
theorem divideWithRemSlow_eq_fast {dividend divisor : List Int} (ha : IsDigits dividend)
    (hb : IsDigits divisor) (hpos : 0 < value divisor)
    (hne : dividend ≠ [] ∨ value divisor ≠ 2) :
    ∃ q r, divideWithRemSlow dividend divisor = some ⟨q, r⟩ ∧
      divideWithRemFast dividend divisor = some ⟨q, r⟩ := by
  have hn0 : ¬ (compare divisor gUnsignedTwo ≤ 0 ∧ toInt divisor = 0) := by
    rw [switch_case_iff hb 0 (by norm_num)]; omega
  by_cases h1 : value divisor = 1
  · have hc1 : compare divisor gUnsignedTwo ≤ 0 ∧ toInt divisor = 1 :=
      (switch_case_iff hb 1 (by norm_num)).mpr h1
    refine ⟨dividend, gUnsignedZero, ?_, ?_⟩
    · simp only [divideWithRemSlow, if_neg hn0, if_pos hc1, divideByOneWithRem]
    · simp only [divideWithRemFast, if_neg hn0, if_pos hc1, divideByOneWithRem]
  · have hn1 : ¬ (compare divisor gUnsignedTwo ≤ 0 ∧ toInt divisor = 1) := by
      rw [switch_case_iff hb 1 (by norm_num)]; exact h1
    by_cases h2 : value divisor = 2
    · have hc2 : compare divisor gUnsignedTwo ≤ 0 ∧ toInt divisor = 2 :=
        (switch_case_iff hb 2 (by norm_num)).mpr h2
      have hdne : dividend ≠ [] := by
        rcases hne with h | h
        · exact h
        · exact absurd h2 h
      obtain ⟨q, r, heq, _⟩ := divideByTwoWithRem_spec ha hdne
      refine ⟨q, r, ?_, ?_⟩
      · simp only [divideWithRemSlow, if_neg hn0, if_neg hn1, if_pos hc2, heq]
      · simp only [divideWithRemFast, if_neg hn0, if_neg hn1, if_pos hc2, heq]
    · have hgt : 2 < value divisor := by omega
      by_cases hnil : dividend = []
      · subst hnil
        exact ⟨[0], [], divideWithRemSlow_nil hb hgt, divideWithRemFast_nil hb hgt⟩
      · obtain ⟨q, r, heq, hq, hr, hv, h0, hlt⟩ := divideWithRemFast_canonical ha hnil hb hgt
        obtain ⟨q1, r1, heq1, hq1, _, hr1, _, hv1, h10, h1lt⟩ :=
          divideWithRemSlow_canonical ha hb hgt
        obtain ⟨e1, e2⟩ := divMod_unique hv h0 hlt hv1 h10 h1lt
        have hqq : q1 = q := canonical_unique hq1 hq e1.symm
        have hrr : r1 = r := canonical_unique (hr1 hnil) hr e2.symm
        exact ⟨q, r, by rw [heq1, hqq, hrr], heq⟩

end Unsigned

/-! ## Multiplication of magnitudes -/

namespace Unsigned

theorem scaleLoop_spec {bDigit : Int} (hb : 0 ≤ bDigit ∧ bDigit ≤ 9) :
    ∀ a : List Int, IsDigits a →
      0 ≤ (scaleLoop bDigit a).1 ∧ (scaleLoop bDigit a).1 ≤ 8 ∧ IsDigits (scaleLoop bDigit a).2 ∧
      (scaleLoop bDigit a).2.length = a.length ∧
      (scaleLoop bDigit a).1 * 10 ^ a.length + value (scaleLoop bDigit a).2 = bDigit * value a := by
  intro a
  induction a with
  | nil => intro _; simp [scaleLoop, value, isDigits_nil]
  | cons x xs ih =>
    intro h
    have hx := isDigits_cons.mp h
    obtain ⟨hc0, hc8, hds, hlen, hv⟩ := ih hx.2
    have hprod0 : 0 ≤ bDigit * x := mul_nonneg hb.1 hx.1.1
    have hprod81 : bDigit * x ≤ 81 := by nlinarith [hb.1, hb.2, hx.1.1, hx.1.2]
    have hd0 : 0 ≤ bDigit * x + (scaleLoop bDigit xs).1 := by omega
    simp only [scaleLoop, Int.tdiv_eq_ediv hd0 (by norm_num : (0 : Int) ≤ 10),
      Int.tmod_eq_emod hd0 (by norm_num : (0 : Int) ≤ 10)]
    refine ⟨by omega, by omega, ?_, by simp [hlen], ?_⟩
    · apply isDigits_cons.mpr
      exact ⟨by omega, hds⟩
    · rw [value_cons, value_cons, hlen, List.length_cons, pow_succ]
      have e : bDigit * x + (scaleLoop bDigit xs).1 =
          10 * ((bDigit * x + (scaleLoop bDigit xs).1) / 10) +
            (bDigit * x + (scaleLoop bDigit xs).1) % 10 := by omega
      have hv' : value (scaleLoop bDigit xs).2 =
          bDigit * value xs - (scaleLoop bDigit xs).1 * 10 ^ xs.length := by linarith
      rw [hv']
      linear_combination (-(10 : Int) ^ xs.length) * e

theorem carryLoop_spec {c : Int} (h0 : 0 ≤ c) (h8 : c ≤ 8) :
    IsDigits (carryLoop c.toNat c) ∧ value (carryLoop c.toNat c) = c := by
  interval_cases c <;> decide

/-- The partial product of round `i` denotes `bDigit * a * 10 ^ i`. -/
theorem partProduct_spec {a : List Int} (ha : IsDigits a) {bDigit : Int}
    (hb : 0 ≤ bDigit ∧ bDigit ≤ 9) (len i : Nat) :
    IsDigits (partProduct a bDigit len i) ∧
      value (partProduct a bDigit len i) = bDigit * value a * 10 ^ i := by
  obtain ⟨hc0, hc8, hds, hlen, hv⟩ := scaleLoop_spec hb a ha
  obtain ⟨hcd, hcv⟩ := carryLoop_spec hc0 hc8
  have hw : IsDigits (carryLoop (scaleLoop bDigit a).1.toNat (scaleLoop bDigit a).1 ++
      (scaleLoop bDigit a).2) := isDigits_append.mpr ⟨hcd, hds⟩
  simp only [partProduct]
  refine ⟨isDigits_append.mpr ⟨isDigits_append.mpr ⟨isDigits_replicate_zero _, hw⟩,
    isDigits_replicate_zero _⟩, ?_⟩
  rw [value_append, value_replicate_zero_append, value_replicate_zero, List.length_replicate,
    value_append, hcv, hlen, hv]
  ring

theorem multiplyLoop_spec {a : List Int} (ha : IsDigits a) (len : Nat) :
    ∀ (bRev : List Int) (i : Nat) (sum : List Int), IsDigits bRev → IsDigits sum → sum ≠ [] →
      Canonical (trim (multiplyLoop a len bRev i sum)) ∧
      value (multiplyLoop a len bRev i sum) =
        value sum + value a * value bRev.reverse * 10 ^ i := by
  intro bRev
  induction bRev with
  | nil =>
    intro i sum _ hs hne
    exact ⟨trim_canonical hs hne, by simp [multiplyLoop, value]⟩
  | cons bDigit rest ih =>
    intro i sum hb hs hne
    have hbd := isDigits_cons.mp hb
    obtain ⟨hpd, hpv⟩ := partProduct_spec ha hbd.1 len i
    obtain ⟨had, hav, hac⟩ := addMutable_spec hs hpd
    obtain ⟨hcan, hval⟩ := ih (i + 1) (addMutable sum (partProduct a bDigit len i)) hbd.2 had
      (hac (Or.inl hne)).2.1
    refine ⟨hcan, ?_⟩
    simp only [multiplyLoop]
    rw [hval, hav, hpv, List.reverse_cons, value_append_singleton, pow_succ]
    ring

/-- `Unsigned::multiply` returns the canonical digits of the product. -/
theorem multiply_spec {a b : List Int} (ha : IsDigits a) (hb : IsDigits b) :
    Canonical (multiply a b) ∧ value (multiply a b) = value a * value b := by
  have hbr : IsDigits b.reverse := by
    intro d hd
    exact hb d (List.mem_reverse.mp hd)
  obtain ⟨hcan, hval⟩ := multiplyLoop_spec ha (a.length + b.length) b.reverse 0 gUnsignedZero hbr
    (by decide) (by decide)
  refine ⟨hcan, ?_⟩
  simp only [multiply]
  rw [trim_value, hval, List.reverse_reverse]
  have : value gUnsignedZero = 0 := by decide
  rw [this]
  ring

end Unsigned

/-! ## Parsing and printing -/

namespace Unsigned

theorem isDigit_iff (c : Char) : c.isDigit = true ↔ 48 ≤ c.toNat ∧ c.toNat ≤ 57 := by
  simp only [Char.isDigit, Bool.and_eq_true, decide_eq_true_eq, Char.toNat, UInt32.le_def,
    Fin.le_def]
  rfl

theorem charToInt_digit {c : Char} (h : c.isDigit = true) :
    0 ≤ charToInt c ∧ charToInt c ≤ 9 := by
  have := (isDigit_iff c).mp h
  unfold charToInt
  omega

theorem intToChar_charToInt {c : Char} (h : c.isDigit = true) : intToChar (charToInt c) = c := by
  have hc := (isDigit_iff c).mp h
  have h0 : ¬ charToInt c < 0 := by have := charToInt_digit h; omega
  simp only [intToChar, if_neg h0]
  have : (charToInt c).toNat + 48 = c.toNat := by unfold charToInt; omega
  rw [this, Char.ofNat_toNat]

theorem charToInt_intToChar {d : Int} (h0 : 0 ≤ d) (h9 : d ≤ 9) :
    charToInt (intToChar d) = d ∧ (intToChar d).isDigit = true ∧ intToChar d ≠ '.' := by
  interval_cases d <;> decide

theorem ne_dot_of_isDigit {c : Char} (h : c.isDigit = true) : c ≠ '.' := by
  intro hc
  subst hc
  exact absurd h (by decide)

/-- On a string of digits the character loop of `saveNumber` appends their values. -/
theorem saveNumberLoop_digits (cs : List Char) (h : ∀ c ∈ cs, c.isDigit = true) (acc : List Int) :
    saveNumberLoop cs acc = some (acc ++ cs.map charToInt) := by
  induction cs generalizing acc with
  | nil => simp [saveNumberLoop]
  | cons c cs ih =>
    have hc : c.isDigit = true := h c (List.mem_cons_self _ _)
    simp only [saveNumberLoop, if_neg (ne_dot_of_isDigit hc), hc, Bool.not_true,
      Bool.false_eq_true, if_false]
    rw [ih (fun c' hc' => h c' (List.mem_cons_of_mem _ hc'))]
    simp

/-- A character that is not a digit anywhere in the string makes the loop bail out. -/
theorem saveNumberLoop_bad (cs : List Char) (h : ∃ c ∈ cs, c.isDigit = false) (acc : List Int) :
    saveNumberLoop cs acc = none := by
  induction cs generalizing acc with
  | nil => simp at h
  | cons c cs ih =>
    simp only [saveNumberLoop]
    by_cases hdot : c = '.'
    · rw [if_pos hdot]
    · rw [if_neg hdot]
      by_cases hc : c.isDigit = true
      · simp only [hc, Bool.not_true, Bool.false_eq_true, if_false]
        apply ih
        obtain ⟨x, hx, hxd⟩ := h
        rcases List.mem_cons.mp hx with rfl | hx'
        · rw [hc] at hxd; exact absurd hxd (by decide)
        · exact ⟨x, hx', hxd⟩
      · simp [hc]

theorem isDigits_map_charToInt (cs : List Char) (h : ∀ c ∈ cs, c.isDigit = true) :
    IsDigits (cs.map charToInt) := by
  intro d hd
  obtain ⟨c, hc, rfl⟩ := List.mem_map.mp hd
  exact charToInt_digit (h c hc)

theorem toString_map_charToInt (cs : List Char) (h : ∀ c ∈ cs, c.isDigit = true) :
    toString (cs.map charToInt) = cs := by
  induction cs with
  | nil => rfl
  | cons c cs ih =>
    simp only [toString, List.map_cons, List.map_map] at ih ⊢
    rw [intToChar_charToInt (h c (List.mem_cons_self _ _)),
      ih (fun c' hc' => h c' (List.mem_cons_of_mem _ hc'))]

theorem map_charToInt_toString {ds : List Int} (h : IsDigits ds) :
    (toString ds).map charToInt = ds := by
  induction ds with
  | nil => rfl
  | cons d ds ih =>
    have hd := isDigits_cons.mp h
    simp only [toString, List.map_cons, List.map_map] at ih ⊢
    rw [(charToInt_intToChar hd.1.1 hd.1.2).1, ih hd.2]

theorem isDigit_toString {ds : List Int} (h : IsDigits ds) :
    ∀ c ∈ toString ds, c.isDigit = true := by
  intro c hc
  obtain ⟨d, hd, rfl⟩ := List.mem_map.mp hc
  exact (charToInt_intToChar (h d hd).1 (h d hd).2).2.1

/-- Parsing the printed form of a canonical magnitude gives it back. -/
theorem saveNumber_toString {ds : List Int} (h : Canonical ds) :
    saveNumber (toString ds) = ds := by
  simp only [saveNumber, saveNumberFrom, saveNumberLoop_digits _ (isDigit_toString h.1),
    List.nil_append, map_charToInt_toString h.1]
  exact trim_eq_self_of_canonical h

end Unsigned

theorem digitChar_eq_intToChar {n : Nat} (h : n < 10) :
    Nat.digitChar n = Unsigned.intToChar (n : Int) := by
  interval_cases n <;> decide

/-- The digit loop of `snprintf` prints the canonical digits of its argument. -/
theorem snprintfDigits_spec :
    ∀ (fuel n : Nat) (acc : List Char), n < fuel →
      ∃ ds : List Int, snprintfDigits fuel n acc = Unsigned.toString ds ++ acc ∧
        Unsigned.Canonical ds ∧ Unsigned.value ds = n := by
  intro fuel
  induction fuel with
  | zero => intro n _ h; omega
  | succ fuel ih =>
    intro n acc hlt
    simp only [snprintfDigits]
    by_cases h10 : n < 10
    · rw [if_pos h10]
      refine ⟨[(n : Int)], ?_, ?_, Unsigned.value_singleton _⟩
      · simp [Unsigned.toString, digitChar_eq_intToChar h10]
      · refine ⟨Unsigned.isDigits_singleton.mpr ⟨by omega, by omega⟩, by simp, ?_⟩
        intro h0
        simp at h0
        simp [h0]
    · rw [if_neg h10]
      obtain ⟨ds, heq, hcan, hval⟩ := ih (n / 10) (Nat.digitChar (n % 10) :: acc) (by omega)
      refine ⟨ds ++ [((n % 10 : Nat) : Int)], ?_, ?_, ?_⟩
      · rw [heq, digitChar_eq_intToChar (Nat.mod_lt _ (by norm_num))]
        simp [Unsigned.toString]
      · refine ⟨Unsigned.isDigits_append.mpr ⟨hcan.1,
          Unsigned.isDigits_singleton.mpr ⟨by omega, by omega⟩⟩, by simp, ?_⟩
        intro h0
        exfalso
        obtain ⟨_, hne, hhead⟩ := hcan
        cases ds with
        | nil => exact hne rfl
        | cons d rest =>
          simp only [List.cons_append, List.head?_cons, Option.some.injEq] at h0
          have := hhead (by simp [h0])
          rw [this] at hval
          simp only [Unsigned.value_singleton] at hval
          omega
      · rw [Unsigned.value_append_singleton, hval]
        omega

namespace ArbNum

/-- What the integer constructors build: a `Normal` value with the sign of `n` and
the canonical digits of its absolute value. -/
theorem ofInt_spec (n : Int) :
    ∃ ds : List Int, ofInt n = ⟨SpecialType.SPEC_NORMAL, if n < 0 then -1 else 1, ds⟩ ∧
      Unsigned.Canonical ds ∧ Unsigned.value ds = |n| := by
  obtain ⟨ds, heq, hcan, hval⟩ := snprintfDigits_spec (n.natAbs + 1) n.natAbs [] (by omega)
  refine ⟨ds, ?_, hcan, by rw [hval]; exact Int.natCast_natAbs n⟩
  rw [List.append_nil] at heq
  by_cases hn : n < 0
  · simp only [ofInt, snprintf, if_pos hn, heq, saveNumber, Unsigned.saveNumber_toString hcan]
    rfl
  · simp only [ofInt, snprintf, if_neg hn, heq]
    cases ds with
    | nil => exact absurd rfl hcan.2.1
    | cons d rest =>
      have hdd := Unsigned.isDigits_cons.mp hcan.1
      have hc := Unsigned.intToChar_digit hdd.1.1 hdd.1.2
      have key := Unsigned.saveNumber_toString hcan
      simp only [Unsigned.toString, List.map_cons] at key ⊢
      unfold saveNumber
      split
      · rename_i heq2
        simp only [List.cons.injEq] at heq2
        exact absurd heq2.1 hc.2.2.1
      · rw [key]
        rfl

end ArbNum

/-! ## Signed addition, subtraction, multiplication and comparison -/

namespace Unsigned

theorem isZero_iff {ds : List Int} (h : IsDigits ds) : isZero ds = true ↔ value ds = 0 := by
  induction ds with
  | nil => simp [isZero, value]
  | cons d ds ih =>
    have hd := isDigits_cons.mp h
    have h1 := value_nonneg hd.2
    have h3 : (0 : Int) < 10 ^ ds.length := by positivity
    have ih' := ih hd.2
    simp only [isZero, List.all_cons, Bool.and_eq_true, beq_iff_eq] at ih' ⊢
    rw [ih', value_cons]
    constructor
    · rintro ⟨rfl, h0⟩
      simp [h0]
    · intro h0
      have hd0 : d = 0 := by
        by_contra hne
        have : (1 : Int) ≤ d := by omega
        nlinarith
      subst hd0
      simpa using h0

end Unsigned

namespace ArbNum

theorem toZ_mk (sp : SpecialType) (s : Int) (u : List Int) :
    toZ ⟨sp, s, u⟩ = s * Unsigned.value u := rfl

/-- `ArbNum::subtract` on two operands of positive sign. -/
theorem subtract_pos {a b : ArbNum} (ha : a.mSign = 1) (hb : b.mSign = 1) :
    subtract a b =
      if Unsigned.compare a.mUnsigned b.mUnsigned < 0 then
        ⟨SpecialType.SPEC_NORMAL, -1, Unsigned.subtract b.mUnsigned a.mUnsigned⟩
      else ⟨SpecialType.SPEC_NORMAL, 1, Unsigned.subtract a.mUnsigned b.mUnsigned⟩ := by
  rw [subtract]
  simp only [isPositiveOrZero, ha, hb]
  rfl

theorem subtract_pos_spec {a b : ArbNum} (ha : a.mSign = 1) (hb : b.mSign = 1)
    (hca : Unsigned.Canonical a.mUnsigned) (hcb : Unsigned.Canonical b.mUnsigned) :
    WellFormed (subtract a b) ∧
      toZ (subtract a b) = Unsigned.value a.mUnsigned - Unsigned.value b.mUnsigned ∧
      ((subtract a b).mSign = -1 ↔ Unsigned.value a.mUnsigned < Unsigned.value b.mUnsigned) := by
  rw [subtract_pos ha hb]
  by_cases hlt : Unsigned.compare a.mUnsigned b.mUnsigned < 0
  · rw [if_pos hlt]
    have hv := (Unsigned.compare_lt_iff hca.1 hcb.1).mp hlt
    obtain ⟨_, hval, hcan⟩ := Unsigned.subtractMutable_spec hcb.1 hca.1 (le_of_lt hv)
    refine ⟨⟨rfl, Or.inr rfl, hcan (Or.inl hcb.2.1)⟩, ?_, ?_⟩
    · rw [toZ_mk]
      show -1 * Unsigned.value (Unsigned.subtractMutable _ _) = _
      rw [hval]; ring
    · simp [hv]
  · rw [if_neg hlt]
    have hv : ¬ Unsigned.value a.mUnsigned < Unsigned.value b.mUnsigned :=
      fun h => hlt ((Unsigned.compare_lt_iff hca.1 hcb.1).mpr h)
    obtain ⟨_, hval, hcan⟩ := Unsigned.subtractMutable_spec hca.1 hcb.1 (not_lt.mp hv)
    refine ⟨⟨rfl, Or.inl rfl, hcan (Or.inl hca.2.1)⟩, ?_, ?_⟩
    · rw [toZ_mk]
      show 1 * Unsigned.value (Unsigned.subtractMutable _ _) = _
      rw [hval]; ring
    · simp [hv]

theorem add_magnitudes {a b : List Int} (ha : Unsigned.Canonical a) (hb : Unsigned.Canonical b) :
    Unsigned.Canonical (Unsigned.add a b) ∧
      Unsigned.value (Unsigned.add a b) = Unsigned.value a + Unsigned.value b := by
  obtain ⟨_, hval, hcan⟩ := Unsigned.addMutable_spec ha.1 hb.1
  exact ⟨hcan (Or.inl ha.2.1), hval⟩

/-- `ArbNum::subtract` computes the difference of the numbers denoted; the result
is negative in sign exactly when the difference is negative or a negative-signed
operand had a positive-signed one taken from it. -/
theorem subtract_spec {a b : ArbNum} (ha : WellFormed a) (hb : WellFormed b) :
    WellFormed (subtract a b) ∧ toZ (subtract a b) = toZ a - toZ b ∧
      ((subtract a b).mSign = -1 ↔ (toZ a - toZ b < 0 ∨ (a.mSign = -1 ∧ b.mSign = 1))) := by
  obtain ⟨_, hsa, hca⟩ := ha
  obtain ⟨_, hsb, hcb⟩ := hb
  have hva := Unsigned.value_nonneg hca.1
  have hvb := Unsigned.value_nonneg hcb.1
  obtain ⟨hsum, hsumv⟩ := add_magnitudes hca hcb
  rcases hsa with hsa | hsa <;> rcases hsb with hsb | hsb
  · obtain ⟨hw, hz, hs⟩ := subtract_pos_spec hsa hsb hca hcb
    refine ⟨hw, ?_, ?_⟩
    · rw [hz, toZ, toZ, hsa, hsb]; ring
    · rw [hs, toZ, toZ, hsa, hsb]
      constructor
      · intro h; left; linarith
      · rintro (h | ⟨h, _⟩)
        · linarith
        · omega
  · rw [subtract]
    simp only [isPositiveOrZero, isNegativeOrZero, hsa, hsb]
    refine ⟨⟨rfl, Or.inl rfl, hsum⟩, ?_, ?_⟩
    · show 1 * Unsigned.value (Unsigned.add _ _) = _
      rw [hsumv, toZ, toZ, hsa, hsb]; ring
    · show (1 : Int) = -1 ↔ _
      rw [toZ, toZ, hsa, hsb]
      constructor
      · intro h; omega
      · rintro (h | ⟨h, _⟩)
        · linarith
        · omega
  · rw [subtract]
    simp only [isPositiveOrZero, isNegativeOrZero, hsa, hsb]
    refine ⟨⟨rfl, Or.inr rfl, hsum⟩, ?_, ?_⟩
    · show -1 * Unsigned.value (Unsigned.add _ _) = _
      rw [hsumv, toZ, toZ, hsa, hsb]; ring
    · show (-1 : Int) = -1 ↔ _
      simp
  · rw [subtract]
    simp only [isPositiveOrZero, isNegativeOrZero, hsa, hsb]
    obtain ⟨hw, hz, hs⟩ := subtract_pos_spec (a := b.mkPositive) (b := a.mkPositive) rfl rfl hcb hca
    refine ⟨hw, ?_, ?_⟩
    · show toZ (b.mkPositive.subtract a.mkPositive) = _
      rw [hz, toZ, toZ, hsa, hsb]
      show Unsigned.value b.mUnsigned - Unsigned.value a.mUnsigned = _
      ring
    · show (b.mkPositive.subtract a.mkPositive).mSign = -1 ↔ _
      rw [hs, toZ, toZ, hsa, hsb]
      show Unsigned.value b.mUnsigned < Unsigned.value a.mUnsigned ↔ _
      constructor
      · intro h; left; linarith
      · rintro (h | ⟨_, h⟩)
        · linarith
        · omega

/-- `ArbNum::add` computes the sum of the numbers denoted; the result is negative
in sign exactly when the sum is negative or both operands are negative in sign. -/
theorem add_spec {a b : ArbNum} (ha : WellFormed a) (hb : WellFormed b) :
    WellFormed (add a b) ∧ toZ (add a b) = toZ a + toZ b ∧
      ((add a b).mSign = -1 ↔ (toZ a + toZ b < 0 ∨ (a.mSign = -1 ∧ b.mSign = -1))) := by
  obtain ⟨_, hsa, hca⟩ := ha
  obtain ⟨_, hsb, hcb⟩ := hb
  have hva := Unsigned.value_nonneg hca.1
  have hvb := Unsigned.value_nonneg hcb.1
  obtain ⟨hsum, hsumv⟩ := add_magnitudes hca hcb
  rcases hsa with hsa | hsa <;> rcases hsb with hsb | hsb
  · simp only [add, isPositiveOrZero, isNegativeOrZero, hsa, hsb]
    refine ⟨⟨rfl, Or.inl rfl, hsum⟩, ?_, ?_⟩
    · show 1 * Unsigned.value (Unsigned.add _ _) = _
      rw [hsumv, toZ, toZ, hsa, hsb]; ring
    · show (1 : Int) = -1 ↔ _
      rw [toZ, toZ, hsa, hsb]
      constructor
      · intro h; omega
      · rintro (h | ⟨h, _⟩)
        · linarith
        · omega
  · simp only [add, isPositiveOrZero, isNegativeOrZero, hsa, hsb]
    obtain ⟨hw, hz, hs⟩ := subtract_pos_spec (a := a) (b := b.mkPositive) hsa rfl hca hcb
    refine ⟨hw, ?_, ?_⟩
    · show toZ (a.subtract b.mkPositive) = _
      rw [hz, toZ, toZ, hsa, hsb]
      show Unsigned.value a.mUnsigned - Unsigned.value b.mUnsigned = _
      ring
    · show (a.subtract b.mkPositive).mSign = -1 ↔ _
      rw [hs, toZ, toZ, hsa, hsb]
      show Unsigned.value a.mUnsigned < Unsigned.value b.mUnsigned ↔ _
      constructor
      · intro h; left; linarith
      · rintro (h | ⟨h, _⟩)
        · linarith
        · omega
  · simp only [add, isPositiveOrZero, isNegativeOrZero, hsa, hsb]
    obtain ⟨hw, hz, hs⟩ := subtract_pos_spec (a := b) (b := a.mkPositive) hsb rfl hcb hca
    refine ⟨hw, ?_, ?_⟩
    · show toZ (b.subtract a.mkPositive) = _
      rw [hz, toZ, toZ, hsa, hsb]
      show Unsigned.value b.mUnsigned - Unsigned.value a.mUnsigned = _
      ring
    · show (b.subtract a.mkPositive).mSign = -1 ↔ _
      rw [hs, toZ, toZ, hsa, hsb]
      show Unsigned.value b.mUnsigned < Unsigned.value a.mUnsigned ↔ _
      constructor
      · intro h; left; linarith
      · rintro (h | ⟨_, h⟩)
        · linarith
        · omega
  · simp only [add, isPositiveOrZero, isNegativeOrZero, hsa, hsb]
    refine ⟨⟨rfl, Or.inr rfl, hsum⟩, ?_, ?_⟩
    · show -1 * Unsigned.value (Unsigned.add _ _) = _
      rw [hsumv, toZ, toZ, hsa, hsb]; ring
    · show (-1 : Int) = -1 ↔ _
      simp [hsa, hsb]

/-- `ArbNum::multiply` computes the product of the numbers denoted, with the
product of the signs as sign. -/
theorem multiply_signed_spec {a b : ArbNum} (ha : WellFormed a) (hb : WellFormed b) :
    WellFormed (multiply a b) ∧ toZ (multiply a b) = toZ a * toZ b ∧
      (multiply a b).mSign = a.mSign * b.mSign := by
  obtain ⟨_, hsa, hca⟩ := ha
  obtain ⟨_, hsb, hcb⟩ := hb
  obtain ⟨hcan, hval⟩ := Unsigned.multiply_spec hca.1 hcb.1
  refine ⟨⟨rfl, ?_, hcan⟩, ?_, rfl⟩
  · show a.mSign * b.mSign = 1 ∨ a.mSign * b.mSign = -1
    rcases hsa with hsa | hsa <;> rcases hsb with hsb | hsb <;> rw [hsa, hsb] <;> decide
  · show a.mSign * b.mSign * Unsigned.value (Unsigned.multiply _ _) = _
    rw [hval, toZ, toZ]; ring

/-- `ArbNum::compare` returns 0 exactly for equal sign fields and equal
magnitudes. -/
theorem compare_signed_eq_zero_iff {a b : ArbNum} (ha : WellFormed a) (hb : WellFormed b) :
    compare a b = 0 ↔ a.mSign = b.mSign ∧
      Unsigned.value a.mUnsigned = Unsigned.value b.mUnsigned := by
  obtain ⟨_, hsa, hca⟩ := ha
  obtain ⟨_, hsb, hcb⟩ := hb
  unfold compare
  by_cases h1 : a.mSign < b.mSign
  · rw [if_pos h1]
    constructor
    · intro h; exact absurd h (by decide)
    · rintro ⟨h, _⟩; omega
  · rw [if_neg h1]
    by_cases h2 : a.mSign > b.mSign
    · rw [if_pos h2]
      constructor
      · intro h; exact absurd h (by decide)
      · rintro ⟨h, _⟩; omega
    · rw [if_neg h2]
      have hs : a.mSign = b.mSign := by omega
      split
      · rw [Unsigned.compare_eq_zero_iff hcb.1 hca.1]
        constructor
        · intro h; exact ⟨hs, h.symm⟩
        · rintro ⟨_, h⟩; exact h.symm
      · rw [Unsigned.compare_eq_zero_iff hca.1 hcb.1]
        constructor
        · intro h; exact ⟨hs, h⟩
        · rintro ⟨_, h⟩; exact h

end ArbNum

/-! ## Signed division -/

namespace Unsigned

/-- Long division of a canonical dividend by any nonzero divisor returns a
canonical quotient and remainder. -/
theorem divideWithRemFast_of_canonical {dividend divisor : List Int} (ha : Canonical dividend)
    (hb : IsDigits divisor) (hpos : 0 < value divisor) :
    ∃ q r, divideWithRemFast dividend divisor = some ⟨q, r⟩ ∧ Canonical q ∧ Canonical r ∧
      value dividend = value divisor * value q + value r ∧
      0 ≤ value r ∧ value r < value divisor := by
  have hn0 : ¬ (compare divisor gUnsignedTwo ≤ 0 ∧ toInt divisor = 0) := by
    rw [switch_case_iff hb 0 (by norm_num)]; omega
  by_cases h1 : value divisor = 1
  · have hc1 : compare divisor gUnsignedTwo ≤ 0 ∧ toInt divisor = 1 :=
      (switch_case_iff hb 1 (by norm_num)).mpr h1
    refine ⟨dividend, gUnsignedZero, ?_, ha, by decide, ?_, by decide, ?_⟩
    · simp only [divideWithRemFast, if_neg hn0, if_pos hc1, divideByOneWithRem]
    · rw [h1, gUnsignedZero_eq]; simp [value]
    · rw [h1, gUnsignedZero_eq]; decide
  · have hn1 : ¬ (compare divisor gUnsignedTwo ≤ 0 ∧ toInt divisor = 1) := by
      rw [switch_case_iff hb 1 (by norm_num)]; exact h1
    by_cases h2 : value divisor = 2
    · have hc2 : compare divisor gUnsignedTwo ≤ 0 ∧ toInt divisor = 2 :=
        (switch_case_iff hb 2 (by norm_num)).mpr h2
      obtain ⟨q, r, heq, hq, hr, hv, h0, hlt⟩ := divideByTwoWithRem_spec ha.1 ha.2.1
      refine ⟨q, r, ?_, hq, hr, ?_, h0, ?_⟩
      · simp only [divideWithRemFast, if_neg hn0, if_neg hn1, if_pos hc2, heq]
      · rw [h2]; exact hv
      · rw [h2]; exact hlt
    · exact divideWithRemFast_canonical ha.1 ha.2.1 hb (by omega)

end Unsigned

theorem Int.neg_tmod_eq (a b : Int) : (-a).tmod b = -(a.tmod b) := by
  rw [Int.tmod_def, Int.tmod_def, Int.neg_tdiv]
  ring

/-- Truncating division of signed numbers from the division of their absolute
values. -/
theorem tdiv_tmod_of_abs {A B q r sa sb : Int} (hA : 0 ≤ A) (hid : A = B * q + r)
    (h0 : 0 ≤ r) (hlt : r < B) (hsa : sa = 1 ∨ sa = -1) (hsb : sb = 1 ∨ sb = -1) :
    (sa * A).tdiv (sb * B) = sa * sb * q ∧ (sa * A).tmod (sb * B) = sa * r := by
  have hB : 0 < B := by omega
  have hqr : A / B = q ∧ A % B = r :=
    (Int.ediv_emod_unique hB).mpr ⟨by linarith, h0, hlt⟩
  have hd : A.tdiv B = q := by rw [Int.tdiv_eq_ediv hA (le_of_lt hB)]; exact hqr.1
  have hm : A.tmod B = r := by rw [Int.tmod_eq_emod hA (le_of_lt hB)]; exact hqr.2
  rcases hsa with rfl | rfl <;> rcases hsb with rfl | rfl
  · simp [hd, hm]
  · simp [hd, hm]
  · simp [hd, hm, Int.neg_tmod_eq]
  · simp [hd, hm, Int.neg_tmod_eq]

namespace ArbNum

theorem newDivide_eq :
    newDivide = ⟨⟨SpecialType.SPEC_NORMAL, 1, [0]⟩, ⟨SpecialType.SPEC_NORMAL, 1, [0]⟩⟩ := by
  decide

theorem isZero_eq_false {a : ArbNum} (h : Unsigned.IsDigits a.mUnsigned)
    (hv : Unsigned.value a.mUnsigned ≠ 0) : a.isZero = false := by
  have := (Unsigned.isZero_iff h).not.mpr hv
  simpa [isZero] using this

/-- `ArbNum::divideWithRem` when neither operand is negative: the magnitudes go
through `Unsigned::divideWithRemFast`. -/
theorem divideWithRem_core {a b : ArbNum} (hca : Unsigned.Canonical a.mUnsigned)
    (hcb : Unsigned.Canonical b.mUnsigned) (hb0 : Unsigned.value b.mUnsigned ≠ 0)
    (hna : a.isNegative = false) (hnb : b.isNegative = false) :
    ∃ uq ur, divideWithRem a b =
        some ⟨⟨SpecialType.SPEC_NORMAL, 1, uq⟩, ⟨SpecialType.SPEC_NORMAL, 1, ur⟩⟩ ∧
      Unsigned.Canonical uq ∧ Unsigned.Canonical ur ∧
      Unsigned.value a.mUnsigned = Unsigned.value b.mUnsigned * Unsigned.value uq +
        Unsigned.value ur ∧
      0 ≤ Unsigned.value ur ∧ Unsigned.value ur < Unsigned.value b.mUnsigned := by
  have hpos : 0 < Unsigned.value b.mUnsigned := by
    have := Unsigned.value_nonneg hcb.1; omega
  obtain ⟨uq, ur, heq, hrest⟩ := Unsigned.divideWithRemFast_of_canonical hca hcb.1 hpos
  refine ⟨uq, ur, ?_, hrest⟩
  rw [divideWithRem]
  simp only [isZero_eq_false hcb.1 hb0, hna, hnb, heq, newDivide_eq]
  rfl

theorem isNegative_mkPositive (a : ArbNum) : a.mkPositive.isNegative = false := by
  simp [isNegative, mkPositive]

/-- `ArbNum::divideWithRem` with a negative dividend and a divisor that is not
negative. -/
theorem divideWithRem_negDividend {a b : ArbNum} (hca : Unsigned.Canonical a.mUnsigned)
    (hcb : Unsigned.Canonical b.mUnsigned) (hb0 : Unsigned.value b.mUnsigned ≠ 0)
    (hna : a.isNegative = true) (hnb : b.isNegative = false) :
    ∃ uq ur, divideWithRem a b =
        some ⟨⟨SpecialType.SPEC_NORMAL, -1, uq⟩,
          ⟨SpecialType.SPEC_NORMAL, if Unsigned.value ur = 0 then 1 else -1, ur⟩⟩ ∧
      Unsigned.Canonical uq ∧ Unsigned.Canonical ur ∧
      Unsigned.value a.mUnsigned = Unsigned.value b.mUnsigned * Unsigned.value uq +
        Unsigned.value ur ∧
      0 ≤ Unsigned.value ur ∧ Unsigned.value ur < Unsigned.value b.mUnsigned := by
  obtain ⟨uq, ur, heq, hq, hr, hrest⟩ :=
    divideWithRem_core (a := a.mkPositive) (b := b) hca hcb hb0 (isNegative_mkPositive a) hnb
  refine ⟨uq, ur, ?_, hq, hr, hrest⟩
  rw [divideWithRem]
  simp only [isZero_eq_false hcb.1 hb0, hna, hnb, heq]
  by_cases hz : Unsigned.value ur = 0
  · have : isZero ⟨SpecialType.SPEC_NORMAL, 1, ur⟩ = true := (Unsigned.isZero_iff hr.1).mpr hz
    simp only [this, hz, if_true]
    rfl
  · have : isZero ⟨SpecialType.SPEC_NORMAL, 1, ur⟩ = false := isZero_eq_false hr.1 hz
    simp only [this, hz, if_false]
    rfl

/-- The contract of `ArbNum::divideWithRem` on well-formed operands with a nonzero
divisor: magnitudes divide as numbers, the quotient is negative in sign when
exactly one operand is negative, and the remainder is negative in sign when the
dividend is negative and the remainder is not zero. -/
theorem divideWithRem_signs {a b : ArbNum} (ha : WellFormed a) (hb : WellFormed b)
    (hb0 : Unsigned.value b.mUnsigned ≠ 0) :
    ∃ uq ur, divideWithRem a b =
        some ⟨⟨SpecialType.SPEC_NORMAL,
            (if a.isNegative then -1 else 1) * (if b.isNegative then -1 else 1), uq⟩,
          ⟨SpecialType.SPEC_NORMAL,
            if a.isNegative = true ∧ Unsigned.value ur ≠ 0 then -1 else 1, ur⟩⟩ ∧
      Unsigned.Canonical uq ∧ Unsigned.Canonical ur ∧
      Unsigned.value a.mUnsigned = Unsigned.value b.mUnsigned * Unsigned.value uq +
        Unsigned.value ur ∧
      0 ≤ Unsigned.value ur ∧ Unsigned.value ur < Unsigned.value b.mUnsigned := by
  obtain ⟨_, _, hca⟩ := ha
  obtain ⟨_, _, hcb⟩ := hb
  by_cases hnb : b.isNegative = true
  · -- negative divisor: recurse on its absolute value, then flip the quotient
    by_cases hna : a.isNegative = true
    · obtain ⟨uq, ur, heq, hrest⟩ := divideWithRem_negDividend (a := a) (b := b.mkPositive)
        hca hcb hb0 hna (isNegative_mkPositive b)
      refine ⟨uq, ur, ?_, hrest⟩
      rw [divideWithRem]
      simp only [isZero_eq_false hcb.1 hb0, hnb, hna, heq, if_true, Bool.false_eq_true, if_false]
      by_cases hz : Unsigned.value ur = 0
      · simp only [hz, if_true, ne_eq, not_true_eq_false, and_false, if_false]; rfl
      · simp only [hz, if_false, ne_eq, not_false_eq_true, and_self, if_true]; rfl
    · have hna' : a.isNegative = false := by simpa using hna
      obtain ⟨uq, ur, heq, hrest⟩ := divideWithRem_core (a := a) (b := b.mkPositive)
        hca hcb hb0 hna' (isNegative_mkPositive b)
      refine ⟨uq, ur, ?_, hrest⟩
      rw [divideWithRem]
      simp only [isZero_eq_false hcb.1 hb0, hnb, hna', heq, if_true, Bool.false_eq_true,
        if_false, false_and]
      rfl
  · have hnb' : b.isNegative = false := by simpa using hnb
    by_cases hna : a.isNegative = true
    · obtain ⟨uq, ur, heq, hrest⟩ := divideWithRem_negDividend hca hcb hb0 hna hnb'
      refine ⟨uq, ur, ?_, hrest⟩
      rw [heq]
      simp only [hna, hnb', if_true, Bool.false_eq_true, if_false, true_and]
      by_cases hz : Unsigned.value ur = 0
      · simp only [hz, if_true, ne_eq, not_true_eq_false, if_false]; rfl
      · simp only [hz, if_false, ne_eq, not_false_eq_true, if_true]; rfl
    · have hna' : a.isNegative = false := by simpa using hna
      obtain ⟨uq, ur, heq, hrest⟩ := divideWithRem_core hca hcb hb0 hna' hnb'
      refine ⟨uq, ur, ?_, hrest⟩
      rw [heq]
      simp only [hna', hnb', Bool.false_eq_true, if_false, false_and]
      rfl

theorem isNegative_iff {a : ArbNum} (ha : WellFormed a) :
    a.isNegative = true ↔ a.mSign = -1 ∧ Unsigned.value a.mUnsigned ≠ 0 := by
  obtain ⟨_, hs, hc⟩ := ha
  simp only [isNegative, Bool.and_eq_true, decide_eq_true_eq, Bool.not_eq_true', isZero]
  constructor
  · rintro ⟨h1, h2⟩
    refine ⟨by omega, ?_⟩
    intro hv
    rw [(Unsigned.isZero_iff hc.1).mpr hv] at h2
    exact absurd h2 (by decide)
  · rintro ⟨h1, h2⟩
    refine ⟨by omega, ?_⟩
    have := (Unsigned.isZero_iff hc.1).not.mpr h2
    simpa using this

/-- `ArbNum::divideWithRem` is truncating division: on well-formed operands with a
nonzero divisor the quotient denotes the quotient rounded toward zero and the
remainder denotes the remainder that goes with it. -/
theorem divideWithRem_spec {a b : ArbNum} (ha : WellFormed a) (hb : WellFormed b)
    (hb0 : Unsigned.value b.mUnsigned ≠ 0) :
    ∃ q r, divideWithRem a b = some ⟨q, r⟩ ∧ WellFormed q ∧ WellFormed r ∧
      toZ q = (toZ a).tdiv (toZ b) ∧ toZ r = (toZ a).tmod (toZ b) ∧
      (r.mSign = -1 → a.mSign = -1) ∧
      (Unsigned.value r.mUnsigned = 0 ∨ r.mSign = a.mSign) := by
  obtain ⟨uq, ur, heq, hq, hr, hid, h0, hlt⟩ := divideWithRem_signs ha hb hb0
  have hna := isNegative_iff ha
  have hnb := isNegative_iff hb
  have hsa := ha.2.1
  have hsb := hb.2.1
  have hva := Unsigned.value_nonneg ha.2.2.1
  obtain ⟨htd, htm⟩ := tdiv_tmod_of_abs hva hid h0 hlt hsa hsb
  refine ⟨_, _, heq, ⟨rfl, ?_, hq⟩, ⟨rfl, ?_, hr⟩, ?_, ?_, ?_, ?_⟩
  · dsimp only
    split <;> split <;> decide
  · dsimp only
    split <;> decide
  · rw [toZ_mk, toZ, toZ, htd]
    by_cases h1 : a.isNegative = true <;> by_cases h2 : b.isNegative = true
    · rw [if_pos h1, if_pos h2, (hna.mp h1).1, (hnb.mp h2).1]
    · rw [if_pos h1, if_neg h2, (hna.mp h1).1]
      have : b.mSign = 1 := by
        rcases hsb with h | h
        · exact h
        · exact absurd (hnb.mpr ⟨h, hb0⟩) h2
      rw [this]
    · rw [if_neg h1, if_pos h2, (hnb.mp h2).1]
      rcases hsa with h | h
      · rw [h]
      · have hz : Unsigned.value a.mUnsigned = 0 := by
          by_contra hne
          exact h1 (hna.mpr ⟨h, hne⟩)
        have hq0 : Unsigned.value uq = 0 := by
          have hqn := Unsigned.value_nonneg hq.1
          have hbp : 0 < Unsigned.value b.mUnsigned := by omega
          rw [hz] at hid
          by_contra hne
          have : 1 ≤ Unsigned.value uq := by omega
          nlinarith
        rw [hq0]; ring
    · rw [if_neg h1, if_neg h2]
      have hb1 : b.mSign = 1 := by
        rcases hsb with h | h
        · exact h
        · exact absurd (hnb.mpr ⟨h, hb0⟩) h2
      rw [hb1]
      rcases hsa with h | h
      · rw [h]
      · have hz : Unsigned.value a.mUnsigned = 0 := by
          by_contra hne
          exact h1 (hna.mpr ⟨h, hne⟩)
        have hq0 : Unsigned.value uq = 0 := by
          have hqn := Unsigned.value_nonneg hq.1
          have hbp : 0 < Unsigned.value b.mUnsigned := by omega
          rw [hz] at hid
          by_contra hne
          have : 1 ≤ Unsigned.value uq := by omega
          nlinarith
        rw [hq0]; ring
  · rw [toZ_mk, toZ, toZ, htm]
    by_cases h1 : a.isNegative = true ∧ Unsigned.value ur ≠ 0
    · rw [if_pos h1, (hna.mp h1.1).1]
    · rw [if_neg h1]
      by_cases hz : Unsigned.value ur = 0
      · rw [hz]; ring
      · have h1' : ¬ a.isNegative = true := fun h => h1 ⟨h, hz⟩
        rcases hsa with h | h
        · rw [h]
        · have hza : Unsigned.value a.mUnsigned = 0 := by
            by_contra hne
            exact h1' (hna.mpr ⟨h, hne⟩)
          have hbp : 0 < Unsigned.value b.mUnsigned := by omega
          have hqn := Unsigned.value_nonneg hq.1
          rw [hza] at hid
          have : Unsigned.value ur = 0 := by nlinarith
          exact absurd this hz
  · dsimp only
    split
    · rename_i h; intro _; exact (hna.mp h.1).1
    · intro h; exact absurd h (by decide)
  · dsimp only
    by_cases hz : Unsigned.value ur = 0
    · exact Or.inl hz
    · right
      by_cases h1 : a.isNegative = true
      · rw [if_pos ⟨h1, hz⟩, (hna.mp h1).1]
      · rw [if_neg (fun h => h1 h.1)]
        rcases hsa with h | h
        · rw [h]
        · exfalso
          have hza : Unsigned.value a.mUnsigned = 0 := by
            by_contra hne
            exact h1 (hna.mpr ⟨h, hne⟩)
          have hbp : 0 < Unsigned.value b.mUnsigned := by omega
          have hqn := Unsigned.value_nonneg hq.1
          rw [hza] at hid
          have : Unsigned.value ur = 0 := by nlinarith
          exact hz this

end ArbNum

/-! ## The claims -/

namespace ArbNum

theorem toZ_ofInt (n : Int) : toZ (ofInt n) = n := by
  obtain ⟨ds, heq, _, hval⟩ := ofInt_spec n
  rw [heq, toZ_mk, hval]
  by_cases hn : n < 0
  · rw [if_pos hn, abs_of_neg hn]; ring
  · rw [if_neg hn, abs_of_nonneg (not_lt.mp hn)]; ring

/-- Every value built by an integer constructor is in canonical form. -/
theorem ofInt_canonical (n : Int) : Canonical (ofInt n) := by
  obtain ⟨ds, heq, hcan, hval⟩ := ofInt_spec n
  rw [heq]
  refine ⟨⟨rfl, ?_, hcan⟩, ?_⟩
  · dsimp only
    split
    · exact Or.inr rfl
    · exact Or.inl rfl
  · dsimp only
    intro h0
    rw [hval] at h0
    have : n = 0 := abs_eq_zero.mp h0
    subst this
    decide

/-- With a divisor of zero magnitude `ArbNum::divideWithRem` marks the quotient as
an error and leaves the remainder at the `0` of `ArbNumDivide()`. -/
theorem divideWithRem_zero (a b : ArbNum) (hb : b.isZero = true) :
    divideWithRem a b = some ⟨⟨SpecialType.SPEC_ERROR, 1, []⟩,
      ⟨SpecialType.SPEC_NORMAL, 1, [0]⟩⟩ := by
  rw [divideWithRem]
  simp only [hb, if_true, newDivide_eq]
  rfl

end ArbNum

/-- C1 (code at the failing input): long division of the empty digit sequence, the
magnitude of `ArbNum("")`, by the magnitude of `ArbNum(2)` is handed to
`divideByTwoWithRem`, whose loop body never runs and whose local `second` is read
unassigned: no quotient and remainder are defined. -/
theorem C1_divideWithRemFast_empty_by_two :
    (ArbNum.saveNumber []).mUnsigned = [] ∧ (ArbNum.ofInt 2).mUnsigned = [2] ∧
      Unsigned.divideWithRemFast (ArbNum.saveNumber []).mUnsigned
        (ArbNum.ofInt 2).mUnsigned = none ∧
      ArbNum.divideWithRem (ArbNum.saveNumber []) (ArbNum.ofInt 2) = none := by
  refine ⟨by decide, by decide, by decide, ?_⟩
  rw [ArbNum.divideWithRem]
  decide

/-- C2 (code at the failing input): with the empty dividend and the divisor 2,
`divideWithRemSlow` and `divideWithRemFast` each hand the dividend to
`divideByTwoWithRem`, whose remainder is the parity of a local that was never
assigned, so no pair of results is defined; the remainder is 0 for one content of
that local and 1 for another, so the two calls need not return identical
remainders. -/
theorem C2_slow_fast_empty_by_two :
    Unsigned.divideWithRemSlow [] [2] = Unsigned.divideByTwoWithRem [] ∧
      Unsigned.divideWithRemFast [] [2] = Unsigned.divideByTwoWithRem [] ∧
      Unsigned.divideByTwoWithRem [] = none ∧
      Unsigned.divideByTwoWithRemFrom 0 [] = some ⟨[0], [0]⟩ ∧
      Unsigned.divideByTwoWithRemFrom 1 [] = some ⟨[0], [1]⟩ := by
  decide

/-- C3: for signed values `a` and `b` in canonical form with `b` nonzero,
`b * (a / b) + (a % b)` compares equal to `a` under `ArbNum::compare`, and `a % b`
is zero or carries the sign of `a`. -/
theorem C3_division_identity (a b : ArbNum) (ha : ArbNum.Canonical a)
    (hb : ArbNum.Canonical b) (hb0 : b.isZero = false) :
    ∃ q r, ArbNum.divide a b = some q ∧ ArbNum.mod a b = some r ∧
      ArbNum.compare (ArbNum.add (ArbNum.multiply b q) r) a = 0 ∧
      (r.isZero = true ∨ r.mSign = a.mSign) := by
  have hbv : Unsigned.value b.mUnsigned ≠ 0 := by
    intro h
    have := (Unsigned.isZero_iff hb.1.2.2.1).mpr h
    rw [ArbNum.isZero, this] at hb0
    exact absurd hb0 (by decide)
  obtain ⟨q, r, heq, hq, hr, htd, htm, hrs, hrz⟩ := ArbNum.divideWithRem_spec ha.1 hb.1 hbv
  obtain ⟨hmw, hmz, _⟩ := ArbNum.multiply_signed_spec hb.1 hq
  obtain ⟨haw, haz, has⟩ := ArbNum.add_spec hmw hr
  have hsum : ArbNum.toZ (ArbNum.add (ArbNum.multiply b q) r) = ArbNum.toZ a := by
    rw [haz, hmz, htd, htm]
    exact Int.tdiv_add_tmod _ _
  refine ⟨q, r, by simp [ArbNum.divide, heq], by simp [ArbNum.mod, heq], ?_, ?_⟩
  · rw [ArbNum.compare_signed_eq_zero_iff haw ha.1]
    have hva := Unsigned.value_nonneg ha.1.2.2.1
    have hvs := Unsigned.value_nonneg haw.2.2.1
    rw [hmz, htd, htm, Int.tdiv_add_tmod] at has
    rcases ha.1.2.1 with h1 | h1
    · have hnot : ¬ (ArbNum.add (ArbNum.multiply b q) r).mSign = -1 := by
        rw [has]
        rintro (h | ⟨_, h⟩)
        · rw [ArbNum.toZ, h1] at h; omega
        · have := hrs h; omega
      have hs1 : (ArbNum.add (ArbNum.multiply b q) r).mSign = 1 := by
        rcases haw.2.1 with h | h
        · exact h
        · exact absurd h hnot
      refine ⟨by rw [hs1, h1], ?_⟩
      rw [ArbNum.toZ, ArbNum.toZ, hs1, h1] at hsum
      linarith
    · have hne : Unsigned.value a.mUnsigned ≠ 0 := by
        intro h0
        have := ha.2 h0
        omega
      have hs1 : (ArbNum.add (ArbNum.multiply b q) r).mSign = -1 := by
        rw [has]
        left
        rw [ArbNum.toZ, h1]
        omega
      refine ⟨by rw [hs1, h1], ?_⟩
      rw [ArbNum.toZ, ArbNum.toZ, hs1, h1] at hsum
      linarith
  · rcases hrz with h | h
    · left
      exact (Unsigned.isZero_iff hr.2.2.1).mpr h
    · right; exact h

/-- C3 on a concrete pair: `-7` and `2`. -/
theorem C3_division_identity_witness :
    (ArbNum.Canonical ⟨SpecialType.SPEC_NORMAL, -1, [7]⟩ ∧
      ArbNum.Canonical ⟨SpecialType.SPEC_NORMAL, 1, [2]⟩ ∧
      ArbNum.isZero ⟨SpecialType.SPEC_NORMAL, 1, [2]⟩ = false) ∧
    ∃ q r, ArbNum.divide ⟨SpecialType.SPEC_NORMAL, -1, [7]⟩
        ⟨SpecialType.SPEC_NORMAL, 1, [2]⟩ = some q ∧
      ArbNum.mod ⟨SpecialType.SPEC_NORMAL, -1, [7]⟩ ⟨SpecialType.SPEC_NORMAL, 1, [2]⟩ = some r ∧
      ArbNum.compare (ArbNum.add (ArbNum.multiply ⟨SpecialType.SPEC_NORMAL, 1, [2]⟩ q) r)
        ⟨SpecialType.SPEC_NORMAL, -1, [7]⟩ = 0 ∧
      (r.isZero = true ∨ r.mSign = (-1 : Int)) :=
  ⟨by decide, C3_division_identity ⟨SpecialType.SPEC_NORMAL, -1, [7]⟩
    ⟨SpecialType.SPEC_NORMAL, 1, [2]⟩ (by decide) (by decide) (by decide)⟩

/-- C4: for all integers `a` and `b` with `b` nonzero, `ArbNum::divideWithRem` on
`ArbNum(a)` and `ArbNum(b)` returns a quotient denoting `a / b` rounded toward
zero and a remainder denoting the truncating `a % b`, whatever the signs. -/
theorem C4_divideWithRem_truncating (a b : Int) (hb : b ≠ 0) :
    ∃ q r, ArbNum.divideWithRem (ArbNum.ofInt a) (ArbNum.ofInt b) = some ⟨q, r⟩ ∧
      ArbNum.WellFormed q ∧ ArbNum.WellFormed r ∧
      ArbNum.toZ q = Int.tdiv a b ∧ ArbNum.toZ r = Int.tmod a b := by
  have hbv : Unsigned.value (ArbNum.ofInt b).mUnsigned ≠ 0 := by
    obtain ⟨ds, heq, _, hval⟩ := ArbNum.ofInt_spec b
    rw [heq]
    dsimp only
    rw [hval]
    exact abs_ne_zero.mpr hb
  obtain ⟨q, r, heq, hq, hr, htd, htm, _, _⟩ :=
    ArbNum.divideWithRem_spec (ArbNum.ofInt_canonical a).1 (ArbNum.ofInt_canonical b).1 hbv
  rw [ArbNum.toZ_ofInt, ArbNum.toZ_ofInt] at htd htm
  exact ⟨q, r, heq, hq, hr, htd, htm⟩

/-- C4 on a concrete pair: `-7` divided by `2`. -/
theorem C4_divideWithRem_truncating_witness :
    (2 : Int) ≠ 0 ∧
    ∃ q r, ArbNum.divideWithRem (ArbNum.ofInt (-7)) (ArbNum.ofInt 2) = some ⟨q, r⟩ ∧
      ArbNum.WellFormed q ∧ ArbNum.WellFormed r ∧
      ArbNum.toZ q = Int.tdiv (-7) 2 ∧ ArbNum.toZ r = Int.tmod (-7) 2 :=
  ⟨by decide, C4_divideWithRem_truncating (-7) 2 (by decide)⟩

/-- C5: for every signed value `a` and every `b` whose magnitude is zero,
`ArbNum::divide(a, b)` returns a value in the Error state. -/
theorem C5_divide_by_zero_is_error (a b : ArbNum) (hb : b.isZero = true) :
    ∃ q, ArbNum.divide a b = some q ∧ q.isError = true ∧ q.isNormal = false := by
  refine ⟨⟨SpecialType.SPEC_ERROR, 1, []⟩, ?_, rfl, rfl⟩
  simp [ArbNum.divide, ArbNum.divideWithRem_zero a b hb]

/-- C5 on a concrete pair: `7` divided by the parsed string `"0"`. -/
theorem C5_divide_by_zero_is_error_witness :
    (ArbNum.saveNumber ['0']).isZero = true ∧
    ∃ q, ArbNum.divide (ArbNum.ofInt 7) (ArbNum.saveNumber ['0']) = some q ∧
      q.isError = true ∧ q.isNormal = false :=
  ⟨by decide, C5_divide_by_zero_is_error (ArbNum.ofInt 7) (ArbNum.saveNumber ['0']) (by decide)⟩

/-- C6 (code at the failing input): `ArbNum::mod(7, 0)` returns the remainder that
`ArbNumDivide()` initialised, a Normal `0`, because only the quotient is marked as
an error; `ArbNum::divide(7, 0)` on the same operands is in the Error state. -/
theorem C6_mod_by_zero_is_normal :
    ArbNum.mod (ArbNum.ofInt 7) (ArbNum.ofInt 0) = some ⟨SpecialType.SPEC_NORMAL, 1, [0]⟩ ∧
      ArbNum.isError ⟨SpecialType.SPEC_NORMAL, 1, [0]⟩ = false ∧
      ArbNum.divide (ArbNum.ofInt 7) (ArbNum.ofInt 0) = some ⟨SpecialType.SPEC_ERROR, 1, []⟩ := by
  have h := ArbNum.divideWithRem_zero (ArbNum.ofInt 7) (ArbNum.ofInt 0) (by decide)
  refine ⟨by simp [ArbNum.mod, h], rfl, by simp [ArbNum.divide, h]⟩

/-- C7 (counterexample): the value constructed from `"hello"` is not in the Error
state; it is Normal. -/
theorem C7_counterexample :
    ¬ ((ArbNum.saveNumber ['h', 'e', 'l', 'l', 'o']).isError = true ∧
        (ArbNum.saveNumber ['h', 'e', 'l', 'l', 'o']).isNormal = false) := by
  decide

/-- C7 (amended): for every string that, after an optional leading `-`, contains a
character that is not a decimal digit, the constructed value is in the Normal
state, not the Error state, and its magnitude is the empty digit sequence. -/
theorem C7_malformed_is_normal_and_empty (s : List Char)
    (h : ∃ c ∈ ArbNum.digitsPart s, c.isDigit = false) :
    (ArbNum.saveNumber s).isNormal = true ∧ (ArbNum.saveNumber s).isError = false ∧
      (ArbNum.saveNumber s).mUnsigned = [] := by
  have key : ∀ cs : List Char, (∃ c ∈ cs, c.isDigit = false) → Unsigned.saveNumber cs = [] := by
    intro cs hcs
    simp only [Unsigned.saveNumber, Unsigned.saveNumberFrom, Unsigned.saveNumberLoop_bad cs hcs]
    rfl
  unfold ArbNum.saveNumber
  split
  · rename_i rest
    exact ⟨rfl, rfl, key rest h⟩
  · rename_i hnot
    refine ⟨rfl, rfl, key s ?_⟩
    have : ArbNum.digitsPart s = s := by
      unfold ArbNum.digitsPart
      split
      · rename_i rest
        exact absurd rfl (hnot rest)
      · rfl
    rw [this] at h
    exact h

/-- C7 (amended) on the strings `"1.5"`: the value is Normal with no digits. -/
theorem C7_malformed_is_normal_and_empty_witness :
    (∃ c ∈ ArbNum.digitsPart ['1', '.', '5'], c.isDigit = false) ∧
    ((ArbNum.saveNumber ['1', '.', '5']).isNormal = true ∧
      (ArbNum.saveNumber ['1', '.', '5']).isError = false ∧
      (ArbNum.saveNumber ['1', '.', '5']).mUnsigned = []) :=
  ⟨⟨'.', by decide, by decide⟩,
    C7_malformed_is_normal_and_empty ['1', '.', '5'] ⟨'.', by decide, by decide⟩⟩

namespace Unsigned

theorem charToInt_eq_zero {c : Char} (h : c.isDigit = true) (h0 : charToInt c = 0) : c = '0' := by
  have := intToChar_charToInt h
  rw [h0] at this
  rw [← this]
  rfl

/-- A canonical digit string parses to a canonical magnitude, digit by digit. -/
theorem canonical_of_digitString {cs : List Char} (h : IsCanonicalDigitString cs) :
    Canonical (cs.map charToInt) := by
  obtain ⟨hne, hd, hhead⟩ := h
  refine ⟨isDigits_map_charToInt cs hd, by simpa using hne, ?_⟩
  intro h0
  cases cs with
  | nil => exact absurd rfl hne
  | cons c rest =>
    simp only [List.map_cons, List.head?_cons, Option.some.injEq] at h0
    have hc : c = '0' := charToInt_eq_zero (hd c (List.mem_cons_self _ _)) h0
    have := hhead (by simp [hc])
    rw [this]
    rfl

theorem saveNumber_digits (cs : List Char) (hd : ∀ c ∈ cs, c.isDigit = true) :
    saveNumber cs = trim (cs.map charToInt) := by
  simp only [saveNumber, saveNumberFrom, saveNumberLoop_digits cs hd, List.nil_append]

end Unsigned

/-- C8: for every string `s` that is a non-empty run of decimal digits with no
superfluous leading zero, optionally preceded by a single `-`, printing the value
constructed from `s` gives `s` back. -/
theorem C8_toString_saveNumber_roundtrip (s : List Char) (h : IsCanonicalDecimal s) :
    ArbNum.toString (ArbNum.saveNumber s) = s := by
  have key : ∀ cs : List Char, IsCanonicalDigitString cs →
      Unsigned.toString (Unsigned.saveNumber cs) = cs := by
    intro cs hcs
    rw [Unsigned.saveNumber_digits cs hcs.2.1,
      Unsigned.trim_eq_self_of_canonical (Unsigned.canonical_of_digitString hcs),
      Unsigned.toString_map_charToInt cs hcs.2.1]
  rcases h with h | ⟨hminus, h⟩
  · have hnot : ∀ rest, s ≠ '-' :: rest := by
      intro rest hs
      have := h.2.1 '-' (by rw [hs]; exact List.mem_cons_self _ _)
      exact absurd this (by decide)
    unfold ArbNum.saveNumber
    split
    · rename_i rest
      exact absurd rfl (hnot rest)
    · show ([] : List Char) ++ Unsigned.toString (Unsigned.saveNumber s) = s
      rw [key s h]
      rfl
  · cases s with
    | nil => simp at hminus
    | cons c rest =>
      simp only [List.head?_cons, Option.some.injEq] at hminus
      subst hminus
      simp only [List.tail_cons] at h
      show ['-'] ++ Unsigned.toString (Unsigned.saveNumber rest) = '-' :: rest
      rw [key rest h]
      rfl

/-- C8 on the string `"-25"`. -/
theorem C8_toString_saveNumber_roundtrip_witness :
    IsCanonicalDecimal ['-', '2', '5'] ∧
    ArbNum.toString (ArbNum.saveNumber ['-', '2', '5']) = ['-', '2', '5'] :=
  ⟨by decide, C8_toString_saveNumber_roundtrip ['-', '2', '5'] (by decide)⟩

/-- C9: for every non-empty string of decimal digits, `Unsigned::saveNumber` yields
the canonical digit sequence of the number the string denotes: the digits of the
string with the leading zeros trimmed, a single `0` when all are zero. -/
theorem C9_saveNumber_canonical (cs : List Char) (hne : cs ≠ [])
    (hd : ∀ c ∈ cs, c.isDigit = true) :
    Unsigned.saveNumber cs = Unsigned.trim (cs.map Unsigned.charToInt) ∧
      Unsigned.Canonical (Unsigned.saveNumber cs) ∧
      Unsigned.value (Unsigned.saveNumber cs) = Unsigned.value (cs.map Unsigned.charToInt) := by
  have hs := Unsigned.saveNumber_digits cs hd
  refine ⟨hs, ?_, ?_⟩
  · rw [hs]
    exact Unsigned.trim_canonical (Unsigned.isDigits_map_charToInt cs hd) (by simpa using hne)
  · rw [hs, Unsigned.trim_value]

/-- C9 on the string `"0004"`. -/
theorem C9_saveNumber_canonical_witness :
    (['0', '0', '0', '4'] ≠ [] ∧ ∀ c ∈ ['0', '0', '0', '4'], c.isDigit = true) ∧
    (Unsigned.saveNumber ['0', '0', '0', '4'] =
        Unsigned.trim (['0', '0', '0', '4'].map Unsigned.charToInt) ∧
      Unsigned.Canonical (Unsigned.saveNumber ['0', '0', '0', '4']) ∧
      Unsigned.value (Unsigned.saveNumber ['0', '0', '0', '4']) =
        Unsigned.value (['0', '0', '0', '4'].map Unsigned.charToInt)) :=
  ⟨⟨by decide, by decide⟩,
    C9_saveNumber_canonical ['0', '0', '0', '4'] (by decide) (by decide)⟩

/-- The store-string cases of `testAll`: `"0004"` parses to 4, `"0000"` to 0 and
`"4000"` to 4000. -/
theorem saveNumber_examples :
    Unsigned.saveNumber ['0', '0', '0', '4'] = [4] ∧
      Unsigned.saveNumber ['0', '0', '0', '0'] = [0] ∧
      Unsigned.saveNumber ['4', '0', '0', '0'] = [4, 0, 0, 0] ∧
      Unsigned.value (Unsigned.saveNumber ['4', '0', '0', '0']) = 4000 := by
  decide

/-- C10: for every string with at least one character that is not a decimal digit,
`Unsigned::saveNumber` leaves the empty digit sequence, whatever was parsed before
that character, and the value reads as 0 through `toInt`. -/
theorem C10_saveNumber_nondigit_empty (s : List Char) (h : ∃ c ∈ s, c.isDigit = false) :
    Unsigned.saveNumber s = [] ∧ Unsigned.toInt (Unsigned.saveNumber s) = 0 ∧
      ∀ (intMin intMax : Int) (sp : SpecialType) (sg : Int),
        ArbNum.toInt intMin intMax ⟨sp, sg, Unsigned.saveNumber s⟩ = 0 := by
  have hs : Unsigned.saveNumber s = [] := by
    simp only [Unsigned.saveNumber, Unsigned.saveNumberFrom, Unsigned.saveNumberLoop_bad s h]
    rfl
  rw [hs]
  exact ⟨rfl, rfl, fun _ _ _ _ => rfl⟩

/-- C10 on the string `"12a"`: the digits 1 and 2 are discarded. -/
theorem C10_saveNumber_nondigit_empty_witness :
    (∃ c ∈ ['1', '2', 'a'], c.isDigit = false) ∧
    (Unsigned.saveNumber ['1', '2', 'a'] = [] ∧
      Unsigned.toInt (Unsigned.saveNumber ['1', '2', 'a']) = 0 ∧
      ∀ (intMin intMax : Int) (sp : SpecialType) (sg : Int),
        ArbNum.toInt intMin intMax ⟨sp, sg, Unsigned.saveNumber ['1', '2', 'a']⟩ = 0) :=
  ⟨⟨'a', by decide, by decide⟩,
    C10_saveNumber_nondigit_empty ['1', '2', 'a'] ⟨'a', by decide, by decide⟩⟩

/-- The scenario `"1000" / "3"`: quotient `333`, remainder `1`, from both division
algorithms. -/
theorem divideWithRem_1000_3 :
    Unsigned.divideWithRemFast [1, 0, 0, 0] [3] = some ⟨[3, 3, 3], [1]⟩ ∧
      Unsigned.divideWithRemSlow [1, 0, 0, 0] [3] = some ⟨[3, 3, 3], [1]⟩ := by
  obtain ⟨q, r, hfast, hq, hr, hv, h0, hlt⟩ :=
    @Unsigned.divideWithRemFast_canonical [1, 0, 0, 0] [3]
      (by decide) (by decide) (by decide) (by decide)
  obtain ⟨q1, r1, hslow, hfast1⟩ :=
    @Unsigned.divideWithRemSlow_eq_fast [1, 0, 0, 0] [3]
      (by decide) (by decide) (by decide) (by decide)
  have hv1 : Unsigned.value [1, 0, 0, 0] = 1000 := by decide
  have hv3 : Unsigned.value [3] = 3 := by decide
  rw [hv1, hv3] at hv
  rw [hv3] at hlt
  have hqv : Unsigned.value q = Unsigned.value [3, 3, 3] := by
    have : Unsigned.value [3, 3, 3] = 333 := by decide
    omega
  have hrv : Unsigned.value r = Unsigned.value [1] := by
    have : Unsigned.value [1] = 1 := by decide
    omega
  have hq' := Unsigned.canonical_unique hq (by decide) hqv
  have hr' := Unsigned.canonical_unique hr (by decide) hrv
  subst hq' hr'
  rw [hfast] at hfast1
  exact ⟨hfast, by rw [hslow, hfast1]⟩

/-! ## Power -/

namespace Unsigned

theorem isEvenInt_digit {l : Int} (h0 : 0 ≤ l) (h9 : l ≤ 9) :
    isEvenInt l = true ↔ l % 2 = 0 := by
  interval_cases l <;> decide

/-- `Unsigned::isEven` tells whether the number denoted is even. -/
theorem isEven_iff {ds : List Int} (h : IsDigits ds) : isEven ds = true ↔ value ds % 2 = 0 := by
  induction ds using List.reverseRecOn with
  | nil => simp [isEven, value]
  | append_singleton ds l _ =>
    have hl := isDigits_singleton.mp (isDigits_append.mp h).2
    have hlast : (ds ++ [l]).getLast? = some l := by simp
    simp only [isEven, hlast]
    rw [isEvenInt_digit hl.1 hl.2, value_append_singleton]
    omega

theorem ne_nil_of_value_ne_zero {ds : List Int} (h : value ds ≠ 0) : ds ≠ [] := by
  intro hnil
  rw [hnil] at h
  exact h rfl

/-- On a non-empty dividend the loop assigns `second`, and its content before the
loop plays no part. -/
theorem divideByTwoWithRemFrom_of_ne_nil (second0 : Int) {dividend : List Int}
    (hne : dividend ≠ []) :
    divideByTwoWithRemFrom second0 dividend = divideByTwoWithRem dividend := by
  obtain ⟨l, hl⟩ : ∃ l, dividend.getLast? = some l := by
    cases hla : dividend.getLast? with
    | none => exact absurd (List.getLast?_eq_none_iff.mp hla) hne
    | some l => exact ⟨l, rfl⟩
  simp only [divideByTwoWithRemFrom, divideByTwoWithRem, hl, Option.getD_some]
  cases halfLoop (0 :: dividend) <;> rfl

/-- On the empty dividend the quotient is 0 and the remainder is the parity of
the unassigned local. -/
theorem divideByTwoWithRemFrom_nil (second0 : Int) :
    divideByTwoWithRemFrom second0 [] =
      some ⟨[0], trim (if isOddInt second0 then gUnsignedOne else gUnsignedZero)⟩ := rfl

/-- The quotient of the halving pass is the same for every content of the
unassigned local: `half` is well defined. -/
theorem half_indeterminate (second0 : Int) (n : List Int) :
    (divideByTwoWithRemFrom second0 n).map (fun r => r.quotient) = half n := by
  simp only [half, divideByTwoWithRemFrom]
  cases halfLoop (0 :: n) <;> rfl

theorem half_nil : half [] = some [0] := rfl

/-- `Unsigned::half` of a non-empty digit sequence is the canonical half. -/
theorem half_spec {n : List Int} (h : IsDigits n) (hne : n ≠ []) :
    ∃ q, half n = some q ∧ Canonical q ∧ value q = value n / 2 := by
  obtain ⟨q, r, heq, hq, _, hv, h0, h2⟩ := divideByTwoWithRem_spec h hne
  refine ⟨q, by simp [half, divideByTwoWithRemFrom_of_ne_nil 0 hne, heq], hq, by omega⟩

/-- The recursion of `Unsigned::pow` returns the canonical digits of the power. -/
theorem powLoop_spec {a : List Int} (ha : IsDigits a) :
    ∀ (fuel : Nat) (n : List Int), IsDigits n → value n < fuel →
      ∃ x, powLoop a fuel n = some x ∧ Canonical x ∧
        value x = value a ^ (value n).toNat := by
  intro fuel
  induction fuel with
  | zero =>
    intro n hn hlt
    have := value_nonneg hn
    simp at hlt
    omega
  | succ fuel ih =>
    intro n hn hlt
    have hnn := value_nonneg hn
    simp only [powLoop]
    by_cases hz : isZero n = true
    · have hv : value n = 0 := (isZero_iff hn).mp hz
      refine ⟨gUnsignedOne, by simp [hz], by decide, ?_⟩
      rw [hv, gUnsignedOne_eq, value_singleton]
      simp
    · have hv : value n ≠ 0 := fun h0 => hz ((isZero_iff hn).mpr h0)
      obtain ⟨q, hhalf, hq, hqv⟩ := half_spec hn (ne_nil_of_value_ne_zero hv)
      have hqlt : value q < fuel := by push_cast at hlt; omega
      obtain ⟨x, hx, hxc, hxv⟩ := ih q hq.1 hqlt
      have hqn := value_nonneg hq.1
      rw [if_neg hz, hhalf]
      simp only [hx]
      by_cases he : isEven n = true
      · rw [if_pos he]
        obtain ⟨hc, hval⟩ := multiply_spec hxc.1 hxc.1
        refine ⟨_, rfl, hc, ?_⟩
        have hmod := (isEven_iff hn).mp he
        have hexp : (value n).toNat = (value q).toNat + (value q).toNat := by omega
        rw [hval, hxv, hexp, pow_add]
      · rw [if_neg he]
        obtain ⟨hc1, hval1⟩ := multiply_spec ha hxc.1
        obtain ⟨hc, hval⟩ := multiply_spec hc1.1 hxc.1
        refine ⟨_, rfl, hc, ?_⟩
        have hmod : value n % 2 ≠ 0 := fun h0 => he ((isEven_iff hn).mpr h0)
        have hexp : (value n).toNat = (value q).toNat + (value q).toNat + 1 := by omega
        rw [hval, hval1, hxv, hexp, pow_succ, pow_add]
        ring

/-- `Unsigned::pow` returns the canonical digits of `a` to the power `n`. -/
theorem pow_spec {a n : List Int} (ha : IsDigits a) (hn : IsDigits n) :
    ∃ x, pow a n = some x ∧ Canonical x ∧ value x = value a ^ (value n).toNat := by
  have hnn := value_nonneg hn
  exact powLoop_spec ha _ n hn (by push_cast; omega)

end Unsigned

namespace ArbNum

/-- `ArbNum::pow` on a well-formed base: the magnitude is the power of the
magnitudes, and the sign is negative exactly for a negative base and an odd
exponent magnitude. -/
theorem pow_signed_spec {a n : ArbNum} (ha : WellFormed a) (hn : Unsigned.IsDigits n.mUnsigned) :
    ∃ u, pow a n = some ⟨SpecialType.SPEC_NORMAL,
        if a.isNegative = true ∧ Unsigned.value n.mUnsigned % 2 ≠ 0 then -1 else 1, u⟩ ∧
      Unsigned.Canonical u ∧
      Unsigned.value u = Unsigned.value a.mUnsigned ^ (Unsigned.value n.mUnsigned).toNat := by
  obtain ⟨u, hu, hc, hv⟩ := Unsigned.pow_spec ha.2.2.1 hn
  refine ⟨u, ?_, hc, hv⟩
  have he := Unsigned.isEven_iff hn
  simp only [pow, hu]
  by_cases hneg : a.isNegative = true
  · rw [if_pos hneg]
    by_cases hev : Unsigned.isEven n.mUnsigned = true
    · have : Unsigned.value n.mUnsigned % 2 = 0 := he.mp hev
      simp only [hev, if_true, this, hneg, ne_eq, not_true_eq_false, and_false, if_false]
      rfl
    · have : Unsigned.value n.mUnsigned % 2 ≠ 0 := fun h0 => hev (he.mpr h0)
      simp only [hev, Bool.false_eq_true, if_false, this, hneg, ne_eq, not_false_eq_true,
        and_self, if_true]
      rfl
  · rw [if_neg hneg, if_neg (fun h => hneg h.1)]
    rfl

/-- `ArbNum::pow` denotes the power of the number denoted by the base, for an
exponent magnitude of decimal digits. -/
theorem pow_toZ {a n : ArbNum} (ha : WellFormed a) (hn : Unsigned.IsDigits n.mUnsigned) :
    ∃ p, pow a n = some p ∧ WellFormed p ∧
      toZ p = toZ a ^ (Unsigned.value n.mUnsigned).toNat ∧
      (p.mSign = -1 ↔ (a.isNegative = true ∧ Unsigned.value n.mUnsigned % 2 ≠ 0)) := by
  obtain ⟨u, hp, hc, hv⟩ := pow_signed_spec ha hn
  have hnn := Unsigned.value_nonneg hn
  have hneg := isNegative_iff ha
  refine ⟨_, hp, ⟨rfl, ?_, hc⟩, ?_, ?_⟩
  · dsimp only
    split
    · exact Or.inr rfl
    · exact Or.inl rfl
  · rw [toZ_mk, hv, toZ]
    by_cases h1 : a.isNegative = true
    · have hs := (hneg.mp h1).1
      rw [hs]
      by_cases h2 : Unsigned.value n.mUnsigned % 2 ≠ 0
      · rw [if_pos ⟨h1, h2⟩]
        have hodd : Odd (Unsigned.value n.mUnsigned).toNat := by
          rw [Nat.odd_iff]; omega
        rw [show -1 * Unsigned.value a.mUnsigned = -Unsigned.value a.mUnsigned by ring,
          hodd.neg_pow]
        ring
      · rw [if_neg (fun h => h2 h.2)]
        have heven : Even (Unsigned.value n.mUnsigned).toNat := by
          rw [Nat.even_iff]; omega
        rw [show -1 * Unsigned.value a.mUnsigned = -Unsigned.value a.mUnsigned by ring,
          heven.neg_pow]
        ring
    · rw [if_neg (fun h => h1 h.1)]
      rcases ha.2.1 with hs | hs
      · rw [hs]; ring
      · have hz : Unsigned.value a.mUnsigned = 0 := by
          by_contra hne
          exact h1 (hneg.mpr ⟨hs, hne⟩)
        rw [hz]; ring
  · dsimp only
    split
    · rename_i h; simp [h]
    · rename_i h
      constructor
      · intro h1; exact absurd h1 (by decide)
      · intro h1; exact absurd h1 h

/-- `ArbNum::compare` orders values in canonical form by the numbers they denote. -/
theorem compare_signed_spec {a b : ArbNum} (ha : Canonical a) (hb : Canonical b) :
    compare a b = if toZ a < toZ b then -1 else if toZ a > toZ b then 1 else 0 := by
  obtain ⟨⟨_, hsa, hca⟩, hza⟩ := ha
  obtain ⟨⟨_, hsb, hcb⟩, hzb⟩ := hb
  have hva := Unsigned.value_nonneg hca.1
  have hvb := Unsigned.value_nonneg hcb.1
  unfold compare
  rcases hsa with hsa | hsa <;> rcases hsb with hsb | hsb
  · have hn : a.isNegative = false := by simp [isNegative, hsa]
    simp only [hsa, hsb, lt_self_iff_false, if_false, gt_iff_lt, hn, Bool.false_eq_true]
    rw [Unsigned.compare_spec hca.1 hcb.1, toZ, toZ, hsa, hsb]
    simp only [one_mul, gt_iff_lt]
  · have h1 : ¬ ((1 : Int) < -1) := by decide
    have h2 : (1 : Int) > -1 := by decide
    simp only [hsa, hsb, h1, h2, if_false, if_true]
    have hbne : Unsigned.value b.mUnsigned ≠ 0 := fun h0 => by have := hzb h0; omega
    rw [toZ, toZ, hsa, hsb]
    have h3 : ¬ (1 * Unsigned.value a.mUnsigned < -1 * Unsigned.value b.mUnsigned) := by omega
    have h4 : 1 * Unsigned.value a.mUnsigned > -1 * Unsigned.value b.mUnsigned := by omega
    simp only [h3, h4, if_false, if_true]
  · have h1 : (-1 : Int) < 1 := by decide
    simp only [hsa, hsb, h1, if_true]
    have hane : Unsigned.value a.mUnsigned ≠ 0 := fun h0 => by have := hza h0; omega
    rw [toZ, toZ, hsa, hsb]
    have h3 : -1 * Unsigned.value a.mUnsigned < 1 * Unsigned.value b.mUnsigned := by omega
    simp only [h3, if_true]
  · have hane : Unsigned.value a.mUnsigned ≠ 0 := fun h0 => by have := hza h0; omega
    have hn : a.isNegative = true :=
      (isNegative_iff ⟨‹_›, Or.inr hsa, hca⟩).mpr ⟨hsa, hane⟩
    simp only [hsa, hsb, lt_self_iff_false, if_false, gt_iff_lt, hn, if_true]
    rw [Unsigned.compare_spec hcb.1 hca.1, toZ, toZ, hsa, hsb]
    by_cases h1 : Unsigned.value b.mUnsigned < Unsigned.value a.mUnsigned
    · have : -1 * Unsigned.value a.mUnsigned < -1 * Unsigned.value b.mUnsigned := by omega
      simp only [h1, this, if_true]
    · by_cases h2 : Unsigned.value b.mUnsigned > Unsigned.value a.mUnsigned
      · have h3 : ¬ (-1 * Unsigned.value a.mUnsigned < -1 * Unsigned.value b.mUnsigned) := by omega
        have h4 : -1 * Unsigned.value b.mUnsigned < -1 * Unsigned.value a.mUnsigned := by omega
        simp only [h1, h2, h3, h4, if_false, if_true, gt_iff_lt]
      · have h3 : ¬ (-1 * Unsigned.value a.mUnsigned < -1 * Unsigned.value b.mUnsigned) := by omega
        have h4 : ¬ (-1 * Unsigned.value b.mUnsigned < -1 * Unsigned.value a.mUnsigned) := by omega
        simp only [h1, h2, h3, h4, if_false, gt_iff_lt]

end ArbNum

/-! ## The claims on addition, subtraction, multiplication, comparison and power -/

namespace ArbNum

theorem ofInt_value (n : Int) : Unsigned.value (ofInt n).mUnsigned = |n| := by
  obtain ⟨ds, heq, _, hval⟩ := ofInt_spec n
  rw [heq]
  exact hval

theorem ofInt_sign (n : Int) : (ofInt n).mSign = if n < 0 then -1 else 1 := by
  obtain ⟨ds, heq, _, _⟩ := ofInt_spec n
  rw [heq]

theorem ofInt_isNegative (n : Int) : (ofInt n).isNegative = true ↔ n < 0 := by
  rw [isNegative_iff (ofInt_canonical n).1, ofInt_sign, ofInt_value]
  constructor
  · rintro ⟨h, _⟩
    by_contra hn
    rw [if_neg hn] at h
    exact absurd h (by decide)
  · intro hn
    exact ⟨by rw [if_pos hn], abs_ne_zero.mpr (by omega)⟩

/-- `ArbNum::add` of a positive-signed and a negative-signed operand is the
subtraction of the second operand's absolute value. -/
theorem add_pos_neg {a b : ArbNum} (ha : a.mSign = 1) (hb : b.mSign = -1) :
    add a b = subtract a b.mkPositive := by
  unfold add
  simp [isPositiveOrZero, isNegativeOrZero, ha, hb]

/-- `ArbNum::add` of a negative-signed and a positive-signed operand is the
subtraction of the first operand's absolute value from the second. -/
theorem add_neg_pos {a b : ArbNum} (ha : a.mSign = -1) (hb : b.mSign = 1) :
    add a b = subtract b a.mkPositive := by
  unfold add
  simp [isPositiveOrZero, isNegativeOrZero, ha, hb]

/-- Both sides of the distributive law denote the same number and carry the same
magnitude, for all well-formed operands. -/
theorem distributive_denotes {a b c : ArbNum} (ha : WellFormed a) (hb : WellFormed b)
    (hc : WellFormed c) :
    toZ (multiply a (add b c)) = toZ (add (multiply a b) (multiply a c)) ∧
      (multiply a (add b c)).mUnsigned = (add (multiply a b) (multiply a c)).mUnsigned := by
  obtain ⟨hbc, hbcz, _⟩ := add_spec hb hc
  obtain ⟨hl, hlz, _⟩ := multiply_signed_spec ha hbc
  obtain ⟨hab, habz, _⟩ := multiply_signed_spec ha hb
  obtain ⟨hac, hacz, _⟩ := multiply_signed_spec ha hc
  obtain ⟨hr, hrz, _⟩ := add_spec hab hac
  have hz : toZ (multiply a (add b c)) = toZ (add (multiply a b) (multiply a c)) := by
    rw [hlz, hbcz, hrz, habz, hacz]; ring
  refine ⟨hz, Unsigned.canonical_unique hl.2.2 hr.2.2 ?_⟩
  have h1 := Unsigned.value_nonneg hl.2.2.1
  have h2 := Unsigned.value_nonneg hr.2.2.1
  rw [toZ, toZ] at hz
  rcases hl.2.1 with s1 | s1 <;> rcases hr.2.1 with s2 | s2 <;> rw [s1, s2] at hz <;> omega

end ArbNum

/-- C11: for all non-empty digit sequences `a` and `b`, `Unsigned::add(a, b)` is
the canonical digit sequence of `value(a) + value(b)`. -/
theorem C11_add_canonical_sum (a b : List Int) (ha : Unsigned.IsDigits a)
    (hb : Unsigned.IsDigits b) (hane : a ≠ []) (_hbne : b ≠ []) :
    Unsigned.Canonical (Unsigned.add a b) ∧
      Unsigned.value (Unsigned.add a b) = Unsigned.value a + Unsigned.value b := by
  obtain ⟨_, hval, hcan⟩ := Unsigned.addMutable_spec ha hb
  exact ⟨hcan (Or.inl hane), hval⟩

/-- C11 on `999 + 1`, where the final carry is prepended. -/
theorem C11_add_canonical_sum_witness :
    (Unsigned.IsDigits [9, 9, 9] ∧ Unsigned.IsDigits [1] ∧ ([9, 9, 9] : List Int) ≠ [] ∧
      ([1] : List Int) ≠ []) ∧
    (Unsigned.Canonical (Unsigned.add [9, 9, 9] [1]) ∧
      Unsigned.value (Unsigned.add [9, 9, 9] [1]) = Unsigned.value [9, 9, 9] + Unsigned.value [1]) :=
  ⟨by decide, C11_add_canonical_sum [9, 9, 9] [1] (by decide) (by decide) (by decide) (by decide)⟩

set_option maxRecDepth 100000 in
/-- The scenarios of addition: `123456789012345678901234567890 + 1` and the carry
into a new leading digit of `999 + 1`. -/
theorem add_examples :
    Unsigned.add [1, 2, 3, 4, 5, 6, 7, 8, 9, 0, 1, 2, 3, 4, 5, 6, 7, 8, 9, 0, 1, 2, 3, 4, 5, 6, 7,
        8, 9, 0] [1] =
      [1, 2, 3, 4, 5, 6, 7, 8, 9, 0, 1, 2, 3, 4, 5, 6, 7, 8, 9, 0, 1, 2, 3, 4, 5, 6, 7, 8, 9, 1] ∧
    Unsigned.add [9, 9, 9] [1] = [1, 0, 0, 0] := by
  decide

/-- C12: for all canonical magnitudes `a` and `b`, subtracting `b` from
`Unsigned::add(a, b)` gives `a` back. -/
theorem C12_add_then_subtract (a b : List Int) (ha : Unsigned.Canonical a)
    (hb : Unsigned.Canonical b) :
    Unsigned.subtract (Unsigned.add a b) b = a := by
  obtain ⟨hsd, hsv, hsc⟩ := Unsigned.addMutable_spec ha.1 hb.1
  have hvb := Unsigned.value_nonneg hb.1
  have hva := Unsigned.value_nonneg ha.1
  have hle : Unsigned.value b ≤ Unsigned.value (Unsigned.addMutable a b) := by
    rw [hsv]; omega
  obtain ⟨_, hdv, hdc⟩ := Unsigned.subtractMutable_spec hsd hb.1 hle
  apply Unsigned.canonical_unique (hdc (Or.inr hb.2.1)) ha
  show Unsigned.value (Unsigned.subtractMutable (Unsigned.addMutable a b) b) = _
  rw [hdv, hsv]
  ring

/-- C12 on `a = 95`, `b = 7`. -/
theorem C12_add_then_subtract_witness :
    (Unsigned.Canonical [9, 5] ∧ Unsigned.Canonical [7]) ∧
    Unsigned.subtract (Unsigned.add [9, 5] [7]) [7] = [9, 5] :=
  ⟨by decide, C12_add_then_subtract [9, 5] [7] (by decide) (by decide)⟩

/-- C13: for canonical magnitudes `a` and `b`, the digit loop of
`Unsigned::subtract(a, b)` ends with a leftover borrow exactly when
`value(a) < value(b)`, which is also exactly when the empty sentinel is returned;
otherwise the result is the canonical digit sequence of `value(a) - value(b)`. -/
theorem C13_subtract_borrow (a b : List Int) (ha : Unsigned.Canonical a)
    (hb : Unsigned.Canonical b) :
    ((Unsigned.subtractLoop (Unsigned.padShorterNumber a b).1
          (Unsigned.padShorterNumber a b).2).1 > 0 ↔ Unsigned.value a < Unsigned.value b) ∧
      (Unsigned.subtract a b = [] ↔ Unsigned.value a < Unsigned.value b) ∧
      (Unsigned.value b ≤ Unsigned.value a →
        Unsigned.Canonical (Unsigned.subtract a b) ∧
          Unsigned.value (Unsigned.subtract a b) = Unsigned.value a - Unsigned.value b) := by
  have hd := Unsigned.padShorterNumber_isDigits ha.1 hb.1
  have hbor := Unsigned.subtractLoop_borrow hd.1 hd.2 (Unsigned.padShorterNumber_length a b)
  rw [(Unsigned.padShorterNumber_value a b).1, (Unsigned.padShorterNumber_value a b).2] at hbor
  have hok : Unsigned.value b ≤ Unsigned.value a →
      Unsigned.Canonical (Unsigned.subtract a b) ∧
        Unsigned.value (Unsigned.subtract a b) = Unsigned.value a - Unsigned.value b := by
    intro hle
    obtain ⟨_, hv, hc⟩ := Unsigned.subtractMutable_spec ha.1 hb.1 hle
    exact ⟨hc (Or.inl ha.2.1), hv⟩
  refine ⟨hbor, ⟨?_, fun hlt => Unsigned.subtractMutable_error ha.1 hb.1 hlt⟩, hok⟩
  intro hnil
  by_contra hge
  exact (hok (not_lt.mp hge)).1.2.1 hnil

/-- C13 on `a = 5`, `b = 12`. -/
theorem C13_subtract_borrow_witness :
    (Unsigned.Canonical [5] ∧ Unsigned.Canonical [1, 2]) ∧
    (((Unsigned.subtractLoop (Unsigned.padShorterNumber [5] [1, 2]).1
          (Unsigned.padShorterNumber [5] [1, 2]).2).1 > 0 ↔
        Unsigned.value [5] < Unsigned.value [1, 2]) ∧
      (Unsigned.subtract [5] [1, 2] = [] ↔ Unsigned.value [5] < Unsigned.value [1, 2]) ∧
      (Unsigned.value [1, 2] ≤ Unsigned.value [5] →
        Unsigned.Canonical (Unsigned.subtract [5] [1, 2]) ∧
          Unsigned.value (Unsigned.subtract [5] [1, 2]) =
            Unsigned.value [5] - Unsigned.value [1, 2])) :=
  ⟨by decide, C13_subtract_borrow [5] [1, 2] (by decide) (by decide)⟩

/-- C14: for all integers `a` and `b`, `ArbNum::multiply(ArbNum(a), ArbNum(b))`
denotes `a * b`; its magnitude, the result of `Unsigned::multiply`, is the canonical
digit sequence of `|a| * |b|` and its sign field is the product of the operands'
sign fields. -/
theorem C14_multiply_product (a b : Int) :
    ArbNum.toZ (ArbNum.multiply (ArbNum.ofInt a) (ArbNum.ofInt b)) = a * b ∧
      (ArbNum.multiply (ArbNum.ofInt a) (ArbNum.ofInt b)).isNormal = true ∧
      (ArbNum.multiply (ArbNum.ofInt a) (ArbNum.ofInt b)).mUnsigned =
        Unsigned.multiply (ArbNum.ofInt a).mUnsigned (ArbNum.ofInt b).mUnsigned ∧
      Unsigned.Canonical (ArbNum.multiply (ArbNum.ofInt a) (ArbNum.ofInt b)).mUnsigned ∧
      Unsigned.value (ArbNum.multiply (ArbNum.ofInt a) (ArbNum.ofInt b)).mUnsigned = |a| * |b| ∧
      (ArbNum.multiply (ArbNum.ofInt a) (ArbNum.ofInt b)).mSign =
        (ArbNum.ofInt a).mSign * (ArbNum.ofInt b).mSign := by
  have ha := (ArbNum.ofInt_canonical a).1
  have hb := (ArbNum.ofInt_canonical b).1
  obtain ⟨hw, hz, hs⟩ := ArbNum.multiply_signed_spec ha hb
  obtain ⟨hc, hv⟩ := Unsigned.multiply_spec ha.2.2.1 hb.2.2.1
  refine ⟨?_, rfl, rfl, hc, ?_, hs⟩
  · rw [hz, ArbNum.toZ_ofInt, ArbNum.toZ_ofInt]
  · show Unsigned.value (Unsigned.multiply _ _) = _
    rw [hv, ArbNum.ofInt_value, ArbNum.ofInt_value]

/-- C15 (code at the failing input): with `a = -1`, `b = 5`, `c = -5` the left side
`a * (b + c)` is a zero of negative sign, the right side `a*b + a*c` is a zero of
positive sign, and `ArbNum::compare` returns -1 instead of 0. -/
theorem C15_distributivity_negative_zero :
    ArbNum.multiply (ArbNum.ofInt (-1)) (ArbNum.add (ArbNum.ofInt 5) (ArbNum.ofInt (-5))) =
        ⟨SpecialType.SPEC_NORMAL, -1, [0]⟩ ∧
      ArbNum.add (ArbNum.multiply (ArbNum.ofInt (-1)) (ArbNum.ofInt 5))
          (ArbNum.multiply (ArbNum.ofInt (-1)) (ArbNum.ofInt (-5))) =
        ⟨SpecialType.SPEC_NORMAL, 1, [0]⟩ ∧
      ArbNum.compare
          (ArbNum.multiply (ArbNum.ofInt (-1)) (ArbNum.add (ArbNum.ofInt 5) (ArbNum.ofInt (-5))))
          (ArbNum.add (ArbNum.multiply (ArbNum.ofInt (-1)) (ArbNum.ofInt 5))
            (ArbNum.multiply (ArbNum.ofInt (-1)) (ArbNum.ofInt (-5)))) = -1 := by
  have h1 : ArbNum.add (ArbNum.ofInt 5) (ArbNum.ofInt (-5)) = ⟨SpecialType.SPEC_NORMAL, 1, [0]⟩ := by
    rw [ArbNum.add_pos_neg (by decide) (by decide), ArbNum.subtract_pos (by decide) (by decide)]
    decide
  have h2 : ArbNum.add (ArbNum.multiply (ArbNum.ofInt (-1)) (ArbNum.ofInt 5))
      (ArbNum.multiply (ArbNum.ofInt (-1)) (ArbNum.ofInt (-5))) =
      ⟨SpecialType.SPEC_NORMAL, 1, [0]⟩ := by
    rw [ArbNum.add_neg_pos (by decide) (by decide), ArbNum.subtract_pos (by decide) (by decide)]
    decide
  rw [h1, h2]
  decide

/-- C16: for all integers `a` and `b`, whatever their signs,
`ArbNum::add(ArbNum(a), ArbNum(b))` denotes `a + b`. -/
theorem C16_add_denotes_sum (a b : Int) :
    ArbNum.toZ (ArbNum.add (ArbNum.ofInt a) (ArbNum.ofInt b)) = a + b ∧
      ArbNum.WellFormed (ArbNum.add (ArbNum.ofInt a) (ArbNum.ofInt b)) := by
  obtain ⟨hw, hz, _⟩ := ArbNum.add_spec (ArbNum.ofInt_canonical a).1 (ArbNum.ofInt_canonical b).1
  rw [ArbNum.toZ_ofInt, ArbNum.toZ_ofInt] at hz
  exact ⟨hz, hw⟩

/-- C17: for all integers `a` and `b`, whatever their signs and whichever magnitude
is larger, `ArbNum::subtract(ArbNum(a), ArbNum(b))` denotes `a - b`. -/
theorem C17_subtract_denotes_difference (a b : Int) :
    ArbNum.toZ (ArbNum.subtract (ArbNum.ofInt a) (ArbNum.ofInt b)) = a - b ∧
      ArbNum.WellFormed (ArbNum.subtract (ArbNum.ofInt a) (ArbNum.ofInt b)) := by
  obtain ⟨hw, hz, _⟩ :=
    ArbNum.subtract_spec (ArbNum.ofInt_canonical a).1 (ArbNum.ofInt_canonical b).1
  rw [ArbNum.toZ_ofInt, ArbNum.toZ_ofInt] at hz
  exact ⟨hz, hw⟩

/-- C18: for all integers `a` and `b`, `ArbNum::compare(ArbNum(a), ArbNum(b))` is
-1 when `a < b`, 0 when `a = b` and 1 when `a > b`. -/
theorem C18_compare_orders (a b : Int) :
    ArbNum.compare (ArbNum.ofInt a) (ArbNum.ofInt b) =
      if a < b then -1 else if a > b then 1 else 0 := by
  rw [ArbNum.compare_signed_spec (ArbNum.ofInt_canonical a) (ArbNum.ofInt_canonical b),
    ArbNum.toZ_ofInt, ArbNum.toZ_ofInt]

/-- The comparison of operands of different digit lengths and of two negative
operands, evaluated. -/
theorem compare_examples :
    ArbNum.compare (ArbNum.ofInt 9) (ArbNum.ofInt 10000) = -1 ∧
      ArbNum.compare (ArbNum.ofInt (-9923)) (ArbNum.ofInt (-88)) = -1 ∧
      ArbNum.compare (ArbNum.ofInt (-88)) (ArbNum.ofInt (-9923)) = 1 ∧
      ArbNum.compare (ArbNum.ofInt (-88)) (ArbNum.ofInt (-88)) = 0 := by
  decide

/-- C19: for every integer `a` and every integer `n ≥ 0`,
`ArbNum::pow(ArbNum(a), ArbNum(n))` denotes `a` to the power `n`; `pow(a, 0)` is 1,
and a negative base gives a negative sign exactly when `n` is odd. -/
theorem C19_pow_denotes_power (a n : Int) (hn : 0 ≤ n) :
    ∃ p, ArbNum.pow (ArbNum.ofInt a) (ArbNum.ofInt n) = some p ∧ ArbNum.WellFormed p ∧
      ArbNum.toZ p = a ^ n.toNat ∧ (n = 0 → p = ArbNum.ofInt 1) ∧
      (a < 0 → (p.mSign = -1 ↔ n % 2 = 1)) := by
  have hnv : Unsigned.value (ArbNum.ofInt n).mUnsigned = n := by
    rw [ArbNum.ofInt_value, abs_of_nonneg hn]
  obtain ⟨p, hp, hw, hz, hs⟩ :=
    ArbNum.pow_toZ (ArbNum.ofInt_canonical a).1 (ArbNum.ofInt_canonical n).1.2.2.1
  rw [hnv, ArbNum.toZ_ofInt] at hz
  rw [hnv, ArbNum.ofInt_isNegative] at hs
  refine ⟨p, hp, hw, hz, ?_, ?_⟩
  · intro h0
    subst h0
    have hsign : p.mSign = 1 := by
      rcases hw.2.1 with h | h
      · exact h
      · exact absurd (hs.mp h).2 (by decide)
    have hval : Unsigned.value p.mUnsigned = 1 := by
      rw [ArbNum.toZ, hsign] at hz
      simpa using hz
    have hu : p.mUnsigned = [1] :=
      Unsigned.canonical_unique hw.2.2 (by decide) (by rw [hval]; decide)
    have hone : ArbNum.ofInt 1 = ⟨SpecialType.SPEC_NORMAL, 1, [1]⟩ := by decide
    rw [hone]
    cases p with
    | mk sp sg u =>
      simp only at hsign hu
      have hsp : sp = SpecialType.SPEC_NORMAL := hw.1
      rw [hsp, hsign, hu]
  · intro ha
    rw [hs]
    constructor
    · rintro ⟨_, h⟩; omega
    · intro h; exact ⟨ha, by omega⟩

/-- C19 on `2 ^ 10`. -/
theorem C19_pow_denotes_power_witness :
    (0 : Int) ≤ 10 ∧
    ∃ p, ArbNum.pow (ArbNum.ofInt 2) (ArbNum.ofInt 10) = some p ∧ ArbNum.WellFormed p ∧
      ArbNum.toZ p = 2 ^ (10 : Int).toNat ∧ ((10 : Int) = 0 → p = ArbNum.ofInt 1) ∧
      ((2 : Int) < 0 → (p.mSign = -1 ↔ (10 : Int) % 2 = 1)) :=
  ⟨by decide, C19_pow_denotes_power 2 10 (by decide)⟩

/-- The scenarios of power: `2 ^ 10` is `1024`, `(-3) ^ 3` is `-27` and
`(-3) ^ 0` is `1`. -/
theorem pow_examples :
    ArbNum.pow (ArbNum.ofInt 2) (ArbNum.ofInt 10) =
        some ⟨SpecialType.SPEC_NORMAL, 1, [1, 0, 2, 4]⟩ ∧
      ArbNum.pow (ArbNum.ofInt (-3)) (ArbNum.ofInt 3) =
        some ⟨SpecialType.SPEC_NORMAL, -1, [2, 7]⟩ ∧
      ArbNum.pow (ArbNum.ofInt (-3)) (ArbNum.ofInt 0) =
        some ⟨SpecialType.SPEC_NORMAL, 1, [1]⟩ := by
  decide

/-- C20: for every integer `a` and every integer `k ≥ 0`, `pow(a, 2k)` and
`pow(a * a, k)` compare equal under `ArbNum::compare`. -/
theorem C20_pow_square (a k : Int) (hk : 0 ≤ k) :
    ∃ x y, ArbNum.pow (ArbNum.ofInt a) (ArbNum.ofInt (2 * k)) = some x ∧
      ArbNum.pow (ArbNum.multiply (ArbNum.ofInt a) (ArbNum.ofInt a)) (ArbNum.ofInt k) = some y ∧
      ArbNum.compare x y = 0 := by
  have ha := (ArbNum.ofInt_canonical a).1
  obtain ⟨hm, hmz, hms⟩ := ArbNum.multiply_signed_spec ha ha
  have hkv : Unsigned.value (ArbNum.ofInt k).mUnsigned = k := by
    rw [ArbNum.ofInt_value, abs_of_nonneg hk]
  have h2kv : Unsigned.value (ArbNum.ofInt (2 * k)).mUnsigned = 2 * k := by
    rw [ArbNum.ofInt_value, abs_of_nonneg (by omega)]
  obtain ⟨x, hx, hxw, hxz, hxs⟩ :=
    ArbNum.pow_toZ ha (ArbNum.ofInt_canonical (2 * k)).1.2.2.1
  obtain ⟨y, hy, hyw, hyz, hys⟩ :=
    ArbNum.pow_toZ hm (ArbNum.ofInt_canonical k).1.2.2.1
  rw [h2kv] at hxz hxs
  rw [hkv] at hyz hys
  have hxsign : x.mSign = 1 := by
    rcases hxw.2.1 with h | h
    · exact h
    · have := (hxs.mp h).2
      omega
  have hmsign : (ArbNum.multiply (ArbNum.ofInt a) (ArbNum.ofInt a)).mSign = 1 := by
    rw [hms]
    rcases ha.2.1 with h | h <;> rw [h] <;> decide
  have hysign : y.mSign = 1 := by
    rcases hyw.2.1 with h | h
    · exact h
    · have := ((ArbNum.isNegative_iff hm).mp (hys.mp h).1).1
      omega
  refine ⟨x, y, hx, hy, ?_⟩
  rw [ArbNum.compare_signed_eq_zero_iff hxw hyw]
  refine ⟨by rw [hxsign, hysign], ?_⟩
  have hxv : Unsigned.value x.mUnsigned = ArbNum.toZ x := by rw [ArbNum.toZ, hxsign]; ring
  have hyv : Unsigned.value y.mUnsigned = ArbNum.toZ y := by rw [ArbNum.toZ, hysign]; ring
  rw [hxv, hyv, hxz, hyz, hmz]
  have hexp : (2 * k).toNat = 2 * k.toNat := by omega
  rw [hexp, pow_mul, sq]

/-- C20 on `a = -3`, `k = 2`. -/
theorem C20_pow_square_witness :
    (0 : Int) ≤ 2 ∧
    ∃ x y, ArbNum.pow (ArbNum.ofInt (-3)) (ArbNum.ofInt (2 * 2)) = some x ∧
      ArbNum.pow (ArbNum.multiply (ArbNum.ofInt (-3)) (ArbNum.ofInt (-3))) (ArbNum.ofInt 2) =
        some y ∧
      ArbNum.compare x y = 0 :=
  ⟨by decide, C20_pow_square (-3) 2 (by decide)⟩

/-! ## Greatest common divisor -/

namespace Unsigned

/-- `Unsigned::divide` and `Unsigned::mod` of a canonical dividend by a nonzero
divisor: the canonical digits of quotient and remainder. -/
theorem divide_mod_spec {a b : List Int} (ha : Canonical a) (hb : IsDigits b)
    (hpos : 0 < value b) :
    ∃ q r, divide a b = some q ∧ mod a b = some r ∧ Canonical q ∧ Canonical r ∧
      value q = value a / value b ∧ value r = value a % value b := by
  obtain ⟨q, r, heq, hq, hr, hv, h0, hlt⟩ := divideWithRemFast_of_canonical ha hb hpos
  have hqr : value a / value b = value q ∧ value a % value b = value r :=
    (Int.ediv_emod_unique hpos).mpr ⟨by linarith, h0, hlt⟩
  exact ⟨q, r, by simp [divide, heq], by simp [mod, heq], hq, hr, hqr.1.symm, hqr.2.symm⟩

theorem canonical_zero_eq {a : List Int} (ha : Canonical a) (h0 : value a = 0) : a = [0] :=
  canonical_unique ha (by decide) (by rw [h0]; decide)

/-- The recursion of `Unsigned::gcd` returns the canonical digits of the greatest
common divisor; with a zero first argument it returns the second argument. -/
theorem gcdLoop_spec :
    ∀ (fuel : Nat) (a b : List Int), Canonical a → Canonical b → value a < fuel →
      ∃ g, gcdLoop fuel a b = some g ∧ Canonical g ∧
        value g = ((Nat.gcd (value a).toNat (value b).toNat : Nat) : Int) ∧
        (value a = 0 → g = b) := by
  intro fuel
  induction fuel with
  | zero =>
    intro a b ha _ hlt
    have := value_nonneg ha.1
    simp at hlt
    omega
  | succ fuel ih =>
    intro a b ha hb hlt
    have han := value_nonneg ha.1
    have hbn := value_nonneg hb.1
    simp only [gcdLoop]
    by_cases hz : isZero a = true
    · have hv : value a = 0 := (isZero_iff ha.1).mp hz
      refine ⟨b, by simp [hz], hb, ?_, fun _ => rfl⟩
      rw [hv]
      simp only [Int.toNat_zero, Nat.gcd_zero_left]
      omega
    · have hv : value a ≠ 0 := fun h0 => hz ((isZero_iff ha.1).mpr h0)
      obtain ⟨q, r, _, hmod, _, hr, _, hrv⟩ := divide_mod_spec hb ha.1 (by omega)
      have hrlt : value r < value a := by rw [hrv]; exact Int.emod_lt_of_pos _ (by omega)
      have hrn := value_nonneg hr.1
      obtain ⟨g, hg, hgc, hgv, _⟩ := ih r a hr ha (by push_cast at hlt; omega)
      refine ⟨g, by simp [hz, hmod, hg], hgc, ?_, fun h0 => absurd h0 hv⟩
      rw [hgv, Nat.gcd_rec (value a).toNat (value b).toNat]
      congr 2
      have h1 : ((value b).toNat : Int) = value b := Int.toNat_of_nonneg hbn
      have h2 : ((value a).toNat : Int) = value a := Int.toNat_of_nonneg han
      have h3 : (((value b).toNat % (value a).toNat : Nat) : Int) = value r := by
        rw [Int.natCast_mod, h1, h2, hrv]
      omega

/-- `Unsigned::gcd` on canonical magnitudes. -/
theorem gcd_spec {a b : List Int} (ha : Canonical a) (hb : Canonical b) :
    ∃ g, gcd a b = some g ∧ Canonical g ∧
      value g = ((Nat.gcd (value a).toNat (value b).toNat : Nat) : Int) ∧
      (value a = 0 → g = b) := by
  have han := value_nonneg ha.1
  exact gcdLoop_spec _ a b ha hb (by push_cast; omega)

/-- `Unsigned::gcd(a, 0)` is `a`, for a canonical magnitude `a`. -/
theorem gcd_zero_right {a : List Int} (ha : Canonical a) : gcd a [0] = some a := by
  have han := value_nonneg ha.1
  by_cases hv : value a = 0
  · obtain ⟨g, hg, _, _, hgb⟩ := gcd_spec ha (b := [0]) (by decide)
    rw [hg, hgb hv, canonical_zero_eq ha hv]
  · have hz : ¬ isZero a = true := fun h => hv ((isZero_iff ha.1).mp h)
    obtain ⟨_, r, _, hmod, _, hr, _, hrv⟩ :=
      divide_mod_spec (a := [0]) (b := a) (by decide) ha.1 (by omega)
    have hr0 : r = [0] := by
      apply canonical_zero_eq hr
      rw [hrv]
      simp [value_singleton]
    obtain ⟨m, hm⟩ : ∃ m, (value a).toNat = m + 1 := ⟨(value a).toNat - 1, by omega⟩
    simp only [gcd, hm, gcdLoop, hz, hmod, hr0]
    simp [isZero]


/-- `Unsigned::gcd(a, 0)` for every digit sequence `a`, the empty one and leading
zeros included: `a` itself, or the second operand 0 when `a` is zero. -/
theorem gcd_zero_right_digits {a : List Int} (ha : IsDigits a) :
    gcd a [0] = some (if isZero a then [0] else a) := by
  have han := value_nonneg ha
  by_cases hz : isZero a = true
  · simp [gcd, gcdLoop, hz]
  · have hv : value a ≠ 0 := fun h => hz ((isZero_iff ha).mpr h)
    obtain ⟨_, r, _, hmod, _, hr, _, hrv⟩ :=
      divide_mod_spec (a := [0]) (b := a) (by decide) ha (by omega)
    have hr0 : r = [0] := by
      apply canonical_zero_eq hr
      rw [hrv]
      simp [value_singleton]
    obtain ⟨m, hm⟩ : ∃ m, (value a).toNat = m + 1 := ⟨(value a).toNat - 1, by omega⟩
    simp only [gcd, hm, gcdLoop, hz, hmod, hr0]
    simp [isZero]
end Unsigned

namespace ArbNum

theorem ofInt_zero_magnitude : (ofInt 0).mUnsigned = [0] := by decide

theorem abs_wellFormed {a : ArbNum} (ha : WellFormed a) : Canonical (abs a) :=
  ⟨⟨rfl, Or.inl rfl, ha.2.2⟩, fun _ => rfl⟩

/-- `ArbNum::gcd` on well-formed operands: the canonical positive value denoting
the greatest common divisor of the two magnitudes. -/
theorem gcd_signed_spec {a b : ArbNum} (ha : WellFormed a) (hb : WellFormed b) :
    ∃ g, gcd a b = some g ∧ Canonical g ∧ toZ g = ((Int.gcd (toZ a) (toZ b) : Nat) : Int) := by
  obtain ⟨_, hsa, hca⟩ := ha
  obtain ⟨_, hsb, hcb⟩ := hb
  obtain ⟨g, hg, hgc, hgv, _⟩ := Unsigned.gcd_spec hca hcb
  have hva := Unsigned.value_nonneg hca.1
  have hvb := Unsigned.value_nonneg hcb.1
  refine ⟨ofUnsigned g, by simp [gcd, hg], ⟨⟨rfl, Or.inl rfl, hgc⟩, fun _ => rfl⟩, ?_⟩
  show (1 : Int) * Unsigned.value g = _
  rw [one_mul, hgv, Int.gcd]
  congr 2
  · show (Unsigned.value a.mUnsigned).toNat = (a.mSign * Unsigned.value a.mUnsigned).natAbs
    rcases hsa with h | h <;> rw [h] <;> omega
  · show (Unsigned.value b.mUnsigned).toNat = (b.mSign * Unsigned.value b.mUnsigned).natAbs
    rcases hsb with h | h <;> rw [h] <;> omega

end ArbNum

/-- C21, as stated, fails: `gcd(-5, 0)` is 5, and `5 == -5` is false. -/
theorem C21_counterexample :
    ArbNum.gcd (ArbNum.ofInt (-5)) (ArbNum.ofInt 0) = some (ArbNum.ofInt 5) ∧
      ArbNum.compare (ArbNum.ofInt 5) (ArbNum.ofInt (-5)) ≠ 0 := by
  decide

/-- C21, amended: for every signed value `a` whose magnitude is a sequence of
decimal digits, the empty sequence and leading zeros included, `gcd(a, 0)` is the
Normal value of positive sign whose magnitude is that of `a`, or the single digit
0 when the magnitude of `a` is zero; it is `abs(a)` when the magnitude of `a` is
not zero, and it compares equal to `a` exactly when the sign field of `a` is 1. -/
theorem C21_gcd_zero_magnitude (a : ArbNum) (ha : Unsigned.IsDigits a.mUnsigned) :
    ∃ g, ArbNum.gcd a (ArbNum.ofInt 0) = some g ∧
      g = ⟨SpecialType.SPEC_NORMAL, 1, if a.isZero then [0] else a.mUnsigned⟩ ∧
      Unsigned.value g.mUnsigned = Unsigned.value a.mUnsigned ∧
      (a.isZero = false → g = ArbNum.abs a) ∧
      (ArbNum.compare g a = 0 ↔ a.mSign = 1) := by
  have hg : ArbNum.gcd a (ArbNum.ofInt 0) =
      some ⟨SpecialType.SPEC_NORMAL, 1, if a.isZero then [0] else a.mUnsigned⟩ := by
    simp only [ArbNum.gcd, ArbNum.ofInt_zero_magnitude, Unsigned.gcd_zero_right_digits ha,
      Option.map_some', ArbNum.isZero]
    rfl
  have hval : Unsigned.value (if a.isZero then [0] else a.mUnsigned) =
      Unsigned.value a.mUnsigned := by
    by_cases hz : a.isZero = true
    · rw [if_pos hz, (Unsigned.isZero_iff ha).mp hz]
      rfl
    · rw [if_neg hz]
  have hdig : Unsigned.IsDigits (if a.isZero then [0] else a.mUnsigned) := by
    by_cases hz : a.isZero = true
    · rw [if_pos hz]; decide
    · rw [if_neg hz]; exact ha
  refine ⟨_, hg, rfl, hval, fun hz => ?_, ?_⟩
  · simp [hz, ArbNum.abs, ArbNum.ofUnsigned, ArbNum.new, ArbNum.clear]
  · have hnn : ArbNum.isNegative
        ⟨SpecialType.SPEC_NORMAL, 1, if a.isZero then [0] else a.mUnsigned⟩ = false := by
      simp [ArbNum.isNegative]
    simp only [ArbNum.compare, hnn]
    constructor
    · intro h
      by_contra hs
      rcases lt_or_gt_of_ne hs with h1 | h1
      · rw [if_neg (by omega), if_pos (by omega)] at h
        exact absurd h (by decide)
      · rw [if_pos h1] at h
        exact absurd h (by decide)
    · intro hs
      rw [hs]
      simp only [lt_self_iff_false, gt_iff_lt, if_false, Bool.false_eq_true]
      exact (Unsigned.compare_eq_zero_iff hdig ha).mpr hval

theorem C21_gcd_zero_magnitude_witness :
    Unsigned.IsDigits (ArbNum.saveNumber []).mUnsigned ∧
      ∃ g, ArbNum.gcd (ArbNum.saveNumber []) (ArbNum.ofInt 0) = some g ∧
        g = ⟨SpecialType.SPEC_NORMAL, 1,
          if (ArbNum.saveNumber []).isZero then [0] else (ArbNum.saveNumber []).mUnsigned⟩ ∧
        Unsigned.value g.mUnsigned = Unsigned.value (ArbNum.saveNumber []).mUnsigned ∧
        ((ArbNum.saveNumber []).isZero = false → g = ArbNum.abs (ArbNum.saveNumber [])) ∧
        (ArbNum.compare g (ArbNum.saveNumber []) = 0 ↔ (ArbNum.saveNumber []).mSign = 1) :=
  ⟨by decide, C21_gcd_zero_magnitude (ArbNum.saveNumber []) (by decide)⟩

/-- C22: for all integers `a` and `b`, `ArbNum::gcd(ArbNum(a), ArbNum(b))` returns
a result (the recursion ends within the budget), in canonical form, denoting the
greatest common divisor of `|a|` and `|b|`; `gcd(0, 0)` is 0 and `gcd(48, 18)` is
6. -/
theorem C22_gcd_denotes_gcd :
    (∀ a b : Int, ∃ g, ArbNum.gcd (ArbNum.ofInt a) (ArbNum.ofInt b) = some g ∧
      ArbNum.Canonical g ∧ ArbNum.toZ g = ((Nat.gcd a.natAbs b.natAbs : Nat) : Int)) ∧
    ArbNum.gcd (ArbNum.ofInt 0) (ArbNum.ofInt 0) = some (ArbNum.ofInt 0) ∧
    ArbNum.gcd (ArbNum.ofInt 48) (ArbNum.ofInt 18) = some (ArbNum.ofInt 6) := by
  refine ⟨fun a b => ?_, by decide, by decide⟩
  obtain ⟨g, hg, hc, hv⟩ :=
    ArbNum.gcd_signed_spec (ArbNum.ofInt_canonical a).1 (ArbNum.ofInt_canonical b).1
  refine ⟨g, hg, hc, ?_⟩
  rw [hv, ArbNum.toZ_ofInt, ArbNum.toZ_ofInt]
  rfl

/-! ## The halving pass digit by digit, and trimming -/

namespace Unsigned

/-- The digits `halfLoop` appends: each is five times the parity of the previous
digit plus half of the current digit. -/
theorem halfLoop_zipWith (rest : List Int) :
    ∀ first : Int, IsDigits (first :: rest) →
      halfLoop (first :: rest) =
        some (List.zipWith (fun prev cur => 5 * (prev % 2) + cur / 2) (first :: rest) rest) := by
  induction rest with
  | nil =>
    intro first _
    rfl
  | cons second rest ih =>
    intro first h
    have hf := isDigits_cons.mp h
    have hs := isDigits_cons.mp hf.2
    simp only [halfLoop, halfDigit_spec hf.1 hs.1, ih second hf.2, List.zipWith_cons_cons]

theorem remainder_digit {l : Int} (h0 : 0 ≤ l) (h9 : l ≤ 9) :
    (trim (if isOddInt l then gUnsignedOne else gUnsignedZero) = [1] ↔ l % 2 = 1) ∧
      (trim (if isOddInt l then gUnsignedOne else gUnsignedZero) = [0] ↔ l % 2 = 0) := by
  interval_cases l <;> decide

/-- Leading zeros are all that `trim` removes. -/
theorem trim_prefix (ds : List Int) : ∃ k, ds = List.replicate k 0 ++ trim ds := by
  induction ds with
  | nil => exact ⟨0, rfl⟩
  | cons d ds ih =>
    cases ds with
    | nil => exact ⟨0, rfl⟩
    | cons e rest =>
      by_cases hd : d = 0
      · obtain ⟨k, hk⟩ := ih
        refine ⟨k + 1, ?_⟩
        simp only [trim, hd, if_true, List.replicate_succ, List.cons_append]
        rw [← hk]
      · exact ⟨0, by simp [trim, hd]⟩

theorem trim_all_zero {ds : List Int} (hne : ds ≠ []) (h0 : ∀ d ∈ ds, d = 0) :
    trim ds = [0] := by
  induction ds with
  | nil => exact absurd rfl hne
  | cons d ds ih =>
    cases ds with
    | nil => simp [trim, h0 d (by simp)]
    | cons e rest =>
      have hd : d = 0 := h0 d (by simp)
      simp only [trim, hd, if_true]
      exact ih (by simp) (fun x hx => h0 x (List.mem_cons_of_mem _ hx))

/-- A canonical sequence is the shortest digit sequence of its value. -/
theorem canonical_shortest {c e : List Int} (hc : Canonical c) (he : IsDigits e) (hne : e ≠ [])
    (hv : value e = value c) : c.length ≤ e.length := by
  have hte := trim_canonical he hne
  have : trim e = c := canonical_unique hte hc (by rw [trim_value, hv])
  rw [← this]
  exact trim_length_le e

end Unsigned

/-- C29: for every non-empty digit sequence `a`, `Unsigned::divideByTwoWithRem(a)`
returns the canonical quotient `value(a) / 2` and the canonical remainder
`value(a) mod 2`; the remainder is 1 exactly when the last digit of `a` is odd;
and the quotient digits before trimming are, position by position, five times the
parity of the previous digit (0 in front of the first) plus half of the current
digit. -/
theorem C29_divideByTwoWithRem_halves (a : List Int) (h : Unsigned.IsDigits a) (hne : a ≠ []) :
    ∃ q r l, Unsigned.divideByTwoWithRem a = some ⟨q, r⟩ ∧
      Unsigned.Canonical q ∧ Unsigned.Canonical r ∧
      Unsigned.value q = Unsigned.value a / 2 ∧ Unsigned.value r = Unsigned.value a % 2 ∧
      a.getLast? = some l ∧ (r = [1] ↔ l % 2 = 1) ∧ (r = [0] ↔ l % 2 = 0) ∧
      q = Unsigned.trim
        (0 :: List.zipWith (fun prev cur => 5 * (prev % 2) + cur / 2) (0 :: a) a) := by
  obtain ⟨q, r, heq, hq, hr, hv, h0, h2⟩ := Unsigned.divideByTwoWithRem_spec h hne
  have hz := Unsigned.halfLoop_zipWith a 0 (Unsigned.isDigits_cons.mpr ⟨by omega, h⟩)
  obtain ⟨l, hl⟩ : ∃ l, a.getLast? = some l := by
    cases hla : a.getLast? with
    | none => exact absurd (List.getLast?_eq_none_iff.mp hla) hne
    | some l => exact ⟨l, rfl⟩
  have hld := h l (List.mem_of_getLast?_eq_some hl)
  have hrd := Unsigned.remainder_digit hld.1 hld.2
  simp only [Unsigned.divideByTwoWithRem, hz, hl, Option.some.injEq,
    UnsignedDivide.mk.injEq] at heq
  obtain ⟨hqe, hre⟩ := heq
  refine ⟨q, r, l, ?_, hq, hr, by omega, by omega, hl, ?_, ?_, ?_⟩
  · simp only [Unsigned.divideByTwoWithRem, hz, hl, hqe, hre]
  · rw [← hre]; exact hrd.1
  · rw [← hre]; exact hrd.2
  · rw [← hqe]; rfl

theorem C29_divideByTwoWithRem_halves_witness :
    Unsigned.IsDigits [3, 7, 5] ∧ ([3, 7, 5] : List Int) ≠ [] ∧
      ∃ q r l, Unsigned.divideByTwoWithRem [3, 7, 5] = some ⟨q, r⟩ ∧
        Unsigned.Canonical q ∧ Unsigned.Canonical r ∧
        Unsigned.value q = Unsigned.value [3, 7, 5] / 2 ∧
        Unsigned.value r = Unsigned.value [3, 7, 5] % 2 ∧
        ([3, 7, 5] : List Int).getLast? = some l ∧ (r = [1] ↔ l % 2 = 1) ∧
        (r = [0] ↔ l % 2 = 0) ∧
        q = Unsigned.trim
          (0 :: List.zipWith (fun prev cur => 5 * (prev % 2) + cur / 2) (0 :: [3, 7, 5])
            [3, 7, 5]) :=
  ⟨by decide, by decide, C29_divideByTwoWithRem_halves [3, 7, 5] (by decide) (by decide)⟩

/-- C30, as stated, fails on the empty digit sequence: `Unsigned::trim` leaves it
empty, so no digit remains. -/
theorem C30_counterexample :
    Unsigned.IsDigits [] ∧ Unsigned.trim [] = [] ∧ (Unsigned.trim []).length = 0 := by
  decide

/-- C30, amended: for every non-empty digit sequence `d`, `Unsigned::trim` gives
the canonical digit sequence of the same value: only leading zeros are removed,
the result is non-empty and starts with 0 only when it is the single digit 0, no
non-empty digit sequence of the same value is shorter, an all-zero sequence
becomes `[0]`, and trimming again changes nothing; the empty sequence stays
empty. -/
theorem C30_trim_minimal (d : List Int) (h : Unsigned.IsDigits d) (hne : d ≠ []) :
    Unsigned.Canonical (Unsigned.trim d) ∧
      Unsigned.value (Unsigned.trim d) = Unsigned.value d ∧
      (∃ k, d = List.replicate k 0 ++ Unsigned.trim d) ∧
      (∀ e, Unsigned.IsDigits e → e ≠ [] → Unsigned.value e = Unsigned.value d →
        (Unsigned.trim d).length ≤ e.length) ∧
      ((∀ x ∈ d, x = 0) → Unsigned.trim d = [0]) ∧
      Unsigned.trim (Unsigned.trim d) = Unsigned.trim d ∧
      Unsigned.trim [] = [] := by
  have hc := Unsigned.trim_canonical h hne
  refine ⟨hc, Unsigned.trim_value d, Unsigned.trim_prefix d, ?_,
    Unsigned.trim_all_zero hne, Unsigned.trim_trim d, rfl⟩
  intro e he hene hv
  exact Unsigned.canonical_shortest hc he hene (by rw [hv, Unsigned.trim_value])

theorem C30_trim_minimal_witness :
    Unsigned.IsDigits [0, 0, 4, 0] ∧ ([0, 0, 4, 0] : List Int) ≠ [] ∧
      (Unsigned.Canonical (Unsigned.trim [0, 0, 4, 0]) ∧
      Unsigned.value (Unsigned.trim [0, 0, 4, 0]) = Unsigned.value [0, 0, 4, 0] ∧
      (∃ k, ([0, 0, 4, 0] : List Int) = List.replicate k 0 ++ Unsigned.trim [0, 0, 4, 0]) ∧
      (∀ e, Unsigned.IsDigits e → e ≠ [] → Unsigned.value e = Unsigned.value [0, 0, 4, 0] →
        (Unsigned.trim [0, 0, 4, 0]).length ≤ e.length) ∧
      ((∀ x ∈ ([0, 0, 4, 0] : List Int), x = 0) → Unsigned.trim [0, 0, 4, 0] = [0]) ∧
      Unsigned.trim (Unsigned.trim [0, 0, 4, 0]) = Unsigned.trim [0, 0, 4, 0] ∧
      Unsigned.trim [] = []) :=
  ⟨by decide, by decide, C30_trim_minimal [0, 0, 4, 0] (by decide) (by decide)⟩

/-! ## Integer square root -/

namespace Unsigned

/-- `Unsigned::divide` of a non-empty digit sequence by a nonzero divisor. -/
theorem divide_digits {a b : List Int} (ha : IsDigits a) (hne : a ≠ []) (hb : IsDigits b)
    (hpos : 0 < value b) :
    ∃ q, divide a b = some q ∧ IsDigits q ∧ value q = value a / value b := by
  obtain ⟨q, r, heq, hq, _, hv, h0, hlt⟩ := divideWithRemFast_spec ha hb hpos (Or.inl hne)
  have hqr : value a / value b = value q ∧ value a % value b = value r :=
    (Int.ediv_emod_unique hpos).mpr ⟨by linarith, h0, hlt⟩
  exact ⟨q, by simp [divide, heq], hq, hqr.1.symm⟩

/-- One Newton step `half(x + s / x)` on a non-empty digit sequence `s` and a
canonical nonzero `x`. -/
theorem newton_step {s x : List Int} (hs : IsDigits s) (hne : s ≠ []) (hx : Canonical x)
    (hx1 : 1 ≤ value x) :
    ∃ q y, divide s x = some q ∧ half (add x q) = some y ∧ Canonical y ∧
      value y = (value x + value s / value x) / 2 := by
  obtain ⟨q, hdiv, hq, hqv⟩ := divide_digits hs hne hx.1 (by omega)
  obtain ⟨hsumd, hsumv, hsumc⟩ := addMutable_spec hx.1 hq
  obtain ⟨y, hy, hyc, hyv⟩ := half_spec (n := add x q) hsumd (hsumc (Or.inl hx.2.1)).2.1
  refine ⟨q, y, hdiv, hy, hyc, ?_⟩
  rw [hyv]
  show value (addMutable x q) / 2 = _
  rw [hsumv, hqv]

/-- The arithmetic of one Newton step: the next iterate still lies above the
root. -/
theorem newton_upper {s x : Int} (hx : 1 ≤ x) (hs : 0 ≤ s) :
    s < ((x + s / x) / 2 + 1) * ((x + s / x) / 2 + 1) := by
  have h1 := Int.ediv_add_emod s x
  have h2 := Int.emod_nonneg s (show x ≠ 0 by omega)
  have h3 := Int.emod_lt_of_pos s (show 0 < x by omega)
  have hq0 : 0 ≤ s / x := Int.ediv_nonneg hs (by omega)
  obtain ⟨q, hq⟩ : ∃ q, q = s / x := ⟨_, rfl⟩
  obtain ⟨y, hy⟩ : ∃ y, y = (x + q) / 2 := ⟨_, rfl⟩
  rw [← hq] at h1 hq0 ⊢
  rw [← hy]
  have hy1 : x + q ≤ 2 * y + 1 := by omega
  have hlt : s < x * (q + 1) := by nlinarith
  have hamgm : 4 * (x * (q + 1)) ≤ (x + q + 1) * (x + q + 1) := by nlinarith [sq_nonneg (x - (q + 1))]
  have hy0 : 0 ≤ y := by omega
  nlinarith

/-- The arithmetic of the loop exit: an iterate that Newton's step does not
lower lies below the root. -/
theorem newton_lower {s x : Int} (hx : 1 ≤ x) (hexit : x ≤ (x + s / x) / 2) :
    x * x ≤ s := by
  have h1 := Int.ediv_add_emod s x
  have h2 := Int.emod_nonneg s (show x ≠ 0 by omega)
  have hq : x ≤ s / x := by omega
  nlinarith

/-- The `while (x1 < x0)` loop of `Unsigned::sqrt` ends within the budget at the
floor of the square root. -/
theorem sqrtLoop_spec {s : List Int} (hs : IsDigits s) (hne : s ≠ []) (hs1 : 1 ≤ value s) :
    ∀ (fuel : Nat) (x0 x1 : List Int), Canonical x0 → Canonical x1 → 1 ≤ value x0 →
      value s < (value x0 + 1) * (value x0 + 1) →
      value x1 = (value x0 + value s / value x0) / 2 → value x0 < fuel →
      ∃ r, sqrtLoop s fuel x0 x1 = some r ∧ Canonical r ∧
        value r * value r ≤ value s ∧ value s < (value r + 1) * (value r + 1) := by
  intro fuel
  induction fuel with
  | zero =>
    intro x0 x1 _ _ h1 _ _ hlt
    simp at hlt
    omega
  | succ fuel ih =>
    intro x0 x1 hx0 hx1 h1 hup hx1v hlt
    simp only [sqrtLoop]
    by_cases hc : compare x1 x0 < 0
    · have hlt1 : value x1 < value x0 := (compare_lt_iff hx1.1 hx0.1).mp hc
      have hq0 : 0 ≤ value s / value x0 := Int.ediv_nonneg (by omega) (by omega)
      have hx1ge : 1 ≤ value x1 := by
        rcases (show value x0 = 1 ∨ 2 ≤ value x0 by omega) with h | h
        · rw [h, Int.ediv_one] at hx1v
          omega
        · omega
      obtain ⟨q, x2, hdiv, hhalf, hx2c, hx2v⟩ := newton_step hs hne hx1 hx1ge
      have hup1 : value s < (value x1 + 1) * (value x1 + 1) := by
        rw [hx1v]
        exact newton_upper h1 (by omega)
      obtain ⟨r, hr, hrest⟩ := ih x1 x2 hx1 hx2c hx1ge hup1 hx2v (by push_cast at hlt; omega)
      exact ⟨r, by simp [hc, hdiv, hhalf, hr], hrest⟩
    · have hge : value x0 ≤ value x1 := by
        have := (compare_lt_iff hx1.1 hx0.1).not.mp hc
        omega
      rw [hx1v] at hge
      exact ⟨x0, by simp [hc], hx0, newton_lower h1 hge, hup⟩

end Unsigned

namespace Unsigned

/-- `Unsigned::sqrt` of a canonical magnitude: Newton's iteration ends and returns
the canonical digits of the floor of the square root. -/
theorem sqrt_spec {s : List Int} (hs : Canonical s) :
    ∃ r, sqrt s = some r ∧ Canonical r ∧
      value r * value r ≤ value s ∧ value s < (value r + 1) * (value r + 1) := by
  have hsn := value_nonneg hs.1
  obtain ⟨x0, hx0, hx0c, hx0v⟩ := half_spec hs.1 hs.2.1
  by_cases hz : isZero x0 = true
  · have hv0 : value x0 = 0 := (isZero_iff hx0c.1).mp hz
    have hs01 : value s = 0 ∨ value s = 1 := by omega
    refine ⟨s, by simp [sqrt, hx0, hz], hs, ?_, ?_⟩ <;> rcases hs01 with h | h <;> rw [h] <;> decide
  · have hv0 : value x0 ≠ 0 := fun h => hz ((isZero_iff hx0c.1).mpr h)
    have hx0n := value_nonneg hx0c.1
    have hx01 : 1 ≤ value x0 := by omega
    obtain ⟨q, x1, hdiv, hhalf, hx1c, hx1v⟩ := newton_step hs.1 hs.2.1 hx0c hx01
    have hup : value s < (value x0 + 1) * (value x0 + 1) := by
      have : value s ≤ 2 * value x0 + 1 := by omega
      nlinarith
    obtain ⟨r, hr, hrest⟩ := sqrtLoop_spec hs.1 hs.2.1 (by omega) ((value s).toNat + 1) x0 x1 hx0c hx1c
      hx01 hup hx1v (by push_cast; omega)
    exact ⟨r, by simp [sqrt, hx0, hz, hdiv, hhalf, hr], hrest⟩


/-- `Unsigned::sqrt` of every digit sequence, the empty one and leading zeros
included: Newton's iteration ends and returns digits denoting the floor of the
square root. -/
theorem sqrt_digits {s : List Int} (hs : IsDigits s) :
    ∃ r, sqrt s = some r ∧ IsDigits r ∧
      value r * value r ≤ value s ∧ value s < (value r + 1) * (value r + 1) := by
  by_cases hne : s = []
  · subst hne
    exact ⟨[], rfl, isDigits_nil, by decide, by decide⟩
  have hsn := value_nonneg hs
  obtain ⟨x0, hx0, hx0c, hx0v⟩ := half_spec hs hne
  by_cases hz : isZero x0 = true
  · have hv0 : value x0 = 0 := (isZero_iff hx0c.1).mp hz
    have hs01 : value s = 0 ∨ value s = 1 := by omega
    refine ⟨s, by simp [sqrt, hx0, hz], hs, ?_, ?_⟩ <;> rcases hs01 with h | h <;> rw [h] <;> decide
  · have hv0 : value x0 ≠ 0 := fun h => hz ((isZero_iff hx0c.1).mpr h)
    have hx0n := value_nonneg hx0c.1
    have hx01 : 1 ≤ value x0 := by omega
    obtain ⟨q, x1, hdiv, hhalf, hx1c, hx1v⟩ := newton_step hs hne hx0c hx01
    have hup : value s < (value x0 + 1) * (value x0 + 1) := by
      have : value s ≤ 2 * value x0 + 1 := by omega
      nlinarith
    obtain ⟨r, hr, hrc, hrest⟩ := sqrtLoop_spec hs hne (by omega) ((value s).toNat + 1) x0 x1
      hx0c hx1c hx01 hup hx1v (by push_cast; omega)
    exact ⟨r, by simp [sqrt, hx0, hz, hdiv, hhalf, hr], hrc.1, hrest⟩
end Unsigned

namespace ArbNum

/-- `ArbNum::sqrt` of a well-formed value that is not negative. -/
theorem sqrt_signed_spec {a : ArbNum} (ha : WellFormed a) (hn : a.isNegative = false) :
    ∃ r, sqrt a = some r ∧ Canonical r ∧ r.mSign = 1 ∧
      toZ r * toZ r ≤ Unsigned.value a.mUnsigned ∧
      Unsigned.value a.mUnsigned < (toZ r + 1) * (toZ r + 1) := by
  obtain ⟨r, hr, hrc, hlo, hhi⟩ := Unsigned.sqrt_spec ha.2.2
  refine ⟨ofUnsigned r, by simp [sqrt, hn, hr], ⟨⟨rfl, Or.inl rfl, hrc⟩, fun _ => rfl⟩, rfl, ?_, ?_⟩
  · show (1 * Unsigned.value r) * (1 * Unsigned.value r) ≤ _
    rw [one_mul]; exact hlo
  · show _ < (1 * Unsigned.value r + 1) * (1 * Unsigned.value r + 1)
    rw [one_mul]; exact hhi

theorem ofInt_not_negative {s : Int} (hs : 0 ≤ s) : (ofInt s).isNegative = false := by
  cases h : (ofInt s).isNegative with
  | false => rfl
  | true => exact absurd ((ofInt_isNegative s).mp h) (by omega)

end ArbNum

/-- C23: for every non-negative integer `s`, `ArbNum::sqrt(ArbNum(s))` returns a
result (the Newton loop ends within the budget), a canonical value `r` with
`r * r <= s < (r + 1) * (r + 1)`; and `sqrt(100000000)` is 10000. -/
theorem C23_sqrt_floor :
    (∀ s : Int, 0 ≤ s →
      ∃ r, ArbNum.sqrt (ArbNum.ofInt s) = some r ∧ ArbNum.Canonical r ∧
        0 ≤ ArbNum.toZ r ∧ ArbNum.toZ r * ArbNum.toZ r ≤ s ∧
        s < (ArbNum.toZ r + 1) * (ArbNum.toZ r + 1)) ∧
    ArbNum.sqrt (ArbNum.ofInt 100000000) = some (ArbNum.ofInt 10000) := by
  refine ⟨fun s hs => ?_, by decide⟩
  obtain ⟨r, hr, hrc, hsign, hlo, hhi⟩ :=
    ArbNum.sqrt_signed_spec (ArbNum.ofInt_canonical s).1 (ArbNum.ofInt_not_negative hs)
  rw [ArbNum.ofInt_value, abs_of_nonneg hs] at hlo hhi
  refine ⟨r, hr, hrc, ?_, hlo, hhi⟩
  show 0 ≤ r.mSign * Unsigned.value r.mUnsigned
  rw [hsign, one_mul]
  exact Unsigned.value_nonneg hrc.1.2.2.1

theorem C23_sqrt_floor_witness :
    (0 : Int) ≤ 30 ∧
      ∃ r, ArbNum.sqrt (ArbNum.ofInt 30) = some r ∧ ArbNum.Canonical r ∧
        0 ≤ ArbNum.toZ r ∧ ArbNum.toZ r * ArbNum.toZ r ≤ 30 ∧
        30 < (ArbNum.toZ r + 1) * (ArbNum.toZ r + 1) :=
  ⟨by decide, C23_sqrt_floor.1 30 (by decide)⟩

/-- C24: for every signed value `a` whose magnitude is a sequence of decimal
digits, the empty sequence and leading zeros included, and whatever its state,
`ArbNum::sqrt(a)` returns a value in the Error state when `a` is negative (negative
sign, nonzero magnitude), and returns a Normal value when `a` is not negative. -/
theorem C24_sqrt_negative_is_error (a : ArbNum) (ha : Unsigned.IsDigits a.mUnsigned) :
    (a.isNegative = true →
      ∃ r, ArbNum.sqrt a = some r ∧ r.isError = true ∧ r.isNormal = false) ∧
    (a.isNegative = false →
      ∃ r, ArbNum.sqrt a = some r ∧ r.isNormal = true ∧ r.isError = false) := by
  constructor
  · intro hn
    exact ⟨ArbNum.new.mkError, by simp [ArbNum.sqrt, hn], by decide, by decide⟩
  · intro hn
    obtain ⟨r, hr, _⟩ := Unsigned.sqrt_digits ha
    exact ⟨ArbNum.ofUnsigned r, by simp [ArbNum.sqrt, hn, hr], rfl, rfl⟩

theorem C24_sqrt_negative_is_error_witness :
    Unsigned.IsDigits (ArbNum.saveNumber []).mUnsigned ∧
      ((ArbNum.isNegative (ArbNum.saveNumber []) = true →
        ∃ r, ArbNum.sqrt (ArbNum.saveNumber []) = some r ∧ r.isError = true ∧
          r.isNormal = false) ∧
      (ArbNum.isNegative (ArbNum.saveNumber []) = false →
        ∃ r, ArbNum.sqrt (ArbNum.saveNumber []) = some r ∧ r.isNormal = true ∧
          r.isError = false)) :=
  ⟨by decide, C24_sqrt_negative_is_error (ArbNum.saveNumber []) (by decide)⟩

/-- The two halves of the contract of `ArbNum::sqrt` at concrete values:
`sqrt(ArbNum(-4))` is in the Error state, `sqrt(ArbNum(""))` is the Normal value
with the empty magnitude, `sqrt(ArbNum(9))` is 3. -/
theorem sqrt_state_examples :
    ArbNum.sqrt (ArbNum.ofInt (-4)) = some ⟨SpecialType.SPEC_ERROR, 1, []⟩ ∧
      ArbNum.sqrt (ArbNum.saveNumber []) = some ⟨SpecialType.SPEC_NORMAL, 1, []⟩ ∧
      ArbNum.sqrt (ArbNum.ofInt 9) = some (ArbNum.ofInt 3) := by
  decide

/-! ## The sign of zero, and factorial -/

namespace ArbNum

theorem canonical_toZ_neg {a : ArbNum} (ha : Canonical a) (hs : a.mSign = -1) : toZ a < 0 := by
  have hv := Unsigned.value_nonneg ha.1.2.2.1
  have hne : Unsigned.value a.mUnsigned ≠ 0 := by
    intro h0
    have := ha.2 h0
    omega
  show a.mSign * Unsigned.value a.mUnsigned < 0
  rw [hs]
  omega

theorem canonical_toZ_nonneg {a : ArbNum} (ha : Canonical a) (hs : a.mSign = 1) : 0 ≤ toZ a := by
  have hv := Unsigned.value_nonneg ha.1.2.2.1
  show 0 ≤ a.mSign * Unsigned.value a.mUnsigned
  rw [hs]
  omega

theorem canonical_of_sign {r : ArbNum} (hwf : WellFormed r)
    (h : r.mSign = -1 → toZ r ≠ 0) : Canonical r := by
  refine ⟨hwf, fun h0 => ?_⟩
  rcases hwf.2.1 with hs | hs
  · exact hs
  · exact absurd (show toZ r = 0 by show r.mSign * Unsigned.value r.mUnsigned = 0; rw [h0]; ring)
      (h hs)

/-- `ArbNum::add` keeps zero positive: canonical operands give a canonical sum. -/
theorem add_canonical {a b : ArbNum} (ha : Canonical a) (hb : Canonical b) :
    Canonical (add a b) := by
  obtain ⟨hwf, hv, hs⟩ := add_spec ha.1 hb.1
  apply canonical_of_sign hwf
  intro hneg h0
  rcases hs.mp hneg with h | ⟨h1, h2⟩
  · omega
  · have := canonical_toZ_neg ha h1
    have := canonical_toZ_neg hb h2
    omega

/-- `ArbNum::subtract` keeps zero positive: canonical operands give a canonical
difference. -/
theorem subtract_canonical {a b : ArbNum} (ha : Canonical a) (hb : Canonical b) :
    Canonical (subtract a b) := by
  obtain ⟨hwf, hv, hs⟩ := subtract_spec ha.1 hb.1
  apply canonical_of_sign hwf
  intro hneg h0
  rcases hs.mp hneg with h | ⟨h1, h2⟩
  · omega
  · have := canonical_toZ_neg ha h1
    have := canonical_toZ_nonneg hb h2
    omega

/-- `ArbNum::mod` keeps zero positive. -/
theorem mod_canonical {a b : ArbNum} (ha : WellFormed a) (hb : WellFormed b) :
    ∃ r, mod a b = some r ∧ Canonical r := by
  by_cases hb0 : Unsigned.value b.mUnsigned = 0
  · have hz : b.isZero = true := (Unsigned.isZero_iff hb.2.2.1).mpr hb0
    refine ⟨⟨SpecialType.SPEC_NORMAL, 1, [0]⟩, ?_, by decide⟩
    simp [mod, divideWithRem_zero a b hz]
  · obtain ⟨uq, ur, heq, _, hr, _⟩ := divideWithRem_signs ha hb hb0
    refine ⟨⟨SpecialType.SPEC_NORMAL,
      if a.isNegative = true ∧ Unsigned.value ur ≠ 0 then -1 else 1, ur⟩,
      by simp only [mod, heq, Option.map_some'], ⟨rfl, ?_, hr⟩, ?_⟩
    · dsimp only
      split
      · exact Or.inr rfl
      · exact Or.inl rfl
    · intro h0
      dsimp only at h0 ⊢
      rw [if_neg (fun h => h.2 h0)]

/-- `ArbNum::pow` keeps zero positive. -/
theorem pow_canonical {a n : ArbNum} (ha : WellFormed a) (hn : WellFormed n) :
    ∃ p, pow a n = some p ∧ Canonical p := by
  obtain ⟨u, hp, hc, hv⟩ := pow_signed_spec ha hn.2.2.1
  refine ⟨_, hp, ⟨rfl, ?_, hc⟩, ?_⟩
  · dsimp only
    split
    · exact Or.inr rfl
    · exact Or.inl rfl
  · intro h0
    dsimp only at h0 ⊢
    rw [if_neg]
    rintro ⟨hneg, _⟩
    have hne := ((isNegative_iff ha).mp hneg).2
    rw [hv] at h0
    exact pow_ne_zero _ hne h0

theorem toZ_gArbNumOne : toZ gArbNumOne = 1 := toZ_ofInt 1

theorem gArbNumOne_canonical : Canonical gArbNumOne := ofInt_canonical 1

theorem compare_one_le_iff {count : ArbNum} (hc : Canonical count) :
    compare count gArbNumOne ≤ 0 ↔ toZ count ≤ 1 := by
  rw [compare_signed_spec hc gArbNumOne_canonical, toZ_gArbNumOne]
  split_ifs <;> omega

/-- The recursion of `ArbNum::factorial` ends within the budget and returns the
canonical value of the factorial; for a count of at most 1 it returns
`gArbNumOne`. -/
theorem factorialLoop_spec :
    ∀ (fuel : Nat) (count : ArbNum), Canonical count → (toZ count).toNat < fuel →
      ∃ r, factorialLoop fuel count = some r ∧ Canonical r ∧ r.mSign = 1 ∧
        toZ r = ((Nat.factorial (toZ count).toNat : Nat) : Int) ∧
        (toZ count ≤ 1 → r = gArbNumOne) := by
  intro fuel
  induction fuel with
  | zero =>
    intro count _ hlt
    omega
  | succ fuel ih =>
    intro count hc hlt
    simp only [factorialLoop]
    by_cases hle : compare count gArbNumOne ≤ 0
    · have h1 : toZ count ≤ 1 := (compare_one_le_iff hc).mp hle
      refine ⟨gArbNumOne, by simp [hle], gArbNumOne_canonical, by decide, ?_, fun _ => rfl⟩
      rw [toZ_gArbNumOne]
      rcases (show (toZ count).toNat = 0 ∨ (toZ count).toNat = 1 by omega) with h | h <;>
        rw [h] <;> rfl
    · have h1 : ¬ toZ count ≤ 1 := fun h => hle ((compare_one_le_iff hc).mpr h)
      have hsub := subtract_canonical hc gArbNumOne_canonical
      have hsubv : toZ (subtract count gArbNumOne) = toZ count - 1 := by
        rw [(subtract_spec hc.1 gArbNumOne_canonical.1).2.1, toZ_gArbNumOne]
      obtain ⟨f, hf, hfc, hfs, hfv, _⟩ := ih (subtract count gArbNumOne) hsub
        (by rw [hsubv]; omega)
      obtain ⟨hmwf, hmv, hms⟩ := multiply_signed_spec hfc.1 hc.1
      have hcs : count.mSign = 1 := by
        rcases hc.1.2.1 with h | h
        · exact h
        · have := canonical_toZ_neg hc h
          omega
      have hsign : (multiply f count).mSign = 1 := by rw [hms, hfs, hcs]; rfl
      refine ⟨multiply f count, by simp [hle, hf], canonical_of_sign hmwf ?_, hsign, ?_, ?_⟩
      · intro h
        omega
      · rw [hmv, hfv, hsubv]
        obtain ⟨m, hm⟩ : ∃ m : Nat, toZ count = ((m + 1 : Nat) : Int) :=
          ⟨(toZ count).toNat - 1, by omega⟩
        rw [hm]
        have e1 : ((((m + 1 : Nat) : Int)) - 1).toNat = m := by omega
        have e2 : (((m + 1 : Nat) : Int)).toNat = m + 1 := by omega
        rw [e1, e2, Nat.factorial_succ]
        push_cast
        ring
      · intro h
        exact absurd h h1

end ArbNum

/-- C26: for every integer `n`, `ArbNum::factorial(ArbNum(n))` returns a result
(the recursion ends within the budget), in canonical form; it denotes `n!` (the
product `1 * 2 * ... * n`) for `n >= 1`, and it is `gArbNumOne` for every
`n <= 1`, zero and the negatives included. -/
theorem C26_factorial_denotes_factorial (n : Int) :
    ∃ r, ArbNum.factorial (ArbNum.ofInt n) = some r ∧ ArbNum.Canonical r ∧
      (1 ≤ n → ArbNum.toZ r = ((Nat.factorial n.toNat : Nat) : Int) ∧
        ArbNum.toZ r = ((∏ i ∈ Finset.range n.toNat, (i + 1) : Nat) : Int)) ∧
      (n ≤ 1 → r = ArbNum.ofInt 1) := by
  obtain ⟨r, hr, hrc, _, hv, h1⟩ := ArbNum.factorialLoop_spec ((ArbNum.toZ (ArbNum.ofInt n)).toNat + 1)
    (ArbNum.ofInt n) (ArbNum.ofInt_canonical n) (by omega)
  rw [ArbNum.toZ_ofInt] at hv h1
  refine ⟨r, hr, hrc, fun _ => ⟨hv, ?_⟩, h1⟩
  rw [hv, Finset.prod_range_add_one_eq_factorial]

/-! ## Operand states -/

namespace ArbNum

end ArbNum

/-- C27 (code at the failing inputs): `ArbNum(0) * ArbNum(-5)` has zero magnitude
and negative sign, and prints as "-0"; so does the quotient of
`ArbNum(-1) / ArbNum(3)`. -/
theorem C27_negative_zero :
    ArbNum.multiply (ArbNum.ofInt 0) (ArbNum.ofInt (-5)) = ⟨SpecialType.SPEC_NORMAL, -1, [0]⟩ ∧
      ArbNum.toString (ArbNum.multiply (ArbNum.ofInt 0) (ArbNum.ofInt (-5))) = ['-', '0'] ∧
      ArbNum.divide (ArbNum.ofInt (-1)) (ArbNum.ofInt 3) =
        some ⟨SpecialType.SPEC_NORMAL, -1, [0]⟩ ∧
      ArbNum.toString ⟨SpecialType.SPEC_NORMAL, -1, [0]⟩ = ['-', '0'] := by
  refine ⟨by decide, by decide, ?_, by decide⟩
  obtain ⟨uq, ur, heq, hq, hr, hv, h0, hlt⟩ :=
    ArbNum.divideWithRem_signs (ArbNum.ofInt_canonical (-1)).1 (ArbNum.ofInt_canonical 3).1
      (by decide)
  have hva : Unsigned.value (ArbNum.ofInt (-1)).mUnsigned = 1 := by decide
  have hvb : Unsigned.value (ArbNum.ofInt 3).mUnsigned = 3 := by decide
  rw [hva, hvb] at hv
  rw [hvb] at hlt
  have hqn := Unsigned.value_nonneg hq.1
  have hq0 : uq = [0] := Unsigned.canonical_zero_eq hq (by omega)
  have hna : (ArbNum.ofInt (-1)).isNegative = true := by decide
  have hnb : (ArbNum.ofInt 3).isNegative = false := by decide
  rw [ArbNum.divide, heq, hq0, hna, hnb]
  rfl

/-- Trial division by the numbers `6k + 1` and `6k + 5` up to the integer square
root decides primality of a number above 1 that 2, 3 and 5 do not divide. -/
theorem trial_division_6k {n b : Nat} (hn : 1 < n) (h2 : n % 2 ≠ 0) (h3 : n % 3 ≠ 0)
    (h5 : n % 5 ≠ 0) (hb1 : b * b ≤ n) (hb2 : n < (b + 1) * (b + 1)) :
    Nat.Prime n ↔
      ¬ ∃ k : Nat, 6 + 6 * k ≤ b ∧ (n % (6 + 6 * k + 1) = 0 ∨ n % (6 + 6 * k + 5) = 0) := by
  constructor
  · rintro hp ⟨k, hk, hdiv⟩
    have hbig : b + 5 < n := by nlinarith
    rcases hdiv with h | h
    · have hd := Nat.dvd_of_mod_eq_zero h
      rcases (Nat.dvd_prime hp).mp hd with h1 | h1 <;> omega
    · have hd := Nat.dvd_of_mod_eq_zero h
      rcases (Nat.dvd_prime hp).mp hd with h1 | h1 <;> omega
  · intro hno
    by_contra hnp
    have hp : Nat.Prime (Nat.minFac n) := Nat.minFac_prime (by omega)
    have hdvd : Nat.minFac n ∣ n := Nat.minFac_dvd n
    have hsq : Nat.minFac n ^ 2 ≤ n := Nat.minFac_sq_le_self (by omega) hnp
    obtain ⟨p, hpe⟩ : ∃ p, p = Nat.minFac n := ⟨_, rfl⟩
    rw [← hpe] at hp hdvd hsq
    have hpb : p ≤ b := by
      by_contra hlt
      have : b + 1 ≤ p := by omega
      have : (b + 1) * (b + 1) ≤ p ^ 2 := by nlinarith
      omega
    have hnmod : n % p = 0 := Nat.mod_eq_zero_of_dvd hdvd
    have hp2 : p ≠ 2 := by
      rintro rfl
      exact h2 hnmod
    have hp3 : p ≠ 3 := by
      rintro rfl
      exact h3 hnmod
    have hp5 : p ≠ 5 := by
      rintro rfl
      exact h5 hnmod
    have hpodd : p % 2 ≠ 0 := by
      intro h
      exact hp2 ((Nat.prime_dvd_prime_iff_eq Nat.prime_two hp).mp (Nat.dvd_of_mod_eq_zero h)).symm
    have hp3' : p % 3 ≠ 0 := by
      intro h
      exact hp3 ((Nat.prime_dvd_prime_iff_eq Nat.prime_three hp).mp (Nat.dvd_of_mod_eq_zero h)).symm
    have hp1 := hp.two_le
    rcases (show p % 6 = 1 ∨ p % 6 = 5 by omega) with h6 | h6
    · exact hno ⟨p / 6 - 1, by omega, Or.inl (by
        have : 6 + 6 * (p / 6 - 1) + 1 = p := by omega
        rw [this]; exact hnmod)⟩
    · exact hno ⟨p / 6 - 1, by omega, Or.inr (by
        have : 6 + 6 * (p / 6 - 1) + 5 = p := by omega
        rw [this]; exact hnmod)⟩

namespace Unsigned

theorem ofBool_values : ofBool true = [1] ∧ ofBool false = [0] := by decide

/-- The test `a % d == 0` of `Unsigned::isPrime`. -/
theorem mod_zero_test {a d : List Int} (ha : Canonical a) (hd : Canonical d)
    (hpos : 0 < value d) :
    ∃ r, mod a d = some r ∧ (compare r (saveNumber ['0']) = 0 ↔ value a % value d = 0) := by
  obtain ⟨_, r, _, hmod, _, hr, _, hrv⟩ := divide_mod_spec ha hd.1 hpos
  refine ⟨r, hmod, ?_⟩
  rw [compare_eq_zero_iff hr.1 (by decide), hrv]
  have : value (saveNumber ['0']) = 0 := by decide
  rw [this]

/-- The operand `i + c` of the loop of `Unsigned::isPrime`, for a digit `c`. -/
theorem add_digit {i c : List Int} (hi : Canonical i) (hc : Canonical c) :
    Canonical (add i c) ∧ value (add i c) = value i + value c :=
  ArbNum.add_magnitudes hi hc

/-- The trial-division loop of `Unsigned::isPrime` ends within the budget; it
returns 0 when one of the numbers `j + 1`, `j + 5`, for `j = i, i + 6, ...` up to
the boundary, divides `a`, and 1 otherwise. -/
theorem isPrimeLoop_spec {a boundary : List Int} (ha : Canonical a) (hb : IsDigits boundary) :
    ∀ (fuel : Nat) (i : List Int), Canonical i → 6 ≤ value i →
      value i ≤ value boundary + 6 → value boundary + 6 < value i + 6 * fuel →
      ∃ r, isPrimeLoop a boundary fuel i = some r ∧
        ((∃ k : Nat, value i + 6 * k ≤ value boundary ∧
            (value a % (value i + 6 * k + 1) = 0 ∨ value a % (value i + 6 * k + 5) = 0)) →
          r = ofBool false) ∧
        ((¬ ∃ k : Nat, value i + 6 * k ≤ value boundary ∧
            (value a % (value i + 6 * k + 1) = 0 ∨ value a % (value i + 6 * k + 5) = 0)) →
          r = ofBool true) := by
  intro fuel
  induction fuel with
  | zero =>
    intro i _ _ h1 h2
    simp at h2
    omega
  | succ fuel ih =>
    intro i hi h6 hle hfuel
    simp only [isPrimeLoop]
    by_cases hc : compare i boundary ≤ 0
    · have hib : value i ≤ value boundary := (compare_le_iff hi.1 hb).mp hc
      obtain ⟨hc1, hv1⟩ := add_digit hi (show Canonical (saveNumber ['1']) by decide)
      obtain ⟨hc5, hv5⟩ := add_digit hi (show Canonical (saveNumber ['5']) by decide)
      have e1 : value (saveNumber ['1']) = 1 := by decide
      have e5 : value (saveNumber ['5']) = 5 := by decide
      rw [e1] at hv1
      rw [e5] at hv5
      obtain ⟨r1, hr1, ht1⟩ := mod_zero_test ha hc1 (by omega)
      obtain ⟨r5, hr5, ht5⟩ := mod_zero_test ha hc5 (by omega)
      rw [hv1] at ht1
      rw [hv5] at ht5
      by_cases hz1 : compare r1 (saveNumber ['0']) = 0
      · refine ⟨ofBool false, by simp [hc, hr1, hz1], fun _ => rfl, fun hno => ?_⟩
        exact absurd ⟨0, by simpa using hib, Or.inl (by simpa using ht1.mp hz1)⟩ hno
      · by_cases hz5 : compare r5 (saveNumber ['0']) = 0
        · refine ⟨ofBool false, by simp [hc, hr1, hz1, hr5, hz5], fun _ => rfl, fun hno => ?_⟩
          exact absurd ⟨0, by simpa using hib, Or.inr (by simpa using ht5.mp hz5)⟩ hno
        · obtain ⟨_, hv6, hc6⟩ := addMutable_spec hi.1
            (show IsDigits (saveNumber ['6']) by decide)
          have e6 : value (saveNumber ['6']) = 6 := by decide
          rw [e6] at hv6
          obtain ⟨r, hr, hhit, hmiss⟩ := ih (addMutable i (saveNumber ['6']))
            (hc6 (Or.inl hi.2.1)) (by omega) (by omega) (by push_cast at hfuel; omega)
          rw [hv6] at hhit hmiss
          refine ⟨r, by simp [hc, hr1, hz1, hr5, hz5, hr], fun hex => ?_, fun hno => ?_⟩
          · apply hhit
            obtain ⟨k, hk, hd⟩ := hex
            cases k with
            | zero =>
              simp only [Nat.cast_zero, mul_zero, add_zero] at hd
              rcases hd with h | h
              · exact absurd (ht1.mpr h) hz1
              · exact absurd (ht5.mpr h) hz5
            | succ k =>
              refine ⟨k, ?_, ?_⟩
              · push_cast at hk; omega
              · have e : value i + 6 + 6 * (k : Int) = value i + 6 * ((k + 1 : Nat) : Int) := by
                  push_cast; ring
                rw [e]; exact hd
          · apply hmiss
            rintro ⟨k, hk, hd⟩
            apply hno
            refine ⟨k + 1, ?_, ?_⟩
            · push_cast; omega
            · have e : value i + 6 + 6 * (k : Int) = value i + 6 * ((k + 1 : Nat) : Int) := by
                push_cast; ring
              rw [← e]; exact hd
    · have hib : ¬ value i ≤ value boundary := fun h => hc ((compare_le_iff hi.1 hb).mpr h)
      refine ⟨ofBool true, by simp [hc], fun hex => ?_, fun _ => rfl⟩
      obtain ⟨k, hk, _⟩ := hex
      have : (0 : Int) ≤ 6 * (k : Int) := by positivity
      omega

end Unsigned

namespace Unsigned

/-- `Unsigned::isPrime` on a canonical magnitude returns 1 for a prime and 0 for
every other number. -/
theorem isPrime_spec {a : List Int} (ha : Canonical a) :
    ∃ r, isPrime a = some r ∧
      (Nat.Prime (value a).toNat → r = ofBool true) ∧
      (¬ Nat.Prime (value a).toNat → r = ofBool false) := by
  have han := value_nonneg ha.1
  obtain ⟨n, hn⟩ : ∃ n : Nat, value a = (n : Int) := ⟨(value a).toNat, by omega⟩
  have hnat : (value a).toNat = n := by omega
  rw [hnat]
  have c1 : compare a (saveNumber ['1']) ≤ 0 ↔ value a ≤ 1 := by
    rw [compare_le_iff ha.1 (by decide)]
    have : value (saveNumber ['1']) = 1 := by decide
    rw [this]
  have c2 : compare a (saveNumber ['2']) = 0 ↔ value a = 2 := by
    rw [compare_eq_zero_iff ha.1 (by decide)]
    have : value (saveNumber ['2']) = 2 := by decide
    rw [this]
  have c3 : compare a (saveNumber ['3']) = 0 ↔ value a = 3 := by
    rw [compare_eq_zero_iff ha.1 (by decide)]
    have : value (saveNumber ['3']) = 3 := by decide
    rw [this]
  have c5 : compare a (saveNumber ['5']) = 0 ↔ value a = 5 := by
    rw [compare_eq_zero_iff ha.1 (by decide)]
    have : value (saveNumber ['5']) = 5 := by decide
    rw [this]
  simp only [isPrime]
  by_cases h1 : compare a (saveNumber ['1']) ≤ 0
  · have hle : n ≤ 1 := by have := c1.mp h1; omega
    refine ⟨ofBool false, by simp [h1], fun hp => ?_, fun _ => rfl⟩
    have := hp.two_le
    omega
  · have hgt : 1 < n := by
      have := fun h => h1 (c1.mpr h)
      omega
    by_cases h235 : compare a (saveNumber ['2']) = 0 ∨ compare a (saveNumber ['3']) = 0 ∨
        compare a (saveNumber ['5']) = 0
    · have hval : n = 2 ∨ n = 3 ∨ n = 5 := by
        rcases h235 with h | h | h
        · have := c2.mp h; omega
        · have := c3.mp h; omega
        · have := c5.mp h; omega
      refine ⟨ofBool true, by simp [h1, h235], fun _ => rfl, fun hnp => ?_⟩
      rcases hval with h | h | h <;> rw [h] at hnp <;> exact absurd (by norm_num) hnp
    · have hne : n ≠ 2 ∧ n ≠ 3 ∧ n ≠ 5 := by
        refine ⟨fun h => h235 (Or.inl (c2.mpr (by omega))),
          fun h => h235 (Or.inr (Or.inl (c3.mpr (by omega)))),
          fun h => h235 (Or.inr (Or.inr (c5.mpr (by omega))))⟩
      by_cases hev : isEven a = true
      · have hmod : n % 2 = 0 := by have := (isEven_iff ha.1).mp hev; omega
        refine ⟨ofBool false, by simp [h1, h235, hev], fun hp => ?_, fun _ => rfl⟩
        exact absurd ((Nat.prime_dvd_prime_iff_eq Nat.prime_two hp).mp
          (Nat.dvd_of_mod_eq_zero hmod)).symm hne.1
      · have hodd : n % 2 ≠ 0 := by
          intro h
          exact hev ((isEven_iff ha.1).mpr (by omega))
        obtain ⟨r3, hr3, ht3⟩ := mod_zero_test ha (show Canonical (saveNumber ['3']) by decide)
          (by decide)
        obtain ⟨r5, hr5, ht5⟩ := mod_zero_test ha (show Canonical (saveNumber ['5']) by decide)
          (by decide)
        have e3 : value (saveNumber ['3']) = 3 := by decide
        have e5 : value (saveNumber ['5']) = 5 := by decide
        rw [e3] at ht3
        rw [e5] at ht5
        by_cases hz3 : compare r3 (saveNumber ['0']) = 0
        · have hmod : n % 3 = 0 := by have := ht3.mp hz3; omega
          refine ⟨ofBool false, by simp [h1, h235, hev, hr3, hz3], fun hp => ?_, fun _ => rfl⟩
          exact absurd ((Nat.prime_dvd_prime_iff_eq Nat.prime_three hp).mp
            (Nat.dvd_of_mod_eq_zero hmod)).symm hne.2.1
        · have hn3 : n % 3 ≠ 0 := by
            intro h
            exact hz3 (ht3.mpr (by omega))
          by_cases hz5 : compare r5 (saveNumber ['0']) = 0
          · have hmod : n % 5 = 0 := by have := ht5.mp hz5; omega
            refine ⟨ofBool false, by simp [h1, h235, hev, hr3, hz3, hr5, hz5], fun hp => ?_,
              fun _ => rfl⟩
            exact absurd ((Nat.prime_dvd_prime_iff_eq Nat.prime_five hp).mp
              (Nat.dvd_of_mod_eq_zero hmod)).symm hne.2.2
          · have hn5 : n % 5 ≠ 0 := by
              intro h
              exact hz5 (ht5.mpr (by omega))
            obtain ⟨bd, hbd, hbdc, hlo, hhi⟩ := sqrt_spec ha
            have hbn := value_nonneg hbdc.1
            obtain ⟨b, hb⟩ : ∃ b : Nat, value bd = (b : Int) := ⟨(value bd).toNat, by omega⟩
            have e6 : value (saveNumber ['6']) = 6 := by decide
            obtain ⟨r, hr, hhit, hmiss⟩ := isPrimeLoop_spec ha hbdc.1 ((value bd).toNat + 1)
              (saveNumber ['6']) (by decide) (by omega) (by omega) (by push_cast; omega)
            rw [e6, hn, hb] at hhit hmiss
            rw [hn, hb] at hlo hhi
            have htd := trial_division_6k hgt hodd hn3 hn5 (b := b) (by exact_mod_cast hlo)
              (by exact_mod_cast hhi)
            have hiff : (∃ k : Nat, (6 : Int) + 6 * (k : Int) ≤ (b : Int) ∧
                ((n : Int) % (6 + 6 * (k : Int) + 1) = 0 ∨
                  (n : Int) % (6 + 6 * (k : Int) + 5) = 0)) ↔
                ∃ k : Nat, 6 + 6 * k ≤ b ∧
                  (n % (6 + 6 * k + 1) = 0 ∨ n % (6 + 6 * k + 5) = 0) := by
              constructor
              · rintro ⟨k, hk, hd⟩
                exact ⟨k, by exact_mod_cast hk, by exact_mod_cast hd⟩
              · rintro ⟨k, hk, hd⟩
                exact ⟨k, by exact_mod_cast hk, by exact_mod_cast hd⟩
            refine ⟨r, by simp [h1, h235, hev, hr3, hz3, hr5, hz5, hbd, hr], fun hp => ?_,
              fun hnp => ?_⟩
            · exact hmiss (fun hex => htd.mp hp (hiff.mp hex))
            · apply hhit
              apply hiff.mpr
              by_contra hno
              exact hnp (htd.mpr hno)

end Unsigned

namespace ArbNum

/-- `ArbNum::isPrime` on a well-formed value: 1 for a prime, 0 for every other
number, the negative ones included. -/
theorem isPrime_signed_spec {a : ArbNum} (ha : WellFormed a) :
    ∃ r, isPrime a = some r ∧
      r = ofInt (if 0 < toZ a ∧ Nat.Prime (toZ a).toNat then 1 else 0) := by
  have hvn := Unsigned.value_nonneg ha.2.2.1
  by_cases hneg : a.isNegative = true
  · obtain ⟨hs, hv⟩ := (isNegative_iff ha).mp hneg
    have hz : ¬ (0 < toZ a) := by
      show ¬ (0 < a.mSign * Unsigned.value a.mUnsigned)
      rw [hs]
      omega
    exact ⟨ofInt 0, by simp [isPrime, hneg], by rw [if_neg (fun h => hz h.1)]⟩
  · have hneg' : a.isNegative = false := by simpa using hneg
    obtain ⟨r, hr, hp, hnp⟩ := Unsigned.isPrime_spec ha.2.2
    have hmag : 0 < toZ a → toZ a = Unsigned.value a.mUnsigned := by
      intro hpos
      rcases ha.2.1 with hs | hs
      · show a.mSign * Unsigned.value a.mUnsigned = _
        rw [hs, one_mul]
      · exfalso
        have : toZ a = -1 * Unsigned.value a.mUnsigned := by
          show a.mSign * Unsigned.value a.mUnsigned = _
          rw [hs]
        omega
    refine ⟨ofUnsigned r, by simp [isPrime, hneg', hr], ?_⟩
    by_cases hprime : Nat.Prime (Unsigned.value a.mUnsigned).toNat
    · have hpos : 0 < toZ a := by
        have h2 := hprime.two_le
        have hv2 : 0 < Unsigned.value a.mUnsigned := by omega
        rcases ha.2.1 with hs | hs
        · show 0 < a.mSign * Unsigned.value a.mUnsigned
          rw [hs]; omega
        · exact absurd ((isNegative_iff ha).mpr ⟨hs, by omega⟩) hneg
      rw [hp hprime, if_pos ⟨hpos, by rw [hmag hpos]; exact hprime⟩]
      decide
    · rw [hnp hprime, if_neg]
      · decide
      · rintro ⟨hpos, hpr⟩
        rw [hmag hpos] at hpr
        exact hprime hpr

end ArbNum

/-- C25: for every integer `a`, `ArbNum::isPrime(ArbNum(a))` returns a result (the
Newton loop and the trial-division loop end within their budgets): `ArbNum(1)` if
`a` is a prime number and `ArbNum(0)` otherwise, so 0 for every `a <= 1`, the
negative numbers included. -/
theorem C25_isPrime_decides_primality (a : Int) :
    ∃ r, ArbNum.isPrime (ArbNum.ofInt a) = some r ∧
      r = ArbNum.ofInt (if Nat.Prime a.toNat then 1 else 0) ∧
      (a ≤ 1 → r = ArbNum.ofInt 0) := by
  obtain ⟨r, hr, hv⟩ := ArbNum.isPrime_signed_spec (ArbNum.ofInt_canonical a).1
  rw [ArbNum.toZ_ofInt] at hv
  have hiff : (0 < a ∧ Nat.Prime a.toNat) ↔ Nat.Prime a.toNat := by
    constructor
    · exact fun h => h.2
    · intro h
      have := h.two_le
      exact ⟨by omega, h⟩
  have hv2 : r = ArbNum.ofInt (if Nat.Prime a.toNat then 1 else 0) := by
    rw [hv]
    by_cases hp : Nat.Prime a.toNat
    · rw [if_pos (hiff.mpr hp), if_pos hp]
    · rw [if_neg (fun h => hp (hiff.mp h)), if_neg hp]
  refine ⟨r, hr, hv2, fun hle => ?_⟩
  rw [hv2, if_neg]
  intro hp
  have := hp.two_le
  omega

/-! ## Canonical results, the sign function, negative exponents, the empty numeral -/

/-- C32: for all canonical magnitudes `a` and `b`, `Unsigned::add(a, b)` is
canonical, `Unsigned::subtract(a, b)` is canonical when `a >= b`,
`Unsigned::multiply(a, b)` is canonical, and when `b` is nonzero
`Unsigned::divideWithRemFast(a, b)` returns a quotient and a remainder that are
both canonical. -/
theorem C32_canonical_preserved (a b : List Int) (ha : Unsigned.Canonical a)
    (hb : Unsigned.Canonical b) :
    Unsigned.Canonical (Unsigned.add a b) ∧
      (Unsigned.value b ≤ Unsigned.value a → Unsigned.Canonical (Unsigned.subtract a b)) ∧
      Unsigned.Canonical (Unsigned.multiply a b) ∧
      (Unsigned.value b ≠ 0 →
        ∃ q r, Unsigned.divideWithRemFast a b = some ⟨q, r⟩ ∧
          Unsigned.Canonical q ∧ Unsigned.Canonical r) := by
  refine ⟨(ArbNum.add_magnitudes ha hb).1, fun hle => ?_, (Unsigned.multiply_spec ha.1 hb.1).1,
    fun hne => ?_⟩
  · exact (Unsigned.subtractMutable_spec ha.1 hb.1 hle).2.2 (Or.inl ha.2.1)
  · have hbn := Unsigned.value_nonneg hb.1
    obtain ⟨q, r, heq, hq, hr, _⟩ :=
      Unsigned.divideWithRemFast_of_canonical ha hb.1 (by omega)
    exact ⟨q, r, heq, hq, hr⟩

theorem C32_canonical_preserved_witness :
    (Unsigned.Canonical [1, 0, 0, 0] ∧ Unsigned.Canonical [3]) ∧
      (Unsigned.Canonical (Unsigned.add [1, 0, 0, 0] [3]) ∧
      (Unsigned.value [3] ≤ Unsigned.value [1, 0, 0, 0] →
        Unsigned.Canonical (Unsigned.subtract [1, 0, 0, 0] [3])) ∧
      Unsigned.Canonical (Unsigned.multiply [1, 0, 0, 0] [3]) ∧
      (Unsigned.value [3] ≠ 0 →
        ∃ q r, Unsigned.divideWithRemFast [1, 0, 0, 0] [3] = some ⟨q, r⟩ ∧
          Unsigned.Canonical q ∧ Unsigned.Canonical r)) :=
  ⟨by decide, C32_canonical_preserved [1, 0, 0, 0] [3] (by decide) (by decide)⟩

namespace ArbNum

/-- `ArbNum::subtract` on two operands whose sign fields are not negative makes
one call to `Unsigned::subtract`, with the larger magnitude first. -/
theorem subtractCalls_pos {a b : ArbNum} (ha : 0 ≤ a.mSign) (hb : 0 ≤ b.mSign) :
    subtractCalls a b =
      if Unsigned.compare a.mUnsigned b.mUnsigned < 0 then [(b.mUnsigned, a.mUnsigned)]
      else [(a.mUnsigned, b.mUnsigned)] := by
  rw [subtractCalls.eq_1 a b]
  simp only [isPositiveOrZero, ha, hb, ge_iff_le, decide_True, Bool.and_self, if_true]

/-- Every call of `ArbNum::subtract` to `Unsigned::subtract` has the larger
magnitude as its minuend. -/
theorem subtractCalls_spec {a b : ArbNum} (ha : Unsigned.IsDigits a.mUnsigned)
    (hb : Unsigned.IsDigits b.mUnsigned) :
    ∀ p ∈ subtractCalls a b, Unsigned.value p.2 ≤ Unsigned.value p.1 ∧
      ((p.1 = a.mUnsigned ∧ p.2 = b.mUnsigned) ∨ (p.1 = b.mUnsigned ∧ p.2 = a.mUnsigned)) := by
  have hpos : ∀ {a b : ArbNum}, Unsigned.IsDigits a.mUnsigned → Unsigned.IsDigits b.mUnsigned →
      0 ≤ a.mSign → 0 ≤ b.mSign →
      ∀ p ∈ subtractCalls a b, Unsigned.value p.2 ≤ Unsigned.value p.1 ∧
        ((p.1 = a.mUnsigned ∧ p.2 = b.mUnsigned) ∨
          (p.1 = b.mUnsigned ∧ p.2 = a.mUnsigned)) := by
    intro a b ha hb hsa hsb p hp
    rw [subtractCalls_pos hsa hsb] at hp
    by_cases hc : Unsigned.compare a.mUnsigned b.mUnsigned < 0
    · rw [if_pos hc, List.mem_singleton] at hp
      have := (Unsigned.compare_lt_iff ha hb).mp hc
      subst hp
      exact ⟨by dsimp only; omega, Or.inr ⟨rfl, rfl⟩⟩
    · rw [if_neg hc, List.mem_singleton] at hp
      have := (Unsigned.compare_lt_iff ha hb).not.mp hc
      subst hp
      exact ⟨by dsimp only; omega, Or.inl ⟨rfl, rfl⟩⟩
  by_cases hsa : 0 ≤ a.mSign
  · by_cases hsb : 0 ≤ b.mSign
    · exact hpos ha hb hsa hsb
    · intro p hp
      rw [subtractCalls.eq_1 a b] at hp
      simp only [isPositiveOrZero, isNegativeOrZero, hsa, hsb, ge_iff_le,
        decide_True, decide_False, Bool.and_false, Bool.false_eq_true, if_false,
        show b.mSign ≤ 0 by omega, Bool.and_self, if_true, List.not_mem_nil] at hp
  · by_cases hsb : 0 ≤ b.mSign
    · intro p hp
      rw [subtractCalls.eq_1 a b] at hp
      simp only [isPositiveOrZero, isNegativeOrZero, hsa, hsb, ge_iff_le,
        decide_True, decide_False, Bool.false_and, Bool.false_eq_true, if_false,
        show a.mSign ≤ 0 by omega, Bool.and_self, if_true, List.not_mem_nil] at hp
    · intro p hp
      rw [subtractCalls.eq_1 a b] at hp
      simp only [isPositiveOrZero, isNegativeOrZero, hsa, hsb, ge_iff_le,
        decide_True, decide_False, Bool.false_and, Bool.and_false, Bool.false_eq_true, if_false,
        show a.mSign ≤ 0 by omega, show b.mSign ≤ 0 by omega, Bool.and_self, if_true] at hp
      obtain ⟨h1, h2⟩ := hpos (a := b.mkPositive) (b := a.mkPositive) hb ha
        (show (0 : Int) ≤ 1 by decide) (show (0 : Int) ≤ 1 by decide) p hp
      exact ⟨h1, h2.symm⟩

/-- Every call of `ArbNum::add` to `Unsigned::subtract` has the larger magnitude
as its minuend. -/
theorem addCalls_spec {a b : ArbNum} (ha : Unsigned.IsDigits a.mUnsigned)
    (hb : Unsigned.IsDigits b.mUnsigned) :
    ∀ p ∈ addCalls a b, Unsigned.value p.2 ≤ Unsigned.value p.1 ∧
      ((p.1 = a.mUnsigned ∧ p.2 = b.mUnsigned) ∨ (p.1 = b.mUnsigned ∧ p.2 = a.mUnsigned)) := by
  intro p hp
  unfold addCalls at hp
  split at hp
  · simp at hp
  · split at hp
    · exact subtractCalls_spec (a := a) (b := b.mkPositive) ha hb p hp
    · split at hp
      · obtain ⟨h1, h2⟩ := subtractCalls_spec (a := b) (b := a.mkPositive) hb ha p hp
        exact ⟨h1, h2.symm⟩
      · split at hp <;> simp at hp

/-- The magnitude of `ArbNum::subtract(a, b)` is the result of the recorded call
to `Unsigned::subtract`, or the sum of the magnitudes when no call is made. -/
theorem subtract_magnitude_of_calls (a b : ArbNum) :
    (subtract a b).mUnsigned =
      match subtractCalls a b with
      | [] => Unsigned.add a.mUnsigned b.mUnsigned
      | p :: _ => Unsigned.subtract p.1 p.2 := by
  have hpos : ∀ {a b : ArbNum}, 0 ≤ a.mSign → 0 ≤ b.mSign →
      (subtract a b).mUnsigned =
        match subtractCalls a b with
        | [] => Unsigned.add a.mUnsigned b.mUnsigned
        | p :: _ => Unsigned.subtract p.1 p.2 := by
    intro a b hsa hsb
    rw [subtractCalls_pos hsa hsb, subtract.eq_1 a b]
    simp only [isPositiveOrZero, hsa, hsb, ge_iff_le, decide_True, Bool.and_self, if_true]
    split <;> rfl
  by_cases hsa : 0 ≤ a.mSign
  · by_cases hsb : 0 ≤ b.mSign
    · exact hpos hsa hsb
    · rw [subtractCalls.eq_1 a b, subtract.eq_1 a b]
      simp only [isPositiveOrZero, isNegativeOrZero, hsa, hsb, ge_iff_le,
        decide_True, decide_False, Bool.and_false, Bool.false_eq_true, if_false,
        show b.mSign ≤ 0 by omega, Bool.and_self, if_true]
  · by_cases hsb : 0 ≤ b.mSign
    · rw [subtractCalls.eq_1 a b, subtract.eq_1 a b]
      simp only [isPositiveOrZero, isNegativeOrZero, hsa, hsb, ge_iff_le,
        decide_True, decide_False, Bool.false_and, Bool.false_eq_true, if_false,
        show a.mSign ≤ 0 by omega, Bool.and_self, if_true]
    · rw [subtractCalls.eq_1 a b, subtract.eq_1 a b]
      simp only [isPositiveOrZero, isNegativeOrZero, hsa, hsb, ge_iff_le,
        decide_True, decide_False, Bool.false_and, Bool.and_false, Bool.false_eq_true, if_false,
        show a.mSign ≤ 0 by omega, show b.mSign ≤ 0 by omega, Bool.and_self, if_true]
      have h := hpos (a := b.mkPositive) (b := a.mkPositive)
        (show (0 : Int) ≤ 1 by decide) (show (0 : Int) ≤ 1 by decide)
      have hne : subtractCalls b.mkPositive a.mkPositive ≠ [] := by
        rw [subtractCalls_pos (show (0 : Int) ≤ 1 by decide) (show (0 : Int) ≤ 1 by decide)]
        split <;> simp
      rw [h]
      cases hcalls : subtractCalls b.mkPositive a.mkPositive with
      | nil => exact absurd hcalls hne
      | cons p ps => rfl

end ArbNum

/-- C33: for all signed operands `a` and `b` with canonical magnitudes, every call
`Unsigned::subtract(minuend, subtrahend)` made by `ArbNum::subtract(a, b)` or by
`ArbNum::add(a, b)` has `minuend >= subtrahend`: the digit loop of
`subtractMutable` ends without a borrow, so the error branch is not taken, and
the call returns a canonical magnitude. -/
theorem C33_no_borrow_from_signed (a b : ArbNum) (ha : Unsigned.Canonical a.mUnsigned)
    (hb : Unsigned.Canonical b.mUnsigned) :
    ∀ p ∈ ArbNum.subtractCalls a b ++ ArbNum.addCalls a b,
      Unsigned.value p.2 ≤ Unsigned.value p.1 ∧
      ¬ (Unsigned.subtractLoop (Unsigned.padShorterNumber p.1 p.2).1
          (Unsigned.padShorterNumber p.1 p.2).2).1 > 0 ∧
      Unsigned.Canonical (Unsigned.subtract p.1 p.2) ∧
      Unsigned.value (Unsigned.subtract p.1 p.2) = Unsigned.value p.1 - Unsigned.value p.2 := by
  intro p hp
  have hspec : Unsigned.value p.2 ≤ Unsigned.value p.1 ∧
      ((p.1 = a.mUnsigned ∧ p.2 = b.mUnsigned) ∨ (p.1 = b.mUnsigned ∧ p.2 = a.mUnsigned)) := by
    rcases List.mem_append.mp hp with h | h
    · exact ArbNum.subtractCalls_spec ha.1 hb.1 p h
    · exact ArbNum.addCalls_spec ha.1 hb.1 p h
  obtain ⟨hle, hwho⟩ := hspec
  have hc : Unsigned.Canonical p.1 ∧ Unsigned.Canonical p.2 := by
    rcases hwho with ⟨h1, h2⟩ | ⟨h1, h2⟩
    · rw [h1, h2]; exact ⟨ha, hb⟩
    · rw [h1, h2]; exact ⟨hb, ha⟩
  have hd := Unsigned.padShorterNumber_isDigits hc.1.1 hc.2.1
  have hbor := Unsigned.subtractLoop_borrow hd.1 hd.2 (Unsigned.padShorterNumber_length p.1 p.2)
  rw [(Unsigned.padShorterNumber_value p.1 p.2).1, (Unsigned.padShorterNumber_value p.1 p.2).2]
    at hbor
  obtain ⟨_, hv, hcan⟩ := Unsigned.subtractMutable_spec hc.1.1 hc.2.1 hle
  exact ⟨hle, fun h => absurd (hbor.mp h) (by omega), hcan (Or.inl hc.1.2.1), hv⟩

theorem C33_no_borrow_from_signed_witness :
    (Unsigned.Canonical (ArbNum.ofInt 5).mUnsigned ∧
      Unsigned.Canonical (ArbNum.ofInt (-12)).mUnsigned) ∧
    ∀ p ∈ ArbNum.subtractCalls (ArbNum.ofInt 5) (ArbNum.ofInt (-12)) ++
        ArbNum.addCalls (ArbNum.ofInt 5) (ArbNum.ofInt (-12)),
      Unsigned.value p.2 ≤ Unsigned.value p.1 ∧
      ¬ (Unsigned.subtractLoop (Unsigned.padShorterNumber p.1 p.2).1
          (Unsigned.padShorterNumber p.1 p.2).2).1 > 0 ∧
      Unsigned.Canonical (Unsigned.subtract p.1 p.2) ∧
      Unsigned.value (Unsigned.subtract p.1 p.2) = Unsigned.value p.1 - Unsigned.value p.2 :=
  ⟨by decide, C33_no_borrow_from_signed (ArbNum.ofInt 5) (ArbNum.ofInt (-12)) (by decide)
    (by decide)⟩

/-- The calls recorded for `5 + (-12)` and for `(-5) - (-12)`: one call each,
`Unsigned::subtract(12, 5)`. -/
theorem subtractCalls_examples :
    ArbNum.addCalls (ArbNum.ofInt 5) (ArbNum.ofInt (-12)) = [([1, 2], [5])] ∧
      ArbNum.subtractCalls (ArbNum.ofInt (-5)) (ArbNum.ofInt (-12)) = [([1, 2], [5])] := by
  constructor
  · have h1 : ((ArbNum.ofInt 5).isPositiveOrZero && (ArbNum.ofInt (-12)).isPositiveOrZero)
        = false := by decide
    have h2 : ((ArbNum.ofInt 5).isPositiveOrZero && (ArbNum.ofInt (-12)).isNegativeOrZero)
        = true := by decide
    simp only [ArbNum.addCalls, h1, h2, Bool.false_eq_true, if_false, if_true]
    rw [ArbNum.subtractCalls_pos (by decide) (by decide)]
    decide
  · rw [ArbNum.subtractCalls.eq_1]
    have h1 : ((ArbNum.ofInt (-5)).isPositiveOrZero && (ArbNum.ofInt (-12)).isPositiveOrZero)
        = false := by decide
    have h2 : ((ArbNum.ofInt (-5)).isPositiveOrZero && (ArbNum.ofInt (-12)).isNegativeOrZero)
        = false := by decide
    have h3 : ((ArbNum.ofInt (-5)).isNegativeOrZero && (ArbNum.ofInt (-12)).isPositiveOrZero)
        = false := by decide
    have h4 : ((ArbNum.ofInt (-5)).isNegativeOrZero && (ArbNum.ofInt (-12)).isNegativeOrZero)
        = true := by decide
    simp only [h1, h2, h3, h4, Bool.false_eq_true, if_false, if_true]
    rw [ArbNum.subtractCalls_pos (by decide) (by decide)]
    decide

/-- C35: `ArbNum::sign(a)` is the number built from the stored sign field: 1 for
every `a` of positive sign, the zero `ArbNum(0)` included, and -1 for every `a`
of negative sign; for a sign field of 1 or -1 the result is never zero. -/
theorem C35_sign_is_sign_field (a : ArbNum) :
    ArbNum.sign a = ArbNum.ofInt a.mSign ∧ ArbNum.toZ (ArbNum.sign a) = a.mSign ∧
      (a.mSign = 1 → ArbNum.sign a = ArbNum.ofInt 1) ∧
      (a.mSign = -1 → ArbNum.sign a = ArbNum.ofInt (-1)) ∧
      (a.mSign = 1 ∨ a.mSign = -1 →
        (ArbNum.sign a).isZero = false ∧
          ArbNum.compare (ArbNum.sign a) (ArbNum.ofInt 0) ≠ 0) ∧
      ArbNum.sign (ArbNum.ofInt 0) = ArbNum.ofInt 1 := by
  refine ⟨rfl, ArbNum.toZ_ofInt _, fun h => ?_, fun h => ?_, fun h => ?_, by decide⟩
  · rw [ArbNum.sign, h]
  · rw [ArbNum.sign, h]
  · rcases h with h | h <;> rw [ArbNum.sign, h] <;> decide

/-- C36: `ArbNum::pow` reads only the magnitude of the exponent: `pow(a, n)` is
`pow(a, abs(n))` for all signed values; for all integers `a` and `n` the result is
a Normal value denoting `a ^ |n|`; and `pow(2, -3)` is 8. -/
theorem C36_pow_ignores_exponent_sign :
    (∀ a n : ArbNum, ArbNum.pow a n = ArbNum.pow a (ArbNum.abs n)) ∧
      (∀ a n : Int, ∃ p, ArbNum.pow (ArbNum.ofInt a) (ArbNum.ofInt n) = some p ∧
        p.isNormal = true ∧ ArbNum.toZ p = a ^ n.natAbs) ∧
      ArbNum.pow (ArbNum.ofInt 2) (ArbNum.ofInt (-3)) = some (ArbNum.ofInt 8) := by
  refine ⟨fun a n => rfl, fun a n => ?_, by decide⟩
  obtain ⟨p, hp, hwf, hv, _⟩ :=
    ArbNum.pow_toZ (ArbNum.ofInt_canonical a).1 (ArbNum.ofInt_canonical n).1.2.2.1
  refine ⟨p, hp, by simp [ArbNum.isNormal, hwf.1], ?_⟩
  rw [hv, ArbNum.toZ_ofInt, ArbNum.ofInt_value]
  congr 1
  rw [Int.abs_eq_natAbs]
  exact Int.toNat_ofNat _

/-- C37: `ArbNum("")` is a Normal value of positive sign whose magnitude is the
empty digit sequence; it satisfies `isZero` and compares equal to `ArbNum(0)`, but
its `toString()` is the empty string; and `ArbNum("-")` prints as "-". -/
theorem C37_empty_string :
    ArbNum.saveNumber [] = ⟨SpecialType.SPEC_NORMAL, 1, []⟩ ∧
      (ArbNum.saveNumber []).isNormal = true ∧
      (ArbNum.saveNumber []).isZero = true ∧
      ArbNum.compare (ArbNum.saveNumber []) (ArbNum.ofInt 0) = 0 ∧
      ArbNum.toString (ArbNum.saveNumber []) = [] ∧
      ArbNum.toString (ArbNum.ofInt 0) = ['0'] ∧
      ArbNum.saveNumber ['-'] = ⟨SpecialType.SPEC_NORMAL, -1, []⟩ ∧
      ArbNum.toString (ArbNum.saveNumber ['-']) = ['-'] := by
  decide

/-! ## The chunks of the long division -/

namespace Unsigned

/-- A chunk between the divisor and ten times the divisor is resolved by
`divideWithRemSlow` into a one-digit quotient 1..9, and ten rounds of its loop
(nine subtractions and the closing test) are enough. -/
theorem divideWithRemSlow_chunk {chunk divisor : List Int} (hc : IsDigits chunk)
    (hb : IsDigits divisor) (hgt : 2 < value divisor) (hlo : value divisor ≤ value chunk)
    (hhi : value chunk < 10 * value divisor) :
    ∃ q0 r, divideWithRemSlow chunk divisor = some ⟨[q0], r⟩ ∧
      divideWithRemSlowLoop divisor 10 gUnsignedZero chunk = some ⟨[q0], r⟩ ∧
      1 ≤ q0 ∧ q0 ≤ 9 ∧ Canonical r ∧
      value chunk = value divisor * q0 + value r ∧ 0 ≤ value r ∧ value r < value divisor := by
  have hcne : chunk ≠ [] := by
    intro h
    rw [h, value_nil] at hlo
    omega
  obtain ⟨q1, r1, hslow, hq1, hr1d, hr1c, _, hval1, hr0, hrlt⟩ :=
    divideWithRemSlow_canonical hc hb hgt
  have hq1nn := value_nonneg hq1.1
  have hq1lo : 1 ≤ value q1 := by
    by_contra hcon
    have : value q1 = 0 := by omega
    rw [this] at hval1
    simp only [mul_zero, zero_add] at hval1
    omega
  have hq1hi : value q1 ≤ 9 := by
    by_contra hcon
    have h10 : 10 ≤ value q1 := by omega
    have : value divisor * 10 ≤ value divisor * value q1 :=
      mul_le_mul_of_nonneg_left h10 (by omega)
    omega
  have hq1eq : q1 = [value q1] :=
    canonical_unique hq1 (canonical_digit hq1lo hq1hi) (value_singleton _).symm
  obtain ⟨q2, r2, hloop, hq2, _, hr2c, _, _, hval2, hr20, hr2lt⟩ :=
    divideWithRemSlowLoop_spec hb (by omega) 10 gUnsignedZero chunk (by decide) (by decide) hc
      (by push_cast; linarith)
  have hz : value gUnsignedZero = 0 := by decide
  rw [hz, sub_zero] at hval2
  have huniq : value q1 = value q2 ∧ value r1 = value r2 := by
    have h1 : value chunk / value divisor = value q1 ∧ value chunk % value divisor = value r1 :=
      (Int.ediv_emod_unique (by omega)).mpr ⟨by linarith, hr0, hrlt⟩
    have h2 : value chunk / value divisor = value q2 ∧ value chunk % value divisor = value r2 :=
      (Int.ediv_emod_unique (by omega)).mpr ⟨by linarith, hr20, hr2lt⟩
    exact ⟨h1.1.symm.trans h2.1, h1.2.symm.trans h2.2⟩
  have hq12 : q2 = q1 := canonical_unique hq2 hq1 huniq.1.symm
  have hr12 : r2 = r1 := canonical_unique (hr2c hcne) (hr1c hcne) huniq.2.symm
  refine ⟨value q1, r1, ?_, ?_, hq1lo, hq1hi, hr1c hcne, hval1, hr0, hrlt⟩
  · rw [hslow, ← hq1eq]
  · rw [hloop, hq12, hr12, ← hq1eq]

/-- The invariant of the long-division loop, for the chunks: from a state whose
running dividend holds a remainder `pre` below the divisor followed by
`UNASSIGNED` marks, every chunk handed to `divideWithRemSlow` lies between the
divisor and ten times the divisor. -/
theorem divideWithRemFastChunks_spec {dividend divisor : List Int} (ha : IsDigits dividend)
    (hb : IsDigits divisor) (hgt : 2 < value divisor) :
    ∀ (fuel : Nat) (dpre dsuf pre quotient : List Int), dividend = dpre ++ dsuf →
      pre.length = dpre.length → IsDigits pre → value pre < value divisor →
      ∀ chunk ∈ divideWithRemFastChunks dividend divisor fuel
          (pre ++ List.replicate dsuf.length UNASSIGNED) quotient,
        IsDigits chunk ∧ value divisor ≤ value chunk ∧ value chunk < 10 * value divisor := by
  intro fuel
  induction fuel with
  | zero =>
    intro _ _ _ _ _ _ _ _ chunk hmem
    simp [divideWithRemFastChunks] at hmem
  | succ fuel ih =>
    intro dpre dsuf pre quotient hsplit hlpre hpre hlt chunk hmem
    have hdd : IsDigits dpre ∧ IsDigits dsuf := isDigits_append.mp (hsplit ▸ ha)
    have hfind : findDivisibleSizedChunk (pre ++ List.replicate dsuf.length UNASSIGNED)
        dividend divisor =
        findDivisibleSizedChunkLoop divisor (List.replicate dsuf.length UNASSIGNED) dsuf pre
          pre.length := by
      unfold findDivisibleSizedChunk
      rw [hsplit, findChunk_skip hb _ _ pre dpre [] 0 hlpre hpre isDigits_nil (by simpa using hlt)]
      simp
    have hlen : dividend.length = pre.length + dsuf.length := by
      rw [hsplit, List.length_append, hlpre]
    rcases findChunk_scan hb dsuf pre pre.length hdd.2 hpre hlt with
      ⟨heq, hv⟩ | ⟨s1, d, s2, hs, heq, hv1, hv2⟩
    · simp [divideWithRemFastChunks, hfind, heq] at hmem
    · have hs12 : IsDigits s1 ∧ IsDigits (d :: s2) := isDigits_append.mp (hs ▸ hdd.2)
      have hd2 := isDigits_cons.mp hs12.2
      have hps : IsDigits (pre ++ s1) := isDigits_append.mpr ⟨hpre, hs12.1⟩
      have hchunk : IsDigits (pre ++ s1 ++ [d]) :=
        isDigits_append.mpr ⟨hps, isDigits_singleton.mpr hd2.1⟩
      have hcne : pre ++ s1 ++ [d] ≠ [] := by simp
      have hcval : value (pre ++ s1 ++ [d]) = 10 * value (pre ++ s1) + d :=
        value_append_singleton _ _
      have hhi : value (pre ++ s1 ++ [d]) < 10 * value divisor := by
        have := hd2.1.2
        omega
      obtain ⟨q0, r1, hslow, _, _, _, hr1can, hval1, hr0, hrlt⟩ :=
        divideWithRemSlow_chunk hchunk hb hgt hv2 hhi
      have hr1d := hr1can.1
      have hle1 : value r1 ≤ value (pre ++ s1 ++ [d]) := by omega
      obtain ⟨hppd, hppv, _⟩ := subtractMutable_spec hchunk hr1d hle1
      have hle2 : value (subtract (pre ++ s1 ++ [d]) r1) ≤ value (pre ++ s1 ++ [d]) := by
        show value (subtractMutable _ _) ≤ _
        rw [hppv]; omega
      obtain ⟨hremd, hremv, hremc⟩ := subtractMutable_spec hchunk hppd hle2
      have hremcan := hremc (Or.inl hcne)
      obtain ⟨rem, hremeq⟩ : ∃ rem, rem = subtractMutable (pre ++ s1 ++ [d])
          (subtractMutable (pre ++ s1 ++ [d]) r1) := ⟨_, rfl⟩
      rw [← hremeq] at hremd hremv hremcan
      have hremval : value rem = value r1 := by
        rw [hremv, hppv]; ring
      have hremlen : rem.length ≤ pre.length + s1.length + 1 := by
        apply canonical_length_le hremcan (by omega)
        rw [hremval]
        have := value_lt_pow hchunk
        simp only [List.length_append, List.length_singleton] at this
        omega
      have hdsl : dsuf.length = s1.length + 1 + s2.length := by
        rw [hs]; simp; omega
      have hk : dividend.length - (pre.length + s1.length) - 1 = s2.length := by omega
      have hn : dividend.length - (rem.length + s2.length) =
          pre.length + s1.length + 1 - rem.length := by omega
      have hrun : pad (appendRight (subtract (pre ++ s1 ++ [d])
            (subtract (pre ++ s1 ++ [d]) r1)) UNASSIGNED
            (dividend.length - (pre.length + s1.length) - 1)) dividend.length =
          (List.replicate (pre.length + s1.length + 1 - rem.length) 0 ++ rem) ++
          List.replicate s2.length UNASSIGNED := by
        simp only [subtract, ← hremeq]
        simp only [pad, appendRight, List.length_append, List.length_replicate, hk, hn,
          List.append_assoc]
      have hsplit' : dividend = (dpre ++ s1 ++ [d]) ++ s2 := by
        rw [hsplit, hs]; simp
      simp only [divideWithRemFastChunks, hfind, heq, hslow, List.head?_cons] at hmem
      simp only [Bool.not_true, Bool.false_eq_true, if_false, List.mem_cons] at hmem
      rcases hmem with hm | hm
      · rw [hm]
        exact ⟨hchunk, hv2, hhi⟩
      · rw [hrun] at hm
        exact ih (dpre ++ s1 ++ [d]) s2
          (List.replicate (pre.length + s1.length + 1 - rem.length) 0 ++ rem) _ hsplit'
          (by simp only [List.length_append, List.length_replicate, List.length_singleton]; omega)
          (isDigits_append.mpr ⟨isDigits_replicate_zero _, hremd⟩)
          (by rw [value_replicate_zero_append, hremval]; exact hrlt)
          chunk hm

end Unsigned

/-- C31: in `Unsigned::divideWithRemFast` with digit sequences as operands and a
divisor above 2, every chunk handed to `divideWithRemSlow` satisfies
`divisor <= chunk < 10 * divisor`; `divideWithRemSlow` returns for it a quotient
of exactly one digit, between 1 and 9, so its first digit is the whole partial
quotient, and ten rounds of the subtraction loop (at most nine subtractions and
the closing test) give the same result. -/
theorem C31_chunk_bounds (dividend divisor : List Int) (ha : Unsigned.IsDigits dividend)
    (hb : Unsigned.IsDigits divisor) (hgt : 2 < Unsigned.value divisor) :
    ∀ chunk ∈ Unsigned.divideWithRemFastCalls dividend divisor,
      Unsigned.value divisor ≤ Unsigned.value chunk ∧
      Unsigned.value chunk < 10 * Unsigned.value divisor ∧
      ∃ q0 r, Unsigned.divideWithRemSlow chunk divisor = some ⟨[q0], r⟩ ∧
        Unsigned.divideWithRemSlowLoop divisor 10 Unsigned.gUnsignedZero chunk =
          some ⟨[q0], r⟩ ∧
        1 ≤ q0 ∧ q0 ≤ 9 ∧
        Unsigned.value chunk = Unsigned.value divisor * q0 + Unsigned.value r ∧
        0 ≤ Unsigned.value r ∧ Unsigned.value r < Unsigned.value divisor := by
  intro chunk hmem
  obtain ⟨hn0, hn1, hn2⟩ := Unsigned.switch_none_of_gt hb hgt
  simp only [Unsigned.divideWithRemFastCalls, if_neg hn0, if_neg hn1, if_neg hn2] at hmem
  have hinit : Unsigned.appendRight [] Unsigned.UNASSIGNED dividend.length =
      [] ++ List.replicate dividend.length Unsigned.UNASSIGNED := by
    simp [Unsigned.appendRight]
  rw [hinit] at hmem
  obtain ⟨hc, hlo, hhi⟩ := Unsigned.divideWithRemFastChunks_spec ha hb hgt _ [] dividend [] _
    rfl rfl Unsigned.isDigits_nil (by rw [Unsigned.value_nil]; omega) chunk hmem
  obtain ⟨q0, r, h1, h2, h3, h4, _, h5, h6, h7⟩ :=
    Unsigned.divideWithRemSlow_chunk hc hb hgt hlo hhi
  exact ⟨hlo, hhi, q0, r, h1, h2, h3, h4, h5, h6, h7⟩

theorem C31_chunk_bounds_witness :
    (Unsigned.IsDigits [9, 8, 7, 6, 5] ∧ Unsigned.IsDigits [1, 2, 3] ∧
      2 < Unsigned.value [1, 2, 3]) ∧
    ∀ chunk ∈ Unsigned.divideWithRemFastCalls [9, 8, 7, 6, 5] [1, 2, 3],
      Unsigned.value [1, 2, 3] ≤ Unsigned.value chunk ∧
      Unsigned.value chunk < 10 * Unsigned.value [1, 2, 3] ∧
      ∃ q0 r, Unsigned.divideWithRemSlow chunk [1, 2, 3] = some ⟨[q0], r⟩ ∧
        Unsigned.divideWithRemSlowLoop [1, 2, 3] 10 Unsigned.gUnsignedZero chunk =
          some ⟨[q0], r⟩ ∧
        1 ≤ q0 ∧ q0 ≤ 9 ∧
        Unsigned.value chunk = Unsigned.value [1, 2, 3] * q0 + Unsigned.value r ∧
        0 ≤ Unsigned.value r ∧ Unsigned.value r < Unsigned.value [1, 2, 3] :=
  ⟨by decide, C31_chunk_bounds [9, 8, 7, 6, 5] [1, 2, 3] (by decide) (by decide) (by decide)⟩

/-- The chunks of `98765 / 123`: 987, then its remainder 3 with the next two
digits, 365, under the leading zeros of the padded running dividend. -/
theorem divideWithRemFastCalls_example :
    Unsigned.divideWithRemFastCalls [9, 8, 7, 6, 5] [1, 2, 3] =
      [[9, 8, 7], [0, 0, 3, 6, 5]] ∧
    Unsigned.divideWithRemFastCalls [1, 0, 0, 0] [3] = [[1, 0], [0, 1, 0], [0, 0, 1, 0]] ∧
    Unsigned.divideWithRemFastCalls [1, 0, 0, 0] [2] = [] := by
  decide

/-! ## The calculator: a non-Normal right operand -/

namespace Calc

/-- One round of the loop of `Calc::expr` in which the operand to the right of the
operator is not Normal: the loop returns the value accumulated so far, unchanged. -/
theorem exprLoop_right_not_normal (fuel : Nat) (a b : ArbNum) (tokenizer t2 : Tokenizer)
    (op : Char) (htype : tokenizer.getOperatorToken.1.type = Token.TokType.T_PUNCT)
    (hop : tokenizer.getOperatorToken.1.string.head? = some op) (hc : op ≠ ',') (hb : op ≠ ')')
    (hright : simpleExpr fuel tokenizer.getOperatorToken.2 = some (b, t2))
    (hnot : b.isNormal = false) :
    exprLoop (fuel + 1) a tokenizer = some (a, t2) := by
  have h1 : ¬ tokenizer.getOperatorToken.1.type = Token.TokType.T_EOL := by
    rw [htype]; decide
  simp [exprLoop, h1, htype, hop, hc, hb, hright, hnot]

/-- `Calc::expr` with a Normal first operand, an operator, and a right operand
that is not Normal returns the first operand, a Normal value. -/
theorem expr_right_not_normal (fuel : Nat) (a b : ArbNum) (tokenizer t1 t2 : Tokenizer)
    (op : Char) (hleft : simpleExpr (fuel + 1) tokenizer = some (a, t1))
    (ha : a.isNormal = true)
    (htype : t1.getOperatorToken.1.type = Token.TokType.T_PUNCT)
    (hop : t1.getOperatorToken.1.string.head? = some op) (hc : op ≠ ',') (hb : op ≠ ')')
    (hright : simpleExpr fuel t1.getOperatorToken.2 = some (b, t2))
    (hnot : b.isNormal = false) :
    expr (fuel + 2) tokenizer = some (a, t2) ∧ a.isNormal = true := by
  refine ⟨?_, ha⟩
  rw [expr, hleft]
  simp only [ha, Bool.not_true, Bool.false_eq_true, if_false]
  exact exprLoop_right_not_normal fuel a b t1 t2 op htype hop hc hb hright hnot

end Calc

/-- C34 (code at the failing inputs): in `1 + foo` the operand to the right of `+`
evaluates to a value in the Error state, yet `Calc::expr` returns the Normal value
1 and `Calc::run` prints "1"; in `gcd(4, foo)` the second argument evaluates to a
value in the Error state, yet the call returns the Normal value 4.  When the
left operand or the first argument is the one that is not Normal, an Error value
is returned and nothing is printed. -/
theorem C34_right_operand_not_propagated :
    (Calc.expr 24 (Tokenizer.new " foo".toList)).map (fun r => r.1.isError) = some true ∧
      (Calc.expr 24 (Tokenizer.new "1 + foo".toList)).map (fun r => r.1) =
        some ⟨SpecialType.SPEC_NORMAL, 1, [1]⟩ ∧
      Calc.run "1 + foo".toList = some ['1', '\n'] ∧
      (Calc.expr 36 (Tokenizer.new "gcd(4, foo)".toList)).map (fun r => r.1) =
        some ⟨SpecialType.SPEC_NORMAL, 1, [4]⟩ ∧
      Calc.run "gcd(4, foo)".toList = some ['4', '\n'] ∧
      (Calc.expr 24 (Tokenizer.new "foo + 1".toList)).map (fun r => r.1.isError) = some true ∧
      Calc.run "foo + 1".toList = some [] ∧
      (Calc.expr 36 (Tokenizer.new "gcd(foo, 4)".toList)).map (fun r => r.1.isError) =
        some true ∧
      Calc.run "gcd(foo, 4)".toList = some [] := by
  decide

/-- Lines the calculator evaluates as its help text promises; operators apply
from left to right. -/
theorem run_examples :
    Calc.run "1 + 2".toList = some ['3', '\n'] ∧
      Calc.run "3 * 4".toList = some ['1', '2', '\n'] ∧
      Calc.run "1 + (2 * 3)".toList = some ['7', '\n'] ∧
      Calc.run "2 + 3 * 4".toList = some ['2', '0', '\n'] ∧
      Calc.run "gcd(10 * 10, 6 + 7)".toList = some ['1', '\n'] := by
  decide
